import Mathlib

/-!
Verification development for the core of the ProJoin weighted model-counting /
MaxSAT / projected-counting engine (source: src/addmc/src/logic.cc).

The C++ code is shallowly embedded as follows.

* `std::map` / `std::multimap` keyed containers are modelled as association
  lists sorted by key (`List (Int × β)`), matching the key-sorted iteration of
  the ordered standard containers; the repository's `Map`/`Set` typedefs live
  in logic.hh (not under src/), so the deterministic key-sorted iteration
  order documented by the specification is adopted throughout.
* `Set<Int>` is modelled as `Finset Int`; where iteration order matters we
  iterate the ascending sort of the set.
* `Number` is modelled in its exact arithmetic universe (`mpq_class`
  rationals) as `ℚ`, and in log-counting mode (`Float` with `-INF` encoding
  zero) as `Option ℝ` with `none` standing for `-INF`.
* Thrown C++ exceptions become `Except` errors; `vector::at` out-of-range and
  `stoll`/`stod` failures are distinguished from `MyError` and
  `EmptyClauseException`.
* Unbounded loops are given explicit fuel where the C++ termination argument
  is not structural; every use site passes enough fuel for the reachable
  states, as noted at each definition.
-/

/-! ### Association-list maps (model of std::map with key-sorted entries) -/

/-- Lookup in an association list: first entry with the given key. -/
def mapFind? {β : Type} (m : List (Int × β)) (k : Int) : Option β :=
  match m with
  | [] => none
  | (k', v) :: rest => if k = k' then some v else mapFind? rest k

/-- Lookup with a default value (reading side of std::map operator[]). -/
def mapFindD {β : Type} (m : List (Int × β)) (k : Int) (d : β) : β :=
  (mapFind? m k).getD d

/-- Key-membership test (std::map contains). -/
def mapContains {β : Type} (m : List (Int × β)) (k : Int) : Bool :=
  (mapFind? m k).isSome

/-- Insert-or-assign at the sorted position (std::map operator[] followed by
assignment). -/
def mapSet {β : Type} : List (Int × β) → Int → β → List (Int × β)
  | [], k, v => [(k, v)]
  | (k', v') :: rest, k, v =>
    if k < k' then (k, v) :: (k', v') :: rest
    else if k = k' then (k, v) :: rest
    else (k', v') :: mapSet rest k v

/-- Insert at the sorted position only when the key is absent
(std::map insert, which keeps the existing entry). -/
def mapInsertIfAbsent {β : Type} : List (Int × β) → Int → β → List (Int × β)
  | [], k, v => [(k, v)]
  | (k', v') :: rest, k, v =>
    if k < k' then (k, v) :: (k', v') :: rest
    else if k = k' then (k', v') :: rest
    else (k', v') :: mapInsertIfAbsent rest k v

/-- Erase a key (std::map erase). -/
def mapErase {β : Type} : List (Int × β) → Int → List (Int × β)
  | [], _ => []
  | (k', v') :: rest, k =>
    if k = k' then rest else (k', v') :: mapErase rest k

/-- Keys of an association list. -/
def mapKeys {β : Type} (m : List (Int × β)) : List Int :=
  m.map Prod.fst

/-! ### Basic lemmas about the association-list maps -/

theorem mapFind?_mapSet_eq {β : Type} (m : List (Int × β)) (k : Int) (v : β) :
    mapFind? (mapSet m k v) k = some v := by
  induction m with
  | nil => simp [mapSet, mapFind?]
  | cons p rest ih =>
    obtain ⟨k', v'⟩ := p
    by_cases h1 : k < k'
    · simp [mapSet, h1, mapFind?]
    · by_cases h2 : k = k'
      · simp [mapSet, h1, h2, mapFind?]
      · simp [mapSet, h1, h2, mapFind?, ih]

theorem mapFind?_mapSet_ne {β : Type} (m : List (Int × β)) (k k₀ : Int) (v : β)
    (h : k₀ ≠ k) : mapFind? (mapSet m k v) k₀ = mapFind? m k₀ := by
  induction m with
  | nil => simp [mapSet, mapFind?, h]
  | cons p rest ih =>
    obtain ⟨k', v'⟩ := p
    by_cases h1 : k < k'
    · simp [mapSet, h1, mapFind?, h]
    · by_cases h2 : k = k'
      · subst h2
        simp [mapSet, h1, mapFind?, h]
      · by_cases h3 : k₀ = k'
        · simp [mapSet, h1, h2, mapFind?, h3]
        · simp [mapSet, h1, h2, mapFind?, h3, ih]

/-- Invariant of std::map: entry keys are strictly increasing. -/
def mapSorted {β : Type} (m : List (Int × β)) : Prop :=
  m.Pairwise (fun p q => p.1 < q.1)

instance {β : Type} (m : List (Int × β)) : Decidable (mapSorted m) :=
  inferInstanceAs (Decidable (m.Pairwise fun p q : Int × β => p.1 < q.1))

theorem mapFind?_eq_none {β : Type} (m : List (Int × β)) (k : Int)
    (h : ∀ p ∈ m, k ≠ p.1) : mapFind? m k = none := by
  induction m with
  | nil => rfl
  | cons p rest ih =>
    obtain ⟨k', v'⟩ := p
    have hk : k ≠ k' := h (k', v') (List.mem_cons_self _ _)
    simp only [mapFind?, if_neg hk]
    exact ih fun q hq => h q (List.mem_cons_of_mem _ hq)

theorem mapFind?_mapInsertIfAbsent_eq {β : Type} (m : List (Int × β)) (k : Int) (v : β)
    (hs : mapSorted m) :
    mapFind? (mapInsertIfAbsent m k v) k = some ((mapFind? m k).getD v) := by
  induction m with
  | nil => simp [mapInsertIfAbsent, mapFind?]
  | cons p rest ih =>
    obtain ⟨k', v'⟩ := p
    rw [mapSorted, List.pairwise_cons] at hs
    by_cases h1 : k < k'
    · have hne : k ≠ k' := by omega
      have hrest : mapFind? rest k = none :=
        mapFind?_eq_none rest k fun q hq => by
          have := hs.1 q hq
          omega
      simp [mapInsertIfAbsent, h1, mapFind?, hne, hrest]
    · by_cases h2 : k = k'
      · subst h2
        simp [mapInsertIfAbsent, h1, mapFind?]
      · simp [mapInsertIfAbsent, h1, h2, mapFind?, ih hs.2]

theorem mapFind?_mapInsertIfAbsent_ne {β : Type} (m : List (Int × β)) (k k₀ : Int) (v : β)
    (h : k₀ ≠ k) :
    mapFind? (mapInsertIfAbsent m k v) k₀ = mapFind? m k₀ := by
  induction m with
  | nil => simp [mapInsertIfAbsent, mapFind?, h]
  | cons p rest ih =>
    obtain ⟨k', v'⟩ := p
    by_cases h1 : k < k'
    · simp [mapInsertIfAbsent, h1, mapFind?, h]
    · by_cases h2 : k = k'
      · subst h2
        simp [mapInsertIfAbsent, h1, mapFind?]
      · by_cases h3 : k₀ = k'
        · simp [mapInsertIfAbsent, h1, h2, mapFind?, h3]
        · simp [mapInsertIfAbsent, h1, h2, mapFind?, h3, ih]

theorem mapFind?_mapErase {β : Type} (m : List (Int × β)) (k k₀ : Int)
    (hs : mapSorted m) :
    mapFind? (mapErase m k) k₀ = if k₀ = k then none else mapFind? m k₀ := by
  induction m with
  | nil => simp [mapErase, mapFind?]
  | cons p rest ih =>
    obtain ⟨k', v'⟩ := p
    rw [mapSorted, List.pairwise_cons] at hs
    by_cases h1 : k = k'
    · subst h1
      by_cases h2 : k₀ = k
      · subst h2
        have hrest : mapFind? rest k₀ = none :=
          mapFind?_eq_none rest k₀ fun q hq => by
            have := hs.1 q hq
            omega
        simp [mapErase, mapFind?, hrest]
      · simp [mapErase, mapFind?, h2]
    · have h1' : ¬ k = k' := h1
      by_cases h2 : k₀ = k'
      · subst h2
        have hne : ¬ k₀ = k := fun he => h1 he.symm
        simp [mapErase, h1', mapFind?, hne]
      · simp [mapErase, h1', mapFind?, h2, ih hs.2]

/-! ### Assignment (class Assignment : Map<Int, bool>)

An assignment is a key-sorted association list from variables to Booleans,
modelling the ordered map underlying `class Assignment`. -/

def Assignment : Type := List (Int × Bool)

instance : DecidableEq Assignment := by
  unfold Assignment
  infer_instance

/-- Assignment construction `Assignment(var, val)` (logic.cc line 943). -/
def Assignment.single (var : Int) (val : Bool) : Assignment :=
  [(var, val)]

/-- Map write `assignment[var] = val`. -/
def Assignment.setVar (a : Assignment) (var : Int) (val : Bool) : Assignment :=
  mapSet a var val

/-- Assignment::extendAssignments (logic.cc lines 956-971): each input
assignment is copied, bound at `var` to false, pushed, then bound at `var` to
true and pushed; an empty input list yields the two singleton assignments. -/
def Assignment.extendAssignments (assignments : List Assignment) (var : Int) :
    List Assignment :=
  match assignments with
  | [] => [Assignment.single var false, Assignment.single var true]
  | _ :: _ =>
    assignments.flatMap fun assignment =>
      [Assignment.setVar assignment var false,
       Assignment.setVar (Assignment.setVar assignment var false) var true]

theorem setVar_setVar (a : Assignment) (var : Int) (b c : Bool) :
    Assignment.setVar (Assignment.setVar a var b) var c = Assignment.setVar a var c := by
  show mapSet (mapSet a var b) var c = mapSet a var c
  induction a with
  | nil => simp [mapSet]
  | cons p rest ih =>
    obtain ⟨k', v'⟩ := p
    by_cases h1 : var < k'
    · simp [mapSet, h1, lt_irrefl]
    · by_cases h2 : var = k'
      · subst h2
        simp [mapSet, h1, lt_irrefl]
      · simp [mapSet, h1, h2, ih]

/-! ### Number in log-counting mode (Number::getLogSumExp)

In log-counting mode `Number` stores a `Float` interpreted as a base-10
logarithm, with `-INF` encoding zero.  The float is modelled as `Option ℝ`,
`none` standing for `-INF`; `exp10l`/`log10l` become real powers of 10 and
`Real.logb 10`. -/

/-- Number::getLogSumExp (logic.cc lines 154-164): if either operand stores
`-INF` the other operand's stored float is returned; otherwise the stable
log-sum-exp formula is applied around the maximum of the two stored floats. -/
noncomputable def Number.getLogSumExp (fraction nFraction : Option ℝ) : Option ℝ :=
  match fraction, nFraction with
  | none, y => y
  | some a, none => some a
  | some a, some b =>
    let m := max a b
    some (Real.logb 10 ((10 : ℝ) ^ (a - m) + (10 : ℝ) ^ (b - m)) + m)

/-! ### Graph (class Graph)

`vertices` mirrors `Graph::vertices`; the adjacency map is modelled as a
total function that is the empty set outside the key set, with the key set of
`adjacencyMap` being exactly `vertices` (maintained by the constructor,
`addEdge`, and `removeVertex` in the C++ code). -/

structure Graph where
  vertices : Finset Int
  adj : Int → Finset Int

/-- Graph constructor from a vertex set (logic.cc lines 242-247): every
vertex gets an empty neighbor set. -/
def Graph.ofVertices (vs : Finset Int) : Graph :=
  ⟨vs, fun _ => ∅⟩

/-- Graph::addEdge (logic.cc lines 249-252), the successful case: inserts
each endpoint into the other's neighbor set.  `vector::at` succeeds exactly
when both endpoints are current vertices; the checked wrapper
`Graph.applyOp` guards the call accordingly. -/
def Graph.addEdgeU (g : Graph) (v1 v2 : Int) : Graph :=
  ⟨g.vertices, fun u =>
    let a := fun u => if u = v1 then insert v2 (g.adj u) else g.adj u
    if u = v2 then insert v1 (a u) else a u⟩

/-- Graph::isNeighbor (logic.cc lines 254-256). -/
def Graph.isNeighbor (g : Graph) (v1 v2 : Int) : Bool :=
  decide (v2 ∈ g.adj v1)

/-- Graph::removeVertex (logic.cc lines 280-288): drops the vertex, its
adjacency entry, and its occurrence in every remaining neighbor set. -/
def Graph.removeVertex (g : Graph) (v : Int) : Graph :=
  ⟨g.vertices.erase v, fun u => if u = v then ∅ else (g.adj u).erase v⟩

/-- All ordered pairs (earlier, later) of a list, in iteration order; models
the nested iterator loops `for n1; for n2 = next(n1)` over a set. -/
def iterPairs : List Int → List (Int × Int)
  | [] => []
  | x :: rest => rest.map (fun y => (x, y)) ++ iterPairs rest

/-- Graph::fillInEdges (logic.cc lines 290-297): adds every edge between two
neighbors of `v`. -/
def Graph.fillInEdges (g : Graph) (v : Int) : Graph :=
  (iterPairs ((g.adj v).sort (· ≤ ·))).foldl
    (fun g' p => g'.addEdgeU p.1 p.2) g

/-- Graph::countFillInEdges (logic.cc lines 299-310): counts missing edges
between pairs of neighbors of `v`. -/
def Graph.countFillInEdges (g : Graph) (v : Int) : Int :=
  (iterPairs ((g.adj v).sort (· ≤ ·))).foldl
    (fun count p => if ¬ g.isNeighbor p.1 p.2 then count + 1 else count) 0

/-- First element of the list minimising `f`, by strict improvement in
iteration order; models the `count < fillInEdgeCount` update loop of
Graph::getMinfillVertex. -/
def firstMinBy (l : List Int) (f : Int → Int) : Option Int :=
  l.foldl
    (fun best v =>
      match best with
      | none => some v
      | some b => if f v < f b then some v else some b)
    none

/-- Graph::getMinfillVertex (logic.cc lines 312-329): first vertex in
iteration order with the fewest fill-in edges; `MyError` when the graph has
no vertex. -/
def Graph.getMinfillVertex (g : Graph) : Except String Int :=
  match firstMinBy (g.vertices.sort (· ≤ ·)) g.countFillInEdges with
  | none => .error "graph has no vertex"
  | some v => .ok v

mutual

/-- Depth-first search of Graph::hasPath (logic.cc lines 258-273), with the
visited set threaded by reference through the loop over the snapshot of
unvisited neighbors.  The C++ recursion has no structural measure, so fuel
bounds the recursion depth; `Graph.hasPathB` passes fuel that dominates the
depth reachable from any start (the visited set grows along every deepening
chain of at most two nested calls). -/
def Graph.hasPathAux (g : Graph) (to' : Int) :
    Nat → Int → Finset Int → Bool × Finset Int
  | fuel, from', visited =>
    if from' = to' then (true, visited)
    else
      match fuel with
      | 0 => (false, visited)
      | fuel' + 1 =>
        let visited' := insert from' visited
        Graph.hasPathList g to' fuel' ((g.adj from' \ visited').sort (· ≤ ·)) visited'
termination_by fuel _ _ => (fuel, 0)

/-- Loop over the unvisited-neighbor snapshot inside Graph::hasPath. -/
def Graph.hasPathList (g : Graph) (to' : Int) :
    Nat → List Int → Finset Int → Bool × Finset Int
  | _, [], visited => (false, visited)
  | fuel, v :: rest, visited =>
    let r := Graph.hasPathAux g to' fuel v visited
    if r.1 then (true, r.2) else Graph.hasPathList g to' fuel rest r.2
termination_by fuel l _ => (fuel, l.length)

end

/-- Graph::hasPath entry point (logic.cc lines 275-278). -/
def Graph.hasPathB (g : Graph) (from' to' : Int) : Bool :=
  (Graph.hasPathAux g to' (2 * g.vertices.card + 2) from' ∅).1

/-! ### Pseudo-Boolean canonicalization (PB_canonicalize)

A pseudo-Boolean constraint carries its variable/literal set (`Clause`, a
`Set<Int>`), its coefficient map (`Map<Int,Int>`), the right-hand side `k`
and the comparator code (`>=` is 1, `=` is 2, `<=` is 3). -/

structure PBState where
  clause : Finset Int
  coefs : List (Int × Int)
  k : Int
  comparator : Int
  deriving DecidableEq

/-- Step of the negative-coefficient absorption loop of PB_canonicalize
(logic.cc lines 623-631), for one `var` of the clause iteration: the
`coefs[var]` read is map operator[], which inserts a zero entry when the key
is absent; when the coefficient is negative, an entry for `-var` with the
negated coefficient is inserted (std::map insert: kept out if present), `k`
is decreased by the negative coefficient, and the entry for `var` erased. -/
def pbAbsorbStep (st : List (Int × Int) × List Int × Int) (var : Int) :
    List (Int × Int) × List Int × Int :=
  let coefs := st.1
  let tempVar := st.2.1
  let k := st.2.2
  let coefs := if mapContains coefs var then coefs else mapSet coefs var 0
  let c := mapFindD coefs var 0
  if c < 0 then
    let coefs := mapInsertIfAbsent coefs (-var) (-c)
    let tempVar := tempVar ++ [-var]
    let k := k - c
    let coefs := mapErase coefs var
    (coefs, tempVar, k)
  else (coefs, tempVar, k)

/-- PB_canonicalize (logic.cc lines 613-636): a `<=` constraint is negated
into a `>=` constraint; then every variable of the clause whose coefficient
is negative is replaced by the literal of its negation with positive
coefficient, adjusting `k`; finally the clause swaps each flipped variable
for its negation. -/
def PB_canonicalize (st : PBState) : PBState :=
  let st :=
    if st.comparator = 3 then
      { st with
        comparator := 1
        k := -st.k
        coefs := (st.clause.sort (· ≤ ·)).foldl
          (fun coefs var =>
            -- coefs[var] *= -1, with operator[] inserting 0 when absent
            let coefs := if mapContains coefs var then coefs else mapSet coefs var 0
            mapSet coefs var (-(mapFindD coefs var 0)))
          st.coefs }
    else st
  let r := (st.clause.sort (· ≤ ·)).foldl pbAbsorbStep (st.coefs, [], st.k)
  let clause := r.2.1.foldl (fun clause var => (insert var clause).erase (-var)) st.clause
  { st with clause := clause, coefs := r.1, k := r.2.2 }

/-- Integer value of the literal standing for variable `v` of a PB
constraint under a total assignment: a positive `v` denotes the variable
itself, a negative `v` denotes `1 - x_{-v}` (the negated variable), exactly
the representation used by PB_canonicalize and the downstream evaluation. -/
def litVal (σ : Int → Bool) (v : Int) : Int :=
  if 0 < v then (if σ v then 1 else 0) else 1 - (if σ (-v) then 1 else 0)

/-- Left-hand-side sum of a PB constraint: coefficient times literal value,
over the constraint's variable set, coefficients read from the map. -/
def pbSum (σ : Int → Bool) (st : PBState) : Int :=
  st.clause.sum fun v => mapFindD st.coefs v 0 * litVal σ v

/-- Satisfaction of a PB constraint under a total assignment, by comparator
code (`>=` is 1, `=` is 2, `<=` is 3). -/
def pbSatB (σ : Int → Bool) (st : PBState) : Bool :=
  if st.comparator = 1 then decide (st.k ≤ pbSum σ st)
  else if st.comparator = 2 then decide (pbSum σ st = st.k)
  else if st.comparator = 3 then decide (pbSum σ st ≤ st.k)
  else true

/-! ### Label (class Label : vector<Int> kept sorted descending) -/

abbrev Label : Type := List Int

/-- Descending insertion used to model re-sorting after a push. -/
def sortDescInsert (i : Int) : List Int → List Int
  | [] => [i]
  | x :: rest => if x < i then i :: x :: rest else x :: sortDescInsert i rest

/-- Descending insertion sort, the canonical result of
`sort(begin(), end(), greater<Int>())`. -/
def sortDesc : List Int → List Int
  | [] => []
  | x :: rest => sortDescInsert x (sortDesc rest)

/-- Label::addNumber (logic.cc lines 333-336): push the number, then sort
the label descending. -/
def Label.addNumber (l : Label) (i : Int) : Label :=
  sortDesc (l ++ [i])

/-- Lexicographic `operator<` of std::vector, used through
Label::hasSmallerLabel (logic.cc lines 338-340). -/
def labelLt : Label → Label → Bool
  | [], [] => false
  | [], _ :: _ => true
  | _ :: _, [] => false
  | a :: as, b :: bs => if a < b then true else if b < a then false else labelLt as bs

/-- Lexicographic `operator>=` of std::vector: the negation of `<`. -/
def labelGe (a b : Label) : Bool :=
  ! labelLt a b

/-! ### Cnf data model (class Cnf)

`clauses` are `Set<Int>` literal sets (class Clause); the parallel per-clause
arrays `types`, `weights`, `coefLists`, `comparators`, `klist` mirror the C++
fields; `literalWeights` and `varToClauses` are key-sorted maps;
`additiveVars` and `apparentVars` are `Set<Int>`.  Weights are exact
rationals (the mpq universe of Number). -/

structure Cnf where
  declaredVarCount : Int := 0
  clauses : List (Finset Int) := []
  types : List Char := []
  weights : List ℚ := []
  coefLists : List (List (Int × Int)) := []
  comparators : List Int := []
  klist : List Int := []
  literalWeights : List (Int × ℚ) := []
  additiveVars : Finset Int := ∅
  varToClauses : List (Int × Finset Nat) := []
  apparentVars : Finset Int := ∅
  trivialBoundPartialMaxSAT : Int := 0
  deriving DecidableEq

/-- Clause::getClauseVars (logic.cc lines 351-357). -/
def getClauseVars (clause : Finset Int) : Finset Int :=
  clause.image fun literal => |literal|

/-- Cnf::addClause (logic.cc lines 389-407): appends the clause and its
parallel per-clause data, and registers the clause index under the variable
of each literal.  The C++ declaration's default arguments for `comparator`,
`coefs` and `k` live in logic.hh (not under src/); call sites for CNF and
XOR clauses pass the neutral values 0, empty, 0. -/
def Cnf.addClause (cnf : Cnf) (clause : Finset Int) (type : Char) (weight : ℚ)
    (comparator : Int := 0) (coefs : List (Int × Int) := []) (k : Int := 0) : Cnf :=
  let clauseIndex : Nat := cnf.clauses.length
  { cnf with
    clauses := cnf.clauses ++ [clause]
    types := cnf.types ++ [type]
    weights := cnf.weights ++ [weight]
    coefLists := cnf.coefLists ++ [coefs]
    comparators := cnf.comparators ++ [comparator]
    klist := cnf.klist ++ [k]
    varToClauses := (clause.sort (· ≤ ·)).foldl
      (fun m literal =>
        let var := |literal|
        match mapFind? m var with
        | some s => mapSet m var (insert clauseIndex s)
        | none => mapSet m var {clauseIndex}) cnf.varToClauses }

/-- Cnf::setApparentVars (logic.cc lines 409-413). -/
def Cnf.setApparentVars (cnf : Cnf) : Cnf :=
  { cnf with
    apparentVars := (mapKeys cnf.varToClauses).foldl (fun s v => insert v s) ∅ }

/-- Cnf::getPrimalGraph (logic.cc lines 415-427): a graph on the apparent
variables with an edge between the variables of every pair of literals that
share a clause. -/
def Cnf.getPrimalGraph (cnf : Cnf) : Graph :=
  cnf.clauses.foldl
    (fun graph clause =>
      (iterPairs (clause.sort (· ≤ ·))).foldl
        (fun g p => g.addEdgeU |p.1| |p.2|) graph)
    (Graph.ofVertices cnf.apparentVars)

/-! ### The seven CNF variable-order heuristics -/

/-- Swap of two positions of a vector, the primitive of std::shuffle. -/
def listSwap (l : List Int) (i j : Nat) : List Int :=
  (l.set i (l.getD j 0)).set j (l.getD i 0)

/-- Fisher-Yates traversal of std::shuffle as used by
Cnf::getRandomVarOrder (logic.cc lines 429-435): position `i` is swapped
with a position drawn from `[0, i]`.  The mt19937 engine seeded with the
process-global randomSeed is external library state; it is modelled by an
arbitrary index source `rnd`, reduced into range exactly as the uniform
distribution requires. -/
def fyShuffle (rnd : Nat → Nat) (l : List Int) : List Int :=
  (List.range l.length).foldl
    (fun acc i => if i = 0 then acc else listSwap acc i (rnd i % (i + 1))) l

/-- Cnf::getRandomVarOrder (logic.cc lines 429-435). -/
def Cnf.getRandomVarOrder (cnf : Cnf) (rnd : Nat → Nat) : List Int :=
  fyShuffle rnd (cnf.apparentVars.sort (· ≤ ·))

/-- The `for var = 1 .. declaredVarCount` iteration as a list. -/
def intRange1 (n : Int) : List Int :=
  (List.range n.toNat).map fun i : Nat => (i : Int) + 1

/-- Cnf::getDeclaredVarOrder (logic.cc lines 437-445). -/
def Cnf.getDeclaredVarOrder (cnf : Cnf) : List Int :=
  (intRange1 cnf.declaredVarCount).filter fun v => decide (v ∈ cnf.apparentVars)

/-- Insertion into a multimap ordered by `greater` on the key: the entry
goes in front of the first strictly-smaller key, hence after all equal keys
(std::multimap insert at the upper bound, stable for equal keys). -/
def mmInsert {α : Type} [LinearOrder α] (e : α × Int) : List (α × Int) → List (α × Int)
  | [] => [e]
  | x :: rest => if x.1 < e.1 then e :: x :: rest else x :: mmInsert e rest

/-- Cnf::getMostClausesVarOrder (logic.cc lines 447-458): vars descending by
clause count through a `multimap<Int, Int, greater<Int>>`. -/
def Cnf.getMostClausesVarOrder (cnf : Cnf) : List Int :=
  let m := cnf.varToClauses.foldl
    (fun acc varAndSet => mmInsert ((varAndSet.2.card : Int), varAndSet.1) acc) []
  m.map Prod.snd

theorem firstMinBy_mem_aux (l : List Int) (f : Int → Int) (acc : Option Int) (v : Int)
    (h : l.foldl
      (fun best w =>
        match best with
        | none => some w
        | some b => if f w < f b then some w else some b) acc = some v) :
    acc = some v ∨ v ∈ l := by
  induction l generalizing acc with
  | nil => exact Or.inl h
  | cons x rest ih =>
    simp only [List.foldl_cons] at h
    rcases ih _ h with h' | h'
    · rcases acc with _ | b
      · simp only [Option.some.injEq] at h'
        exact Or.inr (h' ▸ List.mem_cons_self _ _)
      · by_cases hc : f x < f b
        · simp only [if_pos hc, Option.some.injEq] at h'
          exact Or.inr (h' ▸ List.mem_cons_self _ _)
        · simp only [if_neg hc] at h'
          exact Or.inl h'
    · exact Or.inr (List.mem_cons_of_mem _ h')

theorem firstMinBy_mem (l : List Int) (f : Int → Int) (v : Int)
    (h : firstMinBy l f = some v) : v ∈ l := by
  rcases firstMinBy_mem_aux l f none v h with h' | h'
  · exact absurd h' (by simp)
  · exact h'

theorem getMinfillVertex_mem (g : Graph) (v : Int)
    (h : g.getMinfillVertex = .ok v) : v ∈ g.vertices := by
  unfold Graph.getMinfillVertex at h
  rcases hm : firstMinBy (g.vertices.sort (· ≤ ·)) g.countFillInEdges with _ | w
  · rw [hm] at h
    exact absurd h (by simp)
  · rw [hm] at h
    simp only [Except.ok.injEq] at h
    subst h
    exact (Finset.mem_sort _).mp (firstMinBy_mem _ _ _ hm)

theorem addEdgeU_vertices (g : Graph) (v1 v2 : Int) :
    (g.addEdgeU v1 v2).vertices = g.vertices := rfl

theorem foldl_addEdgeU_vertices (ps : List (Int × Int)) (g : Graph)
    (f : Int × Int → Int × Int) :
    (ps.foldl (fun g' p => g'.addEdgeU (f p).1 (f p).2) g).vertices = g.vertices := by
  induction ps generalizing g with
  | nil => rfl
  | cons p rest ih => simpa using ih (g.addEdgeU (f p).1 (f p).2)

theorem fillInEdges_vertices (g : Graph) (v : Int) :
    (g.fillInEdges v).vertices = g.vertices := by
  unfold Graph.fillInEdges
  induction iterPairs ((g.adj v).sort (· ≤ ·)) generalizing g with
  | nil => rfl
  | cons p rest ih => simpa using ih (g.addEdgeU p.1 p.2)

/-- The while-loop of Cnf::getMinfillVarOrder (logic.cc lines 460-472):
repeatedly take a minfill vertex, saturate its neighborhood, remove it, and
append it to the order.  The `.error` branch is unreachable: a nonempty
graph always yields a minfill vertex. -/
def minfillLoop (graph : Graph) : List Int :=
  if graph.vertices = ∅ then []
  else
    match hv : graph.getMinfillVertex with
    | .error _ => []
    | .ok vertex =>
      vertex :: minfillLoop ((graph.fillInEdges vertex).removeVertex vertex)
termination_by graph.vertices.card
decreasing_by
  have hm : vertex ∈ graph.vertices := getMinfillVertex_mem graph vertex hv
  have h1 : ((graph.fillInEdges vertex).removeVertex vertex).vertices
      = (graph.fillInEdges vertex).vertices.erase vertex := rfl
  rw [h1, fillInEdges_vertices]
  exact Finset.card_erase_lt_of_mem hm

/-- Cnf::getMinfillVarOrder (logic.cc lines 460-472). -/
def Cnf.getMinfillVarOrder (cnf : Cnf) : List Int :=
  minfillLoop cnf.getPrimalGraph

/-- First entry maximising the count, by strict improvement in iteration
order, starting from the MIN_INT sentinel (Cnf::getMcsVarOrder's scan over
rankedNeighborCounts). -/
def firstMaxBySnd (m : List (Int × Int)) : Option Int :=
  (m.foldl
    (fun best p =>
      match best with
      | none => some p
      | some b => if b.2 < p.2 then some p else some b)
    none).map Prod.fst

/-- The do-while loop of Cnf::getMcsVarOrder (logic.cc lines 491-511): push
the best vertex, drop it from the ranked-neighbor-count map, bump the count
of each of its still-unranked neighbors, then rescan for the next best
vertex; the loop ends when the scan finds no entry.  Fuel equals the vertex
count at the entry point, which dominates the map size. -/
def mcsLoop (g : Graph) : Nat → List (Int × Int) → Int → List Int
  | 0, _, best => [best]
  | fuel + 1, counts, best =>
    let counts := mapErase counts best
    let counts := ((g.adj best).sort (· ≤ ·)).foldl
      (fun m n => if mapContains m n then mapSet m n (mapFindD m n 0 + 1) else m)
      counts
    match firstMaxBySnd counts with
    | none => [best]
    | some b => best :: mcsLoop g fuel counts b

/-- Cnf::getMcsVarOrder (logic.cc lines 474-514): maximum cardinality
search from the first vertex in iteration order. -/
def Cnf.getMcsVarOrder (cnf : Cnf) : List Int :=
  let graph := cnf.getPrimalGraph
  match graph.vertices.sort (· ≤ ·) with
  | [] => []
  | startVertex :: rest =>
    mcsLoop graph graph.vertices.card (rest.map fun v => (v, 0)) startVertex

/-- First entry of the label map with the lexicographically largest label
(std::max_element with Label::hasSmallerLabel: replace only on a strictly
greater label, so the first maximum is kept). -/
def firstMaxByLabel (m : List (Int × Label)) : Option Int :=
  (m.foldl
    (fun best p =>
      match best with
      | none => some p
      | some b => if labelLt b.2 p.2 then some p else some b)
    none).map Prod.fst

/-- Main loop of Cnf::getLexpVarOrder (logic.cc lines 516-536): for
`number` counting down from the apparent-variable count, pick the unnumbered
vertex with the largest label, remove it, and append `number` to every
unnumbered neighbor's label.  The `none` branch is unreachable: the map
holds exactly `number` entries. -/
def lexpLoop (g : Graph) : Nat → List (Int × Label) → List Int
  | 0, _ => []
  | number + 1, unnumbered =>
    match firstMaxByLabel unnumbered with
    | none => []
    | some vertex =>
      let unnumbered := mapErase unnumbered vertex
      let unnumbered := ((g.adj vertex).sort (· ≤ ·)).foldl
        (fun m neighbor =>
          if mapContains m neighbor
          then mapSet m neighbor (Label.addNumber (mapFindD m neighbor []) (number + 1))
          else m)
        unnumbered
      vertex :: lexpLoop g number unnumbered

/-- Cnf::getLexpVarOrder (logic.cc lines 516-536). -/
def Cnf.getLexpVarOrder (cnf : Cnf) : List Int :=
  lexpLoop cnf.getPrimalGraph cnf.apparentVars.card
    ((cnf.apparentVars.sort (· ≤ ·)).map fun v => (v, ([] : Label)))

/-- Subgraph built inside Cnf::getLexmVarOrder for a candidate `w`
(logic.cc lines 551-570): the primal graph minus every numbered vertex other
than `v` and minus every unnumbered vertex, other than `w`, whose current
label is not smaller than `w`'s current label. -/
def lexmSubgraph (cnf : Cnf) (numbered : List Int) (v w : Int)
    (m : List (Int × Label)) : Graph :=
  let subgraph := cnf.getPrimalGraph
  let subgraph := numbered.foldl
    (fun sg numberedVertex =>
      if numberedVertex ≠ v then sg.removeVertex numberedVertex else sg)
    subgraph
  m.foldl
    (fun sg p =>
      if p.1 ≠ w ∧ labelGe p.2 (mapFindD m w []) then sg.removeVertex p.1 else sg)
    subgraph

/-- Label-update pass of Cnf::getLexmVarOrder (logic.cc lines 550-575): for
each unnumbered `w` in map iteration order (labels threaded through the
pass), append `i` to `w`'s label iff the subgraph admits a path from the
just-picked `v` to `w`. -/
def lexmUpdate (cnf : Cnf) (numbered : List Int) (v : Int) (i : Int)
    (unnumbered : List (Int × Label)) : List (Int × Label) :=
  (mapKeys unnumbered).foldl
    (fun m w =>
      let subgraph := lexmSubgraph cnf numbered v w m
      if subgraph.hasPathB v w then mapSet m w (Label.addNumber (mapFindD m w []) i) else m)
    unnumbered

/-- Main loop of Cnf::getLexmVarOrder (logic.cc lines 538-578), with the
same structure as the LEXP loop but the path-based label update. -/
def lexmLoop (cnf : Cnf) : Nat → List (Int × Label) → List Int → List Int
  | 0, _, _ => []
  | i + 1, unnumbered, numbered =>
    match firstMaxByLabel unnumbered with
    | none => []
    | some v =>
      let numbered := numbered ++ [v]
      let unnumbered := mapErase unnumbered v
      let unnumbered := lexmUpdate cnf numbered v (i + 1) unnumbered
      v :: lexmLoop cnf i unnumbered numbered

/-- Cnf::getLexmVarOrder (logic.cc lines 538-578). -/
def Cnf.getLexmVarOrder (cnf : Cnf) : List Int :=
  lexmLoop cnf cnf.apparentVars.card
    ((cnf.apparentVars.sort (· ≤ ·)).map fun v => (v, ([] : Label))) []

/-- Modelled from the spec: the numeric values of the variable-order
heuristic codes are declared in logic.hh, which is not under src/; the spec
lists the CNF heuristics RANDOM, DECLARED, MOST_CLAUSES, MINFILL, MCS, LEXP,
LEXM and the join-tree heuristics BIGGEST_NODE, HIGHEST_NODE, with negative
codes meaning reversed order.  Distinct positive codes are chosen here;
every result proved below is independent of the concrete values. -/
def RANDOM : Int := 1

def DECLARED : Int := 2

def MOST_CLAUSES : Int := 3

def MINFILL : Int := 4

def MCS : Int := 5

def LEXP : Int := 6

def LEXM : Int := 7

def BIGGEST_NODE : Int := 8

def HIGHEST_NODE : Int := 9

def CNF_VAR_ORDER_HEURISTICS : Finset Int := {1, 2, 3, 4, 5, 6, 7}

/-- Cnf::getCnfVarOrder (logic.cc lines 580-611): dispatch on the absolute
value of the heuristic code (the default case carries
`assert(abs(...) == LEXM)`, a no-op in release builds), then reverse for a
negative code. -/
def Cnf.getCnfVarOrder (cnf : Cnf) (rnd : Nat → Nat) (cnfVarOrderHeuristic : Int) :
    List Int :=
  let varOrder :=
    if |cnfVarOrderHeuristic| = RANDOM then cnf.getRandomVarOrder rnd
    else if |cnfVarOrderHeuristic| = DECLARED then cnf.getDeclaredVarOrder
    else if |cnfVarOrderHeuristic| = MOST_CLAUSES then cnf.getMostClausesVarOrder
    else if |cnfVarOrderHeuristic| = MINFILL then cnf.getMinfillVarOrder
    else if |cnfVarOrderHeuristic| = MCS then cnf.getMcsVarOrder
    else if |cnfVarOrderHeuristic| = LEXP then cnf.getLexpVarOrder
    else cnf.getLexmVarOrder
  if cnfVarOrderHeuristic < 0 then varOrder.reverse else varOrder

/-! ### Join trees (JoinNode / JoinTerminal / JoinNonterminal)

Following the polymorphic-node design, a join tree is a tagged variant: a
terminal binds a clause index, a nonterminal has children and projection
variables.  A terminal's preProjectionVars are the clause's variables
(JoinTerminal constructor); a nonterminal's are the union of the children's
postProjectionVars (JoinNonterminal constructor). -/

inductive JoinTree where
  | terminal (nodeIndex : Nat)
  | nonterminal (children : List JoinTree) (projectionVars : Finset Int)

/-- The node's own projectionVars field (empty for terminals). -/
def JoinTree.projVarsOf : JoinTree → Finset Int
  | .terminal _ => ∅
  | .nonterminal _ projectionVars => projectionVars

mutual

/-- preProjectionVars: clause variables at a terminal (JoinTerminal
constructor, logic.cc lines 1066-1072); union of children's
postProjectionVars at a nonterminal (JoinNonterminal constructor, logic.cc
lines 1256-1258). -/
def JoinTree.preProjectionVars (cnf : Cnf) : JoinTree → Finset Int
  | .terminal nodeIndex => getClauseVars (cnf.clauses.getD nodeIndex ∅)
  | .nonterminal children _ => childPostUnion cnf children

/-- The `util::unionize(preProjectionVars, child->getPostProjectionVars())`
loop over the children. -/
def childPostUnion (cnf : Cnf) : List JoinTree → Finset Int
  | [] => ∅
  | child :: rest =>
    (JoinTree.preProjectionVars cnf child \ JoinTree.projVarsOf child)
      ∪ childPostUnion cnf rest

end

/-- JoinNode::getPostProjectionVars (logic.cc lines 1001-1003). -/
def JoinTree.postProjectionVars (cnf : Cnf) (t : JoinTree) : Finset Int :=
  JoinTree.preProjectionVars cnf t \ JoinTree.projVarsOf t

/-- The clustering heuristics relevant to JoinNode::chooseClusterIndex; the
string constants BUCKET_LIST, BUCKET_TREE, BOUQUET_LIST, BOUQUET_TREE are
declared in logic.hh (not under src/), so the four values are modelled as an
enumeration. -/
inductive ClusteringHeuristic where
  | bucketList
  | bucketTree
  | bouquetList
  | bouquetTree
  deriving DecidableEq

/-- The forward scan of JoinNode::chooseClusterIndex (logic.cc lines
1019-1023): the first cluster index at or after `t` whose variable set meets
`postProjectionVars`, else the sentinel `projectableVarSets.size()`. -/
def scanFrom (postProjectionVars : Finset Int) (projectableVarSets : List (Finset Int))
    (t : Nat) : Nat :=
  if h : t < projectableVarSets.length then
    if ¬ Disjoint postProjectionVars (projectableVarSets.getD t ∅) then t
    else scanFrom postProjectionVars projectableVarSets (t + 1)
  else projectableVarSets.length
termination_by projectableVarSets.length - t

/-- JoinNode::chooseClusterIndex (logic.cc lines 1005-1025): a cluster index
out of `[0, projectableVarSets.size())` is a MyError; a node whose
postProjectionVars avoid every projectable variable goes to the special
cluster (the sentinel size); list heuristics move to the next cluster; tree
heuristics scan forward for the first intersecting cluster. -/
def JoinTree.chooseClusterIndex (cnf : Cnf) (t : JoinTree) (clusterIndex : Int)
    (projectableVarSets : List (Finset Int)) (clusteringHeuristic : ClusteringHeuristic) :
    Except String Int :=
  if clusterIndex < 0 ∨ clusterIndex ≥ (projectableVarSets.length : Int) then
    .error "clusterIndex out of range"
  else
    let projectableVars := projectableVarSets.foldl (· ∪ ·) ∅
    let postProjectionVars := JoinTree.postProjectionVars cnf t
    if Disjoint projectableVars postProjectionVars then
      .ok (projectableVarSets.length : Int)
    else if clusteringHeuristic = ClusteringHeuristic.bucketList
        ∨ clusteringHeuristic = ClusteringHeuristic.bouquetList then
      .ok (clusterIndex + 1)
    else
      .ok ((scanFrom postProjectionVars projectableVarSets (clusterIndex.toNat + 1) : Int))

mutual

/-- JoinTerminal::updateVarSizes (logic.cc lines 1059-1064) and
JoinNonterminal::updateVarSizes (logic.cc lines 1108-1115): raise each
in-scope variable's recorded size to the node's scope size, then recurse
into the children.  The map operator[] inserts a zero default when absent. -/
def JoinTree.updateVarSizes (cnf : Cnf) (t : JoinTree) (varSizes : List (Int × Nat)) :
    List (Int × Nat) :=
  match t with
  | .terminal nodeIndex =>
    let vars := getClauseVars (cnf.clauses.getD nodeIndex ∅)
    (vars.sort (· ≤ ·)).foldl
      (fun m var => mapSet m var (max (mapFindD m var 0) vars.card)) varSizes
  | .nonterminal children _ =>
    let pre := JoinTree.preProjectionVars cnf t
    let m := (pre.sort (· ≤ ·)).foldl
      (fun m var => mapSet m var (max (mapFindD m var 0) pre.card)) varSizes
    updateVarSizesList cnf children m

/-- updateVarSizes over a child list. -/
def updateVarSizesList (cnf : Cnf) : List JoinTree → List (Int × Nat) → List (Int × Nat)
  | [], m => m
  | child :: rest, m => updateVarSizesList cnf rest (JoinTree.updateVarSizes cnf child m)

end

/-- JoinNonterminal::getBiggestNodeVarOrder (logic.cc lines 1117-1156):
initialise every apparent variable's size to 0, record the biggest node
containing each variable, flip the map into a size-descending multimap
(util::flipMap), and read off the variables. -/
def JoinTree.getBiggestNodeVarOrder (cnf : Cnf) (t : JoinTree) : List Int :=
  let varSizes := (cnf.apparentVars.sort (· ≤ ·)).map fun v => (v, (0 : Nat))
  let varSizes := JoinTree.updateVarSizes cnf t varSizes
  let sizedVars := varSizes.foldl (fun acc p => mmInsert (p.2, p.1) acc) []
  sizedVars.map Prod.snd

mutual

/-- Number of nodes of a join tree (termination measure for the BFS). -/
def treeSize : JoinTree → Nat
  | .terminal _ => 1
  | .nonterminal children _ => 1 + treeSizeList children

/-- Total node count of a list of join trees. -/
def treeSizeList : List JoinTree → Nat
  | [] => 0
  | t :: rest => treeSize t + treeSizeList rest

end

/-- JoinNode::isTerminal, structurally (a terminal's nodeIndex is below the
terminal count by the index discipline of the constructors). -/
def JoinTree.isTerminalT : JoinTree → Bool
  | .terminal _ => true
  | .nonterminal _ _ => false

theorem treeSizeList_eq_sum (l : List JoinTree) :
    treeSizeList l = (l.map treeSize).sum := by
  induction l with
  | nil => rfl
  | cons t rest ih => simp [treeSizeList, ih]

theorem sum_map_treeSize_filter_le (l : List JoinTree) (p : JoinTree → Bool) :
    ((l.filter p).map treeSize).sum ≤ (l.map treeSize).sum := by
  induction l with
  | nil => simp
  | cons t rest ih =>
    by_cases h : p t
    · simp only [List.filter_cons, if_pos h, List.map_cons, List.sum_cons]
      omega
    · simp only [List.filter_cons, if_neg h, List.map_cons, List.sum_cons]
      omega

theorem treeSize_pos (t : JoinTree) : 1 ≤ treeSize t := by
  cases t with
  | terminal i => simp [treeSize]
  | nonterminal children pv => simp [treeSize]

/-- BFS queue loop of JoinNonterminal::getHighestNodeVarOrder (logic.cc
lines 1158-1175): pop a node, emit its projection variables, enqueue its
nonterminal children.  Only nonterminals are enqueued, so the terminal
branch is unreachable. -/
def highestLoop : List JoinTree → List Int
  | [] => []
  | JoinTree.terminal _ :: q => highestLoop q
  | JoinTree.nonterminal children projectionVars :: q =>
    (projectionVars.sort (· ≤ ·)) ++
      highestLoop (q ++ children.filter fun c => ! JoinTree.isTerminalT c)
termination_by l => (l.map treeSize).sum
decreasing_by
  · simp only [List.map_cons, List.sum_cons, treeSize]
    omega
  · have h1 := sum_map_treeSize_filter_le children (fun c => ! JoinTree.isTerminalT c)
    simp only [List.map_cons, List.sum_cons, List.map_append, List.sum_append]
    simp only [treeSize, treeSizeList_eq_sum]
    omega

/-- JoinNonterminal::getHighestNodeVarOrder (logic.cc lines 1158-1175). -/
def JoinTree.getHighestNodeVarOrder (t : JoinTree) : List Int :=
  highestLoop [t]

/-- JoinNonterminal::getVarOrder (logic.cc lines 1177-1196): CNF heuristic
codes delegate to Cnf::getCnfVarOrder; otherwise BIGGEST_NODE or (asserted)
HIGHEST_NODE computes the order, reversed for a negative code. -/
def JoinTree.getVarOrder (cnf : Cnf) (rnd : Nat → Nat) (t : JoinTree)
    (varOrderHeuristic : Int) : List Int :=
  if |varOrderHeuristic| ∈ CNF_VAR_ORDER_HEURISTICS then
    cnf.getCnfVarOrder rnd varOrderHeuristic
  else
    let varOrder :=
      if |varOrderHeuristic| = BIGGEST_NODE then JoinTree.getBiggestNodeVarOrder cnf t
      else JoinTree.getHighestNodeVarOrder t
    if varOrderHeuristic < 0 then varOrder.reverse else varOrder

/-- The slice-assignment loop of JoinNonterminal::getAdditiveAssignments
(logic.cc lines 1216-1225): walk the variable order while fewer than
`sliceVarCount` variables have been assigned, extending the assignment list
at each additive variable. -/
def sliceLoop (additiveVars : Finset Int) (sliceVarCount : Int) :
    List Int → Int → List Assignment → List Assignment
  | [], _, assignments => assignments
  | var :: rest, assignedVars, assignments =>
    if assignedVars < sliceVarCount then
      if var ∈ additiveVars then
        sliceLoop additiveVars sliceVarCount rest (assignedVars + 1)
          (Assignment.extendAssignments assignments var)
      else sliceLoop additiveVars sliceVarCount rest assignedVars assignments
    else assignments

/-- JoinNonterminal::getAdditiveAssignments (logic.cc lines 1198-1236): one
empty assignment when `sliceVarCount <= 0`, else the slice loop over the
computed variable order starting from the empty assignment vector. -/
def JoinTree.getAdditiveAssignments (cnf : Cnf) (rnd : Nat → Nat) (t : JoinTree)
    (varOrderHeuristic sliceVarCount : Int) : List Assignment :=
  if sliceVarCount ≤ 0 then [([] : Assignment)]
  else
    sliceLoop cnf.additiveVars sliceVarCount
      (JoinTree.getVarOrder cnf rnd t varOrderHeuristic) 0 []

/-! ### Parsing (Cnf::Cnf(string filePath), logic.cc lines 640-935)

Input is modelled after `util::splitInputLine`: a file is a list of lines,
each line a list of whitespace-free words.  C++ exceptions raised while
processing become `ParseExc` errors: `MyError` diagnostics,
`EmptyClauseException` (which records the line index and the raw line, the
constructor printing the warning), `vector::at` std::out_of_range, and
std::invalid_argument from `stoll`/`stoi`/`stod`. -/

inductive ParseExc where
  | myError (msg : String)
  | emptyClause (lineIndex : Int) (line : List String)
  | outOfRange
  | invalidArgument
  deriving DecidableEq

/-- The process-global counting-mode flags read by the parser. -/
structure CountingMode where
  weightedCounting : Bool
  projectedCounting : Bool
  maxsatSolving : Bool
  deriving DecidableEq

/-- Parser state: the Cnf under construction plus the constructor-local
variables and the global `minMaxsatSolving` flag the parser may write. -/
structure ParseState where
  cnf : Cnf
  declaredClauseCount : Int
  processedClauseCount : Int
  problemLineIndex : Option Int
  wcnfFlag : Bool
  hwcnfFlag : Bool
  minMaxsatSolving : Bool
  deriving DecidableEq

/-- Checked vector::at. -/
def atWord (words : List String) (i : Nat) : Except ParseExc String :=
  match words[i]? with
  | some w => .ok w
  | none => .error .outOfRange

/-- Digit test on a character (ASCII). -/
def charIsDigit (c : Char) : Bool :=
  48 ≤ c.toNat && c.toNat ≤ 57

/-- Numeric value of a digit string. -/
def digitsToNat (cs : List Char) : Nat :=
  cs.foldl (fun n c => 10 * n + (c.toNat - 48)) 0

/-- std::stoll / std::stoi: optional sign, then a nonempty maximal digit
prefix (later characters ignored); no digits raise invalid_argument. -/
def stollE (s : String) : Except ParseExc Int :=
  let cs := s.data
  let signAndRest : Int × List Char :=
    match cs with
    | '-' :: rest => (-1, rest)
    | '+' :: rest => (1, rest)
    | _ => (1, cs)
  let ds := signAndRest.2.takeWhile charIsDigit
  if ds.isEmpty then .error .invalidArgument
  else .ok (signAndRest.1 * (digitsToNat ds : Int))

/-- std::stod / std::stold on the decimal forms appearing in the accepted
input grammar (optional sign, digits, optional fractional part), exact in
the rational universe. -/
def stodQ (s : String) : Except ParseExc ℚ :=
  let cs := s.data
  let signAndRest : ℚ × List Char :=
    match cs with
    | '-' :: rest => (-1, rest)
    | '+' :: rest => (1, rest)
    | _ => (1, cs)
  let ds := signAndRest.2.takeWhile charIsDigit
  let rest := signAndRest.2.dropWhile charIsDigit
  match rest with
  | '.' :: frac =>
    let fs := frac.takeWhile charIsDigit
    if ds.isEmpty ∧ fs.isEmpty then .error .invalidArgument
    else .ok (signAndRest.1 * ((digitsToNat ds : ℚ) + (digitsToNat fs : ℚ) / (10 : ℚ) ^ fs.length))
  | _ =>
    if ds.isEmpty then .error .invalidArgument
    else .ok (signAndRest.1 * (digitsToNat ds : ℚ))

/-- Number::Number(string) (logic.cc lines 132-152) in the exact universe:
a string containing a slash parses as a rational p/q, otherwise as a
decimal. -/
def parseNumberQ (s : String) : Except ParseExc ℚ :=
  if s.data.contains '/' then
    match s.splitOn "/" with
    | [a, b] => do
      let p ← stollE a
      let q ← stollE b
      .ok ((p : ℚ) / (q : ℚ))
    | _ => .error .invalidArgument
  else stodQ s

/-- starts_with of std::string. -/
def strStartsWith (s pre : String) : Bool :=
  pre.data.isPrefixOf s.data

/-- substr(1, length()-2): the interior of a bracketed word such as
`[weight]` (empty when the word has at most two characters). -/
def substrInner (s : String) : String :=
  ⟨(s.data.drop 1).take (s.data.length - 2)⟩

/-- substr(1, length()): everything after the first character, as used on a
PB variable word `x<var>`. -/
def substrTail (s : String) : String :=
  ⟨s.data.drop 1⟩

/-- The show-line loop (logic.cc lines 722-736): for each word from the
start index, first assign `minMaxsatSolving := maxsatSolving`, then read the
number; a `0` must be last; other values must be declared variables and are
inserted into additiveVars. -/
def showLoop (cm : CountingMode) (lineIndex : Int) (words : List String) :
    Nat → ParseState → Nat → Except ParseExc ParseState
  | 0, st, _ => .ok st
  | fuel + 1, st, i =>
    if i < words.length then
      let st := { st with minMaxsatSolving := cm.maxsatSolving }
      match stollE (words.getD i "") with
      | .error e => .error e
      | .ok num =>
        if num = 0 then
          if i ≠ words.length - 1 then
            .error (.myError "additive vars terminated prematurely by 0")
          else showLoop cm lineIndex words fuel st (i + 1)
        else if num < 0 ∨ num > st.cnf.declaredVarCount then
          .error (.myError "var inconsistent with declared var count")
        else
          showLoop cm lineIndex words fuel
            { st with cnf := { st.cnf with additiveVars := insert num st.cnf.additiveVars } }
            (i + 1)
    else .ok st

/-- The PB coefficient/variable pair loop (logic.cc lines 757-763 and
818-824): `i` ranges below `(words.size() - 3) / 2` (an unsigned difference,
so a size below 3 makes the bound wrap to a huge value and the loop runs
until `vector::at` raises out_of_range).  Fuel `words.length + 2` dominates
both exits, so the fuel-exhausted branch is unreachable. -/
def pbLoop (words : List String) : Nat → Nat → Finset Int × List (Int × Int) →
    Except ParseExc (Finset Int × List (Int × Int))
  | 0, _, _ => .error .outOfRange
  | fuel + 1, i, acc =>
    let cond : Bool :=
      if words.length ≥ 3 then decide (i < (words.length - 3) / 2) else true
    if cond then
      match atWord words (i * 2 + 1) with
      | .error e => .error e
      | .ok str =>
        match stollE (substrTail str) with
        | .error e => .error e
        | .ok var =>
          match stollE (words.getD (i * 2) "") with
          | .error e => .error e
          | .ok coef =>
            pbLoop words fuel (i + 1) (insert var acc.1, mapInsertIfAbsent acc.2 var coef)
    else .ok acc

/-- Tail of a PB constraint line (logic.cc lines 764-771 and 825-832):
comparator word and right-hand side `k` from the fixed positions, then
PB_canonicalize and Cnf::addClause. -/
def parsePbConstraint (st : ParseState) (words : List String) (weight : ℚ) :
    Except ParseExc ParseState := do
  let r ← pbLoop words (words.length + 2) 0 (∅, [])
  let comparatorString := words.getD (words.length - 3) ""
  let k ← stollE (words.getD (words.length - 2) "")
  let comparator : Int :=
    if comparatorString = ">=" then 1
    else if comparatorString = "=" then 2
    else if comparatorString = "<=" then 3
    else 0
  let c := PB_canonicalize ⟨r.1, r.2, k, comparator⟩
  .ok { st with cnf := st.cnf.addClause c.clause 'p' weight c.comparator c.coefs c.k }

/-- CNF/XOR clause-word loop of the plain-DIMACS path (logic.cc lines
834-868), including the WCNF leading-weight catch.  The loop advances the
word index by one each iteration; the structural counter starts at
`words.length`, which bounds the remaining iterations. -/
def clauseLoopPlain (lineIndex : Int) (line words : List String) :
    Nat → ParseState → Nat → Char → ℚ → Finset Int → Except ParseExc ParseState
  | 0, st, _, _, _, _ => .ok st
  | fuel + 1, st, i, type, weight, clause =>
    if i < words.length then
      let w := words.getD i ""
      if w = "x" then clauseLoopPlain lineIndex line words fuel st (i + 1) 'x' weight clause
      else if (st.wcnfFlag ∧ type = 'c' ∧ i = 0) ∨ (st.wcnfFlag ∧ type = 'x' ∧ i = 1) then
        match stodQ w with
        | .error e => .error e
        | .ok weight' => clauseLoopPlain lineIndex line words fuel st (i + 1) type weight' clause
      else
        match stollE w with
        | .error e => .error e
        | .ok num =>
          if num > st.cnf.declaredVarCount ∨ num < -st.cnf.declaredVarCount then
            .error (.myError "literal inconsistent with declared var count")
          else if num = 0 then
            if i ≠ words.length - 1 then
              .error (.myError "clause terminated prematurely by 0")
            else if clause = ∅ then .error (.emptyClause lineIndex line)
            else
              clauseLoopPlain lineIndex line words fuel
                { st with
                  cnf := st.cnf.addClause clause type weight
                  processedClauseCount := st.processedClauseCount + 1 }
                (i + 1) type weight clause
          else
            if i = words.length - 1 then
              .error (.myError "missing end-of-clause indicator 0")
            else clauseLoopPlain lineIndex line words fuel st (i + 1) type weight (insert num clause)
    else .ok st

/-- CNF/XOR clause-word loop of the hybrid-WCNF path (logic.cc lines
774-803): the weight already came from the leading bracket, so there is no
weight catch. -/
def clauseLoopHybrid (lineIndex : Int) (line words : List String) :
    Nat → ParseState → Nat → Char → ℚ → Finset Int → Except ParseExc ParseState
  | 0, st, _, _, _, _ => .ok st
  | fuel + 1, st, i, type, weight, clause =>
    if i < words.length then
      let w := words.getD i ""
      if w = "x" then clauseLoopHybrid lineIndex line words fuel st (i + 1) 'x' weight clause
      else
        match stollE w with
        | .error e => .error e
        | .ok num =>
          if num > st.cnf.declaredVarCount ∨ num < -st.cnf.declaredVarCount then
            .error (.myError "literal inconsistent with declared var count")
          else if num = 0 then
            if i ≠ words.length - 1 then
              .error (.myError "clause terminated prematurely by 0")
            else if clause = ∅ then .error (.emptyClause lineIndex line)
            else
              clauseLoopHybrid lineIndex line words fuel
                { st with
                  cnf := st.cnf.addClause clause type weight
                  processedClauseCount := st.processedClauseCount + 1 }
                (i + 1) type weight clause
          else
            if i = words.length - 1 then
              .error (.myError "missing end-of-clause indicator 0")
            else clauseLoopHybrid lineIndex line words fuel st (i + 1) type weight (insert num clause)
    else .ok st

/-- Problem line (logic.cc lines 668-690). -/
def processProblemLine (st : ParseState) (lineIndex : Int) (words : List String) :
    Except ParseExc ParseState := do
  if st.problemLineIndex ≠ none then .error (.myError "multiple problem lines")
  else if words.length < 4 then
    .error (.myError "problem line has fewer than 4 words")
  else do
    let n ← stollE (words.getD 2 "")
    let m ← stollE (words.getD 3 "")
    let w1 := words.getD 1 ""
    let hwcnf := w1 = "hwcnf"
    let wcnf := w1 = "wcnf" ∨ hwcnf
    let st :=
      { st with
        problemLineIndex := some lineIndex
        cnf := { st.cnf with declaredVarCount := n }
        declaredClauseCount := m
        wcnfFlag := wcnf
        hwcnfFlag := hwcnf }
    if wcnf ∧ words.length = 5 then do
      let top ← stollE (words.getD 4 "")
      .ok { st with cnf := { st.cnf with trivialBoundPartialMaxSAT := top } }
    else .ok st

/-- WBO/PBO header line (logic.cc lines 691-697): var count, constraint
count and the trivial bound from fixed token positions. -/
def processWboHeader (st : ParseState) (lineIndex : Int) (words : List String) :
    Except ParseExc ParseState := do
  let nW ← atWord words 2
  let n ← stollE nW
  let mW ← atWord words 4
  let m ← stollE mW
  let topW ← atWord words 12
  let top ← stollE topW
  .ok { st with
        cnf := { st.cnf with declaredVarCount := n, trivialBoundPartialMaxSAT := top }
        declaredClauseCount := m
        problemLineIndex := some lineIndex }

/-- Weight line (logic.cc lines 699-715). -/
def processWeightLine (st : ParseState) (lineIndex : Int) (words : List String) :
    Except ParseExc ParseState := do
  if st.problemLineIndex = none then
    .error (.myError "no problem line before weighted literal")
  else do
    let front := words.headD ""
    let litW ← atWord words (if front = "w" then 1 else 3)
    let literal ← stollE litW
    if |literal| > st.cnf.declaredVarCount then
      .error (.myError "literal inconsistent with declared var count")
    else do
      let wW ← atWord words (if front = "w" then 2 else 4)
      let weight ← parseNumberQ wW
      if weight < 0 then .error (.myError "weight must be non-negative")
      else
        .ok { st with
              cnf := { st.cnf with
                       literalWeights := mapSet st.cnf.literalWeights literal weight } }

/-- Clause line (logic.cc lines 742-870): hybrid-WCNF lines carry a leading
bracketed weight and may be PB constraints; plain lines are PB when the
first word starts with `[` or the second word starts with `x` (the latter
check is vector::at and raises out_of_range on a one-word line). -/
def processClauseLine (st : ParseState) (lineIndex : Int) (words : List String) :
    Except ParseExc ParseState := do
  if st.problemLineIndex = none then .error (.myError "no problem line before clause")
  else if st.hwcnfFlag then do
    let firstWord ← atWord words 0
    let weight ← stodQ (substrInner firstWord)
    let rest := words.drop 1
    let w1 ← atWord rest 1
    if strStartsWith w1 "x" then parsePbConstraint st rest weight
    else clauseLoopHybrid lineIndex words rest rest.length st 0 'c' weight ∅
  else do
    let front := words.headD ""
    if strStartsWith front "[" then do
      let weight ← stodQ (substrInner front)
      parsePbConstraint st (words.drop 1) weight
    else do
      let w1 ← atWord words 1
      if strStartsWith w1 "x" then
        parsePbConstraint st words ((st.cnf.trivialBoundPartialMaxSAT : ℚ) + 1)
      else clauseLoopPlain lineIndex words words words.length st 0 'c' 1 ∅

/-- Dispatch for one input line (the body of the while-getline loop,
logic.cc lines 657-871). -/
def processLine (cm : CountingMode) (st : ParseState) (lineIndex : Int)
    (words : List String) : Except ParseExc ParseState :=
  if words.isEmpty then .ok st
  else
    let front := words.headD ""
    if front = "p" then processProblemLine st lineIndex words
    else if front = "*" then do
      let w1 ← atWord words 1
      if w1 = "#variable=" then processWboHeader st lineIndex words
      else .ok st
    else if front = "w" ∨ front = "vp" ∨ front = "c" ∨ front = "vm" then
      if cm.weightedCounting
          ∧ (front = "w"
            ∨ (words.length > 4 ∧ words.getD 1 "" = "p" ∧ words.getD 2 "" = "weight")) then
        processWeightLine st lineIndex words
      else if (cm.projectedCounting ∨ cm.maxsatSolving)
          ∧ (front = "vp" ∨ front = "vm"
            ∨ (words.length > 3 ∧ words.getD 1 "" = "p" ∧ words.getD 2 "" = "show")) then
        if st.problemLineIndex = none then
          .error (.myError "no problem line before projected var")
        else showLoop cm lineIndex words words.length st
          (if front = "vp" ∨ front = "vm" then 1 else 3)
      else .ok st
    else if front = "s" ∨ front = "INDETERMINATE" then
      .error (.myError "unexpected output from preprocessor pmc")
    else if ¬ strStartsWith front "c" ∧ ¬ strStartsWith front "*"
        ∧ ¬ strStartsWith front "soft" then
      processClauseLine st lineIndex words
    else .ok st

/-- The while-getline loop over all lines, with 1-based line indices. -/
def parseLines (cm : CountingMode) :
    ParseState → Int → List (List String) → Except ParseExc ParseState
  | st, _, [] => .ok st
  | st, lineIndex, line :: rest =>
    match processLine cm st (lineIndex + 1) line with
    | .error e => .error e
    | .ok st' => parseLines cm st' (lineIndex + 1) rest

/-- Post-parse default of additiveVars (logic.cc lines 879-883): outside
projected counting and MaxSAT, every declared variable is additive. -/
def completeAdditiveVars (cm : CountingMode) (cnf : Cnf) : Cnf :=
  if ¬ cm.projectedCounting ∧ ¬ cm.maxsatSolving then
    { cnf with
      additiveVars :=
        (intRange1 cnf.declaredVarCount).foldl (fun s v => insert v s) cnf.additiveVars }
  else cnf

/-- Post-parse completion of literalWeights (logic.cc lines 885-910):
unweighted counting sets every literal weight to 1; weighted counting
defaults an untouched variable's two weights to 1 and derives a single
missing weight as one minus the supplied one.  (The log-counting branch only
adds an assertion and is arithmetic-free here: the exact universes are
modelled.) -/
def completeLiteralWeights (cm : CountingMode) (cnf : Cnf) : Cnf :=
  if ¬ cm.weightedCounting then
    { cnf with
      literalWeights :=
        (intRange1 cnf.declaredVarCount).foldl
          (fun lw var => mapSet (mapSet lw var 1) (-var) 1) cnf.literalWeights }
  else
    { cnf with
      literalWeights :=
        (intRange1 cnf.declaredVarCount).foldl
          (fun lw var =>
            if ¬ mapContains lw var ∧ ¬ mapContains lw (-var) then
              mapSet (mapSet lw var 1) (-var) 1
            else if ¬ mapContains lw var then
              mapSet lw var (1 - mapFindD lw (-var) 0)
            else if ¬ mapContains lw (-var) then
              mapSet lw (-var) (1 - mapFindD lw var 0)
            else lw)
          cnf.literalWeights }

/-- Cnf::Cnf(string filePath) (logic.cc lines 640-935) over the word lists
of the input lines: run the line loop, require a problem line, then
setApparentVars and the post-parse completions. -/
def cnfFromWords (cm : CountingMode) (minMaxsatInit : Bool)
    (lines : List (List String)) : Except ParseExc Cnf :=
  match parseLines cm ⟨{}, 0, 0, none, false, false, minMaxsatInit⟩ 0 lines with
  | .error e => .error e
  | .ok st =>
    if st.problemLineIndex = none then
      .error (.myError "no problem line before cnf file ends")
    else
      .ok (completeLiteralWeights cm (completeAdditiveVars cm st.cnf.setApparentVars))

/-! ### Graph mutation traces (for the addEdge/removeVertex invariants)

A trace is a list of mutations applied to a graph built from a vertex set.
`opOk`/`opsValidB` capture when every `vector::at` lookup inside
Graph::addEdge succeeds (the adjacencyMap key set equals the vertex set); a
failing lookup throws std::out_of_range in C++ and aborts the call sequence,
so the theorems below quantify over valid traces. -/

inductive GraphOp where
  | addE (v1 v2 : Int)
  | removeV (v : Int)
  deriving DecidableEq

/-- Whether a single mutation's map lookups succeed. -/
def Graph.opOk (g : Graph) : GraphOp → Bool
  | .addE v1 v2 => decide (v1 ∈ g.vertices) && decide (v2 ∈ g.vertices)
  | .removeV _ => true

/-- Apply one mutation (the guard mirrors `opOk`; guarded-out calls are
excluded by `opsValidB` in every statement below). -/
def Graph.applyOp (g : Graph) : GraphOp → Graph
  | .addE v1 v2 =>
    if v1 ∈ g.vertices ∧ v2 ∈ g.vertices then g.addEdgeU v1 v2 else g
  | .removeV v => g.removeVertex v

/-- Apply a trace of mutations. -/
def Graph.applyOps (g : Graph) : List GraphOp → Graph
  | [] => g
  | op :: rest => (g.applyOp op).applyOps rest

/-- Every lookup along the trace succeeds. -/
def Graph.opsValidB (g : Graph) : List GraphOp → Bool
  | [] => true
  | op :: rest => g.opOk op && (g.applyOp op).opsValidB rest

/-! ### Theorems

Each claim C1..C10 of the specification is settled below; helper lemmas
precede the per-claim theorems. -/

/-- C9: in log-counting mode, Number::getLogSumExp treats `-INF` as an
absorbing zero: combining any operand with `-INF` on either side returns the
other operand's stored float unchanged, and when neither operand is `-INF`
the result is `log10(10^(a-M) + 10^(b-M)) + M` with `M = max a b`. -/
theorem c9_log_sum_exp_neg_inf_absorbing :
    (∀ a : Option ℝ, Number.getLogSumExp a none = a)
    ∧ (∀ a : Option ℝ, Number.getLogSumExp none a = a)
    ∧ (∀ a b : ℝ,
        Number.getLogSumExp (some a) (some b)
          = some (Real.logb 10 ((10 : ℝ) ^ (a - max a b) + (10 : ℝ) ^ (b - max a b))
              + max a b)) := by
  refine ⟨fun a => ?_, fun a => rfl, fun a b => rfl⟩
  cases a <;> rfl

theorem extend_flatMap_length (A : List Assignment) (v : Int) :
    (A.flatMap fun assignment =>
      [Assignment.setVar assignment v false,
       Assignment.setVar (Assignment.setVar assignment v false) v true]).length
      = 2 * A.length := by
  induction A with
  | nil => rfl
  | cons a rest ih =>
    simp only [List.flatMap_cons, List.length_append, ih, List.length_cons]
    simp
    omega

theorem extend_flatMap_get (A : List Assignment) (v : Int) (i : Nat) (h : i < A.length) :
    (A.flatMap fun assignment =>
      [Assignment.setVar assignment v false,
       Assignment.setVar (Assignment.setVar assignment v false) v true])[2 * i]?
      = some (Assignment.setVar (A.getD i []) v false)
    ∧ (A.flatMap fun assignment =>
      [Assignment.setVar assignment v false,
       Assignment.setVar (Assignment.setVar assignment v false) v true])[2 * i + 1]?
      = some (Assignment.setVar (A.getD i []) v true) := by
  induction A generalizing i with
  | nil => simp at h
  | cons a rest ih =>
    cases i with
    | zero =>
      constructor
      · simp [List.flatMap_cons]
      · simp [List.flatMap_cons, setVar_setVar]
    | succ j =>
      have hj : j < rest.length := by
        simpa using Nat.lt_of_succ_lt_succ h
      have h2 : 2 * (j + 1) = 2 * j + 2 := by omega
      have h3 : 2 * (j + 1) + 1 = (2 * j + 1) + 2 := by omega
      obtain ⟨ih1, ih2⟩ := ih j hj
      constructor
      · simp only [List.flatMap_cons, h2]
        rw [List.getElem?_append_right (by simp)]
        simpa using ih1
      · simp only [List.flatMap_cons, h3]
        rw [List.getElem?_append_right (by simp)]
        simpa using ih2

/-- C7: Assignment::extendAssignments returns max(2, 2|A|) assignments; an
empty input yields the v-false and v-true singletons in that order; and for
each input index i the v-false extension of input i sits at position 2i,
immediately followed by its v-true extension at position 2i+1. -/
theorem c7_extend_assignments (A : List Assignment) (v : Int) :
    (Assignment.extendAssignments A v).length = max 2 (2 * A.length)
    ∧ (A = [] → Assignment.extendAssignments A v
        = [Assignment.single v false, Assignment.single v true])
    ∧ ∀ i, i < A.length →
        (Assignment.extendAssignments A v)[2 * i]?
          = some (Assignment.setVar (A.getD i []) v false)
        ∧ (Assignment.extendAssignments A v)[2 * i + 1]?
          = some (Assignment.setVar (A.getD i []) v true) := by
  match A with
  | [] =>
    refine ⟨rfl, fun _ => rfl, fun i hi => ?_⟩
    simp at hi
  | a :: rest =>
    refine ⟨?_, fun he => by simp at he, fun i hi => ?_⟩
    · show (List.flatMap _ _).length = _
      rw [extend_flatMap_length]
      have : 2 ≤ 2 * (a :: rest).length := by
        simp only [List.length_cons]
        omega
      omega
    · exact extend_flatMap_get (a :: rest) v i hi

/-- Witness for C7 at the concrete input A = [[1 ↦ true]], v = 2. -/
theorem c7_extend_assignments_witness :
    (0 < ([Assignment.single 1 true] : List Assignment).length)
    ∧ ((Assignment.extendAssignments [Assignment.single 1 true] 2)[2 * 0]?
        = some (Assignment.setVar (([Assignment.single 1 true] : List Assignment).getD 0 []) 2 false)
      ∧ (Assignment.extendAssignments [Assignment.single 1 true] 2)[2 * 0 + 1]?
        = some (Assignment.setVar (([Assignment.single 1 true] : List Assignment).getD 0 []) 2 true)) :=
  ⟨by decide, (c7_extend_assignments [Assignment.single 1 true] 2).2.2 0 (by decide)⟩

theorem scanFrom_spec (pp : Finset Int) (sets : List (Finset Int)) :
    ∀ n t, sets.length - t = n →
      (t ≤ sets.length → t ≤ scanFrom pp sets t)
      ∧ scanFrom pp sets t ≤ sets.length
      ∧ (scanFrom pp sets t < sets.length →
          ¬ Disjoint pp (sets.getD (scanFrom pp sets t) ∅))
      ∧ (∀ u, t ≤ u → u < scanFrom pp sets t → Disjoint pp (sets.getD u ∅)) := by
  intro n
  induction n with
  | zero =>
    intro t ht
    rw [scanFrom, dif_neg (by omega)]
    exact ⟨fun hle => hle, le_refl _,
      fun h => absurd h (lt_irrefl _), fun u hu hlt => by omega⟩
  | succ m ih =>
    intro t ht
    by_cases h : t < sets.length
    · rw [scanFrom, dif_pos h]
      by_cases hd : ¬ Disjoint pp (sets.getD t ∅)
      · rw [if_pos hd]
        exact ⟨fun _ => le_refl _, le_of_lt h, fun _ => hd, fun u hu hlt => by omega⟩
      · rw [if_neg hd]
        push_neg at hd
        obtain ⟨h1, h2, h3, h4⟩ := ih (t + 1) (by omega)
        have h1' := h1 (by omega)
        refine ⟨fun _ => by omega, h2, h3, fun u hu hlt => ?_⟩
        by_cases hut : u = t
        · exact hut ▸ hd
        · exact h4 u (by omega) hlt
    · rw [scanFrom, dif_neg h]
      exact ⟨fun hle => by omega, le_refl _, fun hc => absurd hc (lt_irrefl _),
        fun u hu hlt => by omega⟩

/-- C6: JoinNode::chooseClusterIndex fails with MyError outside
`[0, |projectableVarSets|)`; inside the range it returns the sentinel
`|projectableVarSets|` when the node's postProjectionVars avoid the union of
the projectable sets, `currentIndex + 1` under the list heuristics, and
under the tree heuristics the least index above `currentIndex` whose
variable set meets postProjectionVars (the sentinel when none does). -/
theorem c6_choose_cluster_index (cnf : Cnf) (t : JoinTree)
    (projectableVarSets : List (Finset Int)) (ch : ClusteringHeuristic) :
    (∀ ci : Int, ci < 0 ∨ (projectableVarSets.length : Int) ≤ ci →
      ∃ msg, JoinTree.chooseClusterIndex cnf t ci projectableVarSets ch = .error msg)
    ∧ ∀ ci : Int, 0 ≤ ci → ci < (projectableVarSets.length : Int) →
      ∃ r : Int,
        JoinTree.chooseClusterIndex cnf t ci projectableVarSets ch = .ok r
        ∧ (Disjoint (projectableVarSets.foldl (· ∪ ·) ∅)
              (JoinTree.postProjectionVars cnf t) →
            r = (projectableVarSets.length : Int))
        ∧ (¬ Disjoint (projectableVarSets.foldl (· ∪ ·) ∅)
              (JoinTree.postProjectionVars cnf t) →
            ((ch = ClusteringHeuristic.bucketList ∨ ch = ClusteringHeuristic.bouquetList) →
              r = ci + 1)
            ∧ ((ch = ClusteringHeuristic.bucketTree ∨ ch = ClusteringHeuristic.bouquetTree) →
              ci < r ∧ r ≤ (projectableVarSets.length : Int)
              ∧ (r < (projectableVarSets.length : Int) →
                  ¬ Disjoint (JoinTree.postProjectionVars cnf t)
                    (projectableVarSets.getD r.toNat ∅))
              ∧ ∀ u : Nat, ci < (u : Int) → (u : Int) < r →
                  Disjoint (JoinTree.postProjectionVars cnf t)
                    (projectableVarSets.getD u ∅))) := by
  constructor
  · intro ci hci
    refine ⟨"clusterIndex out of range", ?_⟩
    rw [JoinTree.chooseClusterIndex, if_pos]
    rcases hci with h | h
    · exact Or.inl h
    · exact Or.inr (le_of_le_of_eq h rfl)
  · intro ci h0 h1
    rw [JoinTree.chooseClusterIndex, if_neg (by omega)]
    by_cases hd : Disjoint (projectableVarSets.foldl (· ∪ ·) ∅)
        (JoinTree.postProjectionVars cnf t)
    · exact ⟨_, by rw [if_pos hd], fun _ => rfl, fun hc => absurd hd hc⟩
    · rw [if_neg hd]
      by_cases hl : ch = ClusteringHeuristic.bucketList ∨ ch = ClusteringHeuristic.bouquetList
      · refine ⟨ci + 1, by rw [if_pos hl], fun hc => absurd hc hd,
          fun _ => ⟨fun _ => rfl, fun hco => ?_⟩⟩
        rcases hl with rfl | rfl <;> rcases hco with hco | hco <;>
          exact absurd hco (by decide)
      · rw [if_neg hl]
        obtain ⟨hs1, hs2, hs3, hs4⟩ :=
          scanFrom_spec (JoinTree.postProjectionVars cnf t) projectableVarSets
            (projectableVarSets.length - (ci.toNat + 1)) (ci.toNat + 1) rfl
        refine ⟨_, rfl, fun hc => absurd hc hd, fun _ => ⟨?_, fun _ => ?_⟩⟩
        · rintro (rfl | rfl) <;> simp_all
        · refine ⟨?_, ?_, ?_, ?_⟩
          · have : (ci.toNat : Int) = ci := Int.toNat_of_nonneg h0
            omega
          · exact_mod_cast hs2
          · intro hr
            have hlt : scanFrom (JoinTree.postProjectionVars cnf t) projectableVarSets
                (ci.toNat + 1) < projectableVarSets.length := by exact_mod_cast hr
            have := hs3 hlt
            simpa using this
          · intro u hu hur
            refine hs4 u ?_ ?_
            · have : (ci.toNat : Int) = ci := Int.toNat_of_nonneg h0
              omega
            · exact_mod_cast hur

/-- Witness for C6: a two-cluster instance with the tree heuristic, at
currentIndex 0. -/
theorem c6_choose_cluster_index_witness :
    ((0 : Int) ≤ 0 ∧ (0 : Int) < (([{1}, {2}] : List (Finset Int)).length : Int))
    ∧ ∃ r : Int,
        JoinTree.chooseClusterIndex {} (JoinTree.terminal 0) 0 [{1}, {2}]
          ClusteringHeuristic.bucketTree = .ok r
        ∧ (Disjoint (([{1}, {2}] : List (Finset Int)).foldl (· ∪ ·) ∅)
              (JoinTree.postProjectionVars {} (JoinTree.terminal 0)) →
            r = (([{1}, {2}] : List (Finset Int)).length : Int))
        ∧ (¬ Disjoint (([{1}, {2}] : List (Finset Int)).foldl (· ∪ ·) ∅)
              (JoinTree.postProjectionVars {} (JoinTree.terminal 0)) →
            ((ClusteringHeuristic.bucketTree = ClusteringHeuristic.bucketList
              ∨ ClusteringHeuristic.bucketTree = ClusteringHeuristic.bouquetList) →
              r = 0 + 1)
            ∧ ((ClusteringHeuristic.bucketTree = ClusteringHeuristic.bucketTree
              ∨ ClusteringHeuristic.bucketTree = ClusteringHeuristic.bouquetTree) →
              0 < r ∧ r ≤ (([{1}, {2}] : List (Finset Int)).length : Int)
              ∧ (r < (([{1}, {2}] : List (Finset Int)).length : Int) →
                  ¬ Disjoint (JoinTree.postProjectionVars {} (JoinTree.terminal 0))
                    (([{1}, {2}] : List (Finset Int)).getD r.toNat ∅))
              ∧ ∀ u : Nat, (0 : Int) < (u : Int) → (u : Int) < r →
                  Disjoint (JoinTree.postProjectionVars {} (JoinTree.terminal 0))
                    (([{1}, {2}] : List (Finset Int)).getD u ∅))) :=
  ⟨⟨le_refl 0, by decide⟩,
    (c6_choose_cluster_index {} (JoinTree.terminal 0) [{1}, {2}]
      ClusteringHeuristic.bucketTree).2 0 (le_refl 0) (by decide)⟩

/-- Invariant bundle of the adjacency structure: no adjacency outside the
vertex set, symmetry, no self-loops, and neighbor sets inside the vertex
set. -/
def graphInv (g : Graph) : Prop :=
  (∀ u, u ∉ g.vertices → g.adj u = ∅)
  ∧ (∀ u w, w ∈ g.adj u ↔ u ∈ g.adj w)
  ∧ (∀ u, u ∉ g.adj u)
  ∧ (∀ u, g.adj u ⊆ g.vertices)

theorem graphInv_ofVertices (vs : Finset Int) : graphInv (Graph.ofVertices vs) := by
  refine ⟨fun u _ => rfl, fun u w => ?_, fun u => ?_, fun u => ?_⟩
  · simp [Graph.ofVertices]
  · simp [Graph.ofVertices]
  · simp [Graph.ofVertices]

theorem mem_addEdgeU_adj (g : Graph) (v1 v2 u w : Int) :
    w ∈ (g.addEdgeU v1 v2).adj u ↔
      w ∈ g.adj u ∨ (u = v1 ∧ w = v2) ∨ (u = v2 ∧ w = v1) := by
  simp only [Graph.addEdgeU]
  by_cases h2 : u = v2 <;> by_cases h1 : u = v1 <;>
    simp only [h1, h2, if_pos, if_neg, if_true, if_false, Finset.mem_insert,
      eq_self_iff_true, true_and, false_and, and_true, or_false, false_or] <;>
    first
      | tauto
      | (subst h1; simp [h2, Finset.mem_insert]; tauto)
      | (subst h2; simp [h1, Finset.mem_insert]; tauto)

theorem graphInv_addEdgeU (g : Graph) (v1 v2 : Int)
    (h1 : v1 ∈ g.vertices) (h2 : v2 ∈ g.vertices) (hne : v1 ≠ v2)
    (hg : graphInv g) : graphInv (g.addEdgeU v1 v2) := by
  obtain ⟨hout, hsym, hloop, hsub⟩ := hg
  refine ⟨fun u hu => ?_, fun u w => ?_, fun u => ?_, fun u => ?_⟩
  · rw [addEdgeU_vertices] at hu
    ext w
    rw [mem_addEdgeU_adj]
    simp only [Finset.not_mem_empty, iff_false]
    rintro (hw | ⟨rfl, _⟩ | ⟨rfl, _⟩)
    · rw [hout u hu] at hw
      exact absurd hw (Finset.not_mem_empty w)
    · exact hu h1
    · exact hu h2
  · rw [mem_addEdgeU_adj, mem_addEdgeU_adj]
    constructor
    · rintro (hw | ⟨rfl, rfl⟩ | ⟨rfl, rfl⟩)
      · exact Or.inl ((hsym u w).mp hw)
      · exact Or.inr (Or.inr ⟨rfl, rfl⟩)
      · exact Or.inr (Or.inl ⟨rfl, rfl⟩)
    · rintro (hw | ⟨rfl, rfl⟩ | ⟨rfl, rfl⟩)
      · exact Or.inl ((hsym w u).mp hw)
      · exact Or.inr (Or.inr ⟨rfl, rfl⟩)
      · exact Or.inr (Or.inl ⟨rfl, rfl⟩)
  · rw [mem_addEdgeU_adj]
    rintro (hw | ⟨ha, hb⟩ | ⟨ha, hb⟩)
    · exact hloop u hw
    · exact hne (by omega)
    · exact hne (by omega)
  · intro w hw
    rw [mem_addEdgeU_adj] at hw
    rw [addEdgeU_vertices]
    rcases hw with hw | ⟨_, rfl⟩ | ⟨_, rfl⟩
    · exact hsub u hw
    · exact h2
    · exact h1

theorem mem_removeVertex_adj (g : Graph) (v u w : Int) :
    w ∈ (g.removeVertex v).adj u ↔ u ≠ v ∧ w ≠ v ∧ w ∈ g.adj u := by
  show w ∈ (if u = v then ∅ else (g.adj u).erase v) ↔ _
  by_cases huv : u = v
  · simp [huv]
  · simp [huv, Finset.mem_erase, and_comm]

theorem graphInv_removeVertex (g : Graph) (v : Int) (hg : graphInv g) :
    graphInv (g.removeVertex v) := by
  obtain ⟨hout, hsym, hloop, hsub⟩ := hg
  refine ⟨fun u hu => ?_, fun u w => ?_, fun u => ?_, fun u => ?_⟩
  · ext w
    rw [mem_removeVertex_adj]
    simp only [Finset.not_mem_empty, iff_false]
    rintro ⟨huv, hwv, hw⟩
    have hu' : u ∉ g.vertices := by
      intro hm
      exact hu (Finset.mem_erase.mpr ⟨huv, hm⟩)
    rw [hout u hu'] at hw
    exact absurd hw (Finset.not_mem_empty w)
  · rw [mem_removeVertex_adj, mem_removeVertex_adj]
    constructor
    · rintro ⟨huv, hwv, hw⟩
      exact ⟨hwv, huv, (hsym u w).mp hw⟩
    · rintro ⟨hwv, huv, hw⟩
      exact ⟨huv, hwv, (hsym w u).mp hw⟩
  · rw [mem_removeVertex_adj]
    rintro ⟨_, _, hw⟩
    exact hloop u hw
  · intro w hw
    rw [mem_removeVertex_adj] at hw
    obtain ⟨huv, hwv, hw'⟩ := hw
    show w ∈ g.vertices.erase v
    exact Finset.mem_erase.mpr ⟨hwv, hsub u hw'⟩

theorem applyOps_graphInv (ops : List GraphOp) (g : Graph)
    (hval : g.opsValidB ops = true)
    (hnl : ∀ v1 v2, GraphOp.addE v1 v2 ∈ ops → v1 ≠ v2)
    (hg : graphInv g) : graphInv (g.applyOps ops) := by
  induction ops generalizing g with
  | nil => exact hg
  | cons op rest ih =>
    simp only [Graph.opsValidB, Bool.and_eq_true] at hval
    refine ih (g.applyOp op) hval.2 (fun v1 v2 hm => hnl v1 v2 (List.mem_cons_of_mem _ hm)) ?_
    cases op with
    | addE v1 v2 =>
      have hne : v1 ≠ v2 := hnl v1 v2 (List.mem_cons_self _ _)
      have h1 : v1 ∈ g.vertices := by
        have := hval.1
        simp [Graph.opOk] at this
        exact this.1
      have h2 : v2 ∈ g.vertices := by
        have := hval.1
        simp [Graph.opOk] at this
        exact this.2
      show graphInv (if v1 ∈ g.vertices ∧ v2 ∈ g.vertices then g.addEdgeU v1 v2 else g)
      rw [if_pos ⟨h1, h2⟩]
      exact graphInv_addEdgeU g v1 v2 h1 h2 hne hg
    | removeV v => exact graphInv_removeVertex g v hg

/-- C8 counterexample: the claim asserts no self-loops after any sequence of
addEdge/removeVertex calls, but Graph::addEdge does not reject equal
endpoints: after `addEdge(1, 1)` on the graph over {1}, vertex 1 is its own
neighbor. -/
theorem c8_counterexample :
    (Graph.ofVertices {1}).opsValidB [GraphOp.addE 1 1] = true
    ∧ ((Graph.ofVertices {1}).applyOps [GraphOp.addE 1 1]).isNeighbor 1 1 = true := by
  constructor
  · decide
  · decide

/-- C8 (amended): after any valid sequence of addEdge/removeVertex calls in
which no addEdge has equal endpoints, adjacency is symmetric, has no
self-loops, and every neighbor set contains only surviving vertices (so a
removed vertex remains in no neighbor set); hasPath(v, v) is true for every
vertex of the vertex set. -/
theorem c8_graph_invariants (vs : Finset Int) (ops : List GraphOp)
    (hval : (Graph.ofVertices vs).opsValidB ops = true)
    (hnl : ∀ v1 v2, GraphOp.addE v1 v2 ∈ ops → v1 ≠ v2) :
    (∀ u w, ((Graph.ofVertices vs).applyOps ops).isNeighbor u w
      = ((Graph.ofVertices vs).applyOps ops).isNeighbor w u)
    ∧ (∀ u, ((Graph.ofVertices vs).applyOps ops).isNeighbor u u = false)
    ∧ (∀ u, ((Graph.ofVertices vs).applyOps ops).adj u
        ⊆ ((Graph.ofVertices vs).applyOps ops).vertices)
    ∧ (∀ v, v ∈ ((Graph.ofVertices vs).applyOps ops).vertices →
        ((Graph.ofVertices vs).applyOps ops).hasPathB v v = true) := by
  obtain ⟨hout, hsym, hloop, hsub⟩ :=
    applyOps_graphInv ops (Graph.ofVertices vs) hval hnl (graphInv_ofVertices vs)
  refine ⟨fun u w => ?_, fun u => ?_, hsub, fun v _ => ?_⟩
  · simp only [Graph.isNeighbor, decide_eq_decide]
    exact hsym u w
  · simp only [Graph.isNeighbor, decide_eq_false_iff_not]
    exact hloop u
  · simp [Graph.hasPathB, Graph.hasPathAux]

/-- Witness for C8 at the concrete trace addEdge(1,2) over {1,2}. -/
theorem c8_graph_invariants_witness :
    (Graph.ofVertices {1, 2}).opsValidB [GraphOp.addE 1 2] = true
    ∧ ((Graph.ofVertices {1, 2}).applyOps [GraphOp.addE 1 2]).isNeighbor 1 2
      = ((Graph.ofVertices {1, 2}).applyOps [GraphOp.addE 1 2]).isNeighbor 2 1
    ∧ ((Graph.ofVertices {1, 2}).applyOps [GraphOp.addE 1 2]).isNeighbor 1 1 = false
    ∧ ((Graph.ofVertices {1, 2}).applyOps [GraphOp.addE 1 2]).hasPathB 1 1 = true := by
  have hnl : ∀ v1 v2, GraphOp.addE v1 v2 ∈ [GraphOp.addE 1 2] → v1 ≠ v2 := by
    intro v1 v2 hm
    simp only [List.mem_singleton, GraphOp.addE.injEq] at hm
    omega
  have hval : (Graph.ofVertices {1, 2}).opsValidB [GraphOp.addE 1 2] = true := by decide
  obtain ⟨hs, hl, _, hp⟩ := c8_graph_invariants {1, 2} [GraphOp.addE 1 2] hval hnl
  exact ⟨hval, hs 1 2, hl 1, hp 1 (by decide)⟩

theorem mem_mapKeys_mapSet {β : Type} (m : List (Int × β)) (k j : Int) (v : β)
    (h : j ∈ mapKeys (mapSet m k v)) : j = k ∨ j ∈ mapKeys m := by
  induction m with
  | nil =>
    simp [mapSet, mapKeys] at h
    exact Or.inl h
  | cons p rest ih =>
    obtain ⟨k', v'⟩ := p
    by_cases h1 : k < k'
    · simp only [mapSet, if_pos h1, mapKeys, List.map_cons, List.mem_cons] at h
      rcases h with h | h | h
      · exact Or.inl h
      · exact Or.inr (by simp [mapKeys, h])
      · exact Or.inr (List.mem_cons_of_mem k' h)
    · by_cases h2 : k = k'
      · simp only [mapSet, if_neg h1, if_pos h2, mapKeys, List.map_cons, List.mem_cons] at h
        rcases h with h | h
        · exact Or.inl h
        · exact Or.inr (List.mem_cons_of_mem k' h)
      · simp only [mapSet, if_neg h1, if_neg h2, mapKeys, List.map_cons, List.mem_cons] at h
        rcases h with h | h
        · exact Or.inr (by simp [mapKeys, h])
        · rcases ih h with h' | h'
          · exact Or.inl h'
          · exact Or.inr (List.mem_cons_of_mem k' h')

theorem mem_mapKeys_mapInsertIfAbsent {β : Type} (m : List (Int × β)) (k j : Int) (v : β)
    (h : j ∈ mapKeys (mapInsertIfAbsent m k v)) : j = k ∨ j ∈ mapKeys m := by
  induction m with
  | nil =>
    simp [mapInsertIfAbsent, mapKeys] at h
    exact Or.inl h
  | cons p rest ih =>
    obtain ⟨k', v'⟩ := p
    by_cases h1 : k < k'
    · simp only [mapInsertIfAbsent, if_pos h1, mapKeys, List.map_cons, List.mem_cons] at h
      rcases h with h | h | h
      · exact Or.inl h
      · exact Or.inr (by simp [mapKeys, h])
      · exact Or.inr (List.mem_cons_of_mem k' h)
    · by_cases h2 : k = k'
      · simp only [mapInsertIfAbsent, if_neg h1, if_pos h2, mapKeys, List.map_cons,
          List.mem_cons] at h
        rcases h with h | h
        · exact Or.inr (by simp [mapKeys, h])
        · exact Or.inr (List.mem_cons_of_mem k' h)
      · simp only [mapInsertIfAbsent, if_neg h1, if_neg h2, mapKeys, List.map_cons,
          List.mem_cons] at h
        rcases h with h | h
        · exact Or.inr (by simp [mapKeys, h])
        · rcases ih h with h' | h'
          · exact Or.inl h'
          · exact Or.inr (List.mem_cons_of_mem k' h')

theorem mem_mapKeys_mapErase {β : Type} (m : List (Int × β)) (k j : Int)
    (h : j ∈ mapKeys (mapErase m k)) : j ∈ mapKeys m := by
  induction m with
  | nil => simpa [mapErase, mapKeys] using h
  | cons p rest ih =>
    obtain ⟨k', v'⟩ := p
    by_cases h1 : k = k'
    · simp only [mapErase, if_pos h1] at h
      simp [mapKeys] at h ⊢
      right
      exact h
    · simp only [mapErase, if_neg h1, mapKeys, List.map_cons, List.mem_cons] at h
      rcases h with h | h
      · simp [mapKeys, h]
      · exact List.mem_cons_of_mem k' (ih h)

theorem mapSorted_mapSet {β : Type} (m : List (Int × β)) (k : Int) (v : β)
    (hs : mapSorted m) : mapSorted (mapSet m k v) := by
  induction m with
  | nil => simp [mapSet, mapSorted]
  | cons p rest ih =>
    obtain ⟨k', v'⟩ := p
    rw [mapSorted, List.pairwise_cons] at hs
    by_cases h1 : k < k'
    · rw [mapSet, if_pos h1, mapSorted, List.pairwise_cons]
      constructor
      · intro q hq
        rcases List.mem_cons.mp hq with rfl | hq'
        · exact h1
        · exact lt_trans h1 (hs.1 q hq')
      · exact List.pairwise_cons.mpr ⟨hs.1, hs.2⟩
    · by_cases h2 : k = k'
      · subst h2
        rw [mapSet, if_neg h1, if_pos rfl, mapSorted, List.pairwise_cons]
        exact ⟨fun q hq => hs.1 q hq, hs.2⟩
      · rw [mapSet, if_neg h1, if_neg h2, mapSorted, List.pairwise_cons]
        constructor
        · intro q hq
          have := mem_mapKeys_mapSet rest k q.1 v (by
            simp [mapKeys]
            exact ⟨q.2, by simpa using hq⟩)
          rcases this with h' | h'
          · have : k' < k := by omega
            simpa [h'] using this
          · simp only [mapKeys, List.mem_map] at h'
            obtain ⟨q', hq', he⟩ := h'
            have := hs.1 q' hq'
            omega
        · exact ih hs.2

theorem mapSorted_mapInsertIfAbsent {β : Type} (m : List (Int × β)) (k : Int) (v : β)
    (hs : mapSorted m) : mapSorted (mapInsertIfAbsent m k v) := by
  induction m with
  | nil => simp [mapInsertIfAbsent, mapSorted]
  | cons p rest ih =>
    obtain ⟨k', v'⟩ := p
    rw [mapSorted, List.pairwise_cons] at hs
    by_cases h1 : k < k'
    · rw [mapInsertIfAbsent, if_pos h1, mapSorted, List.pairwise_cons]
      constructor
      · intro q hq
        rcases List.mem_cons.mp hq with rfl | hq'
        · exact h1
        · exact lt_trans h1 (hs.1 q hq')
      · exact List.pairwise_cons.mpr ⟨hs.1, hs.2⟩
    · by_cases h2 : k = k'
      · subst h2
        rw [mapInsertIfAbsent, if_neg h1, if_pos rfl, mapSorted, List.pairwise_cons]
        exact ⟨fun q hq => hs.1 q hq, hs.2⟩
      · rw [mapInsertIfAbsent, if_neg h1, if_neg h2, mapSorted, List.pairwise_cons]
        constructor
        · intro q hq
          have := mem_mapKeys_mapInsertIfAbsent rest k q.1 v (by
            simp [mapKeys]
            exact ⟨q.2, by simpa using hq⟩)
          rcases this with h' | h'
          · have : k' < k := by omega
            simpa [h'] using this
          · simp only [mapKeys, List.mem_map] at h'
            obtain ⟨q', hq', he⟩ := h'
            have := hs.1 q' hq'
            omega
        · exact ih hs.2

theorem mapSorted_mapErase {β : Type} (m : List (Int × β)) (k : Int)
    (hs : mapSorted m) : mapSorted (mapErase m k) := by
  induction m with
  | nil => simp [mapErase, mapSorted]
  | cons p rest ih =>
    obtain ⟨k', v'⟩ := p
    rw [mapSorted, List.pairwise_cons] at hs
    by_cases h1 : k = k'
    · rw [mapErase, if_pos h1]
      exact hs.2
    · rw [mapErase, if_neg h1, mapSorted, List.pairwise_cons]
      constructor
      · intro q hq
        have : q.1 ∈ mapKeys (mapErase rest k) := by
          simp [mapKeys]
          exact ⟨q.2, by simpa using hq⟩
        have hmem := mem_mapKeys_mapErase rest k q.1 this
        simp only [mapKeys, List.mem_map] at hmem
        obtain ⟨q', hq', he⟩ := hmem
        have := hs.1 q' hq'
        omega
      · exact ih hs.2

theorem mapSorted_nodupKeys {β : Type} (m : List (Int × β)) (hs : mapSorted m) :
    (mapKeys m).Nodup := by
  rw [mapKeys]
  rw [mapSorted] at hs
  exact (List.pairwise_map.mpr hs).imp ne_of_lt

theorem mem_mapFind? {β : Type} (m : List (Int × β)) (p : Int × β)
    (hnd : (mapKeys m).Nodup) (hm : p ∈ m) : mapFind? m p.1 = some p.2 := by
  induction m with
  | nil => simp at hm
  | cons q rest ih =>
    obtain ⟨k', v'⟩ := q
    simp only [mapKeys, List.map_cons, List.nodup_cons] at hnd
    rcases List.mem_cons.mp hm with h | h
    · subst h
      simp [mapFind?]
    · have hne : p.1 ≠ k' := by
        intro he
        exact hnd.1 (he ▸ List.mem_map_of_mem Prod.fst h)
      simp only [mapFind?, if_neg hne]
      exact ih hnd.2 h

theorem mapFind?_isSome_mem_keys {β : Type} (m : List (Int × β)) (j : Int)
    (h : (mapFind? m j).isSome) : j ∈ mapKeys m := by
  induction m with
  | nil => simp [mapFind?] at h
  | cons p rest ih =>
    obtain ⟨k', v'⟩ := p
    by_cases hj : j = k'
    · simp [mapKeys, hj]
    · simp only [mapFind?, if_neg hj] at h
      exact List.mem_cons_of_mem k' (ih h)

theorem pbAbsorb_spec (L : List Int) :
    ∀ (m : List (Int × Int)) (temp : List Int) (k : Int),
      mapSorted m →
      (∀ v ∈ L, 0 < v) →
      L.Nodup →
      (∀ v ∈ L, mapContains m v = true) →
      (∀ j ∈ temp, -j ∉ L) →
      (∀ j ∈ mapKeys m, 0 < j ∨ j ∈ temp) →
      mapSorted (L.foldl pbAbsorbStep (m, temp, k)).1
      ∧ (∀ j, mapFind? (L.foldl pbAbsorbStep (m, temp, k)).1 j =
          if j ∈ L ∧ mapFindD m j 0 < 0 then none
          else if -j ∈ L ∧ mapFindD m (-j) 0 < 0 then some (-(mapFindD m (-j) 0))
          else mapFind? m j)
      ∧ (L.foldl pbAbsorbStep (m, temp, k)).2.1
          = temp ++ (L.filter fun v => mapFindD m v 0 < 0).map (fun v => -v)
      ∧ (L.foldl pbAbsorbStep (m, temp, k)).2.2
          = k - ((L.filter fun v => mapFindD m v 0 < 0).map (fun v => mapFindD m v 0)).sum := by
  induction L with
  | nil =>
    intro m temp k hs _ _ _ _ _
    refine ⟨hs, fun j => ?_, by simp, by simp⟩
    simp
  | cons v L' ih =>
    intro m temp k hs hpos hnd hcont htemp hkeystemp
    have hv : 0 < v := hpos v (List.mem_cons_self _ _)
    have hvL' : v ∉ L' := (List.nodup_cons.mp hnd).1
    have hndL' : L'.Nodup := (List.nodup_cons.mp hnd).2
    have hposL' : ∀ w ∈ L', 0 < w := fun w hw => hpos w (List.mem_cons_of_mem _ hw)
    have hcv : mapContains m v = true := hcont v (List.mem_cons_self _ _)
    have hnegv_notkey : -v ∉ mapKeys m := by
      intro hmem
      rcases hkeystemp (-v) hmem with hp | hp
      · omega
      · exact htemp (-v) hp (by simpa using List.mem_cons_self v L')
    set c := mapFindD m v 0 with hc
    have hstep : pbAbsorbStep (m, temp, k) v =
        if c < 0 then
          (mapErase (mapInsertIfAbsent m (-v) (-c)) v, temp ++ [-v], k - c)
        else (m, temp, k) := by
      rw [pbAbsorbStep]
      simp only [hcv, if_true]
    by_cases hcneg : c < 0
    · -- negative coefficient: flip the variable
      rw [List.foldl_cons, hstep, if_pos hcneg]
      set m₁ := mapErase (mapInsertIfAbsent m (-v) (-c)) v with hm₁
      have hsort₁ : mapSorted m₁ :=
        mapSorted_mapErase _ v (mapSorted_mapInsertIfAbsent m (-v) (-c) hs)
      have hfind₁ : ∀ j, mapFind? m₁ j =
          if j = v then none
          else if j = -v then some (-c)
          else mapFind? m j := by
        intro j
        rw [hm₁, mapFind?_mapErase _ v j (mapSorted_mapInsertIfAbsent m (-v) (-c) hs)]
        by_cases hjv : j = v
        · simp [hjv]
        · rw [if_neg hjv]
          by_cases hjnv : j = -v
          · subst hjnv
            rw [if_neg hjv, mapFind?_mapInsertIfAbsent_eq m (-v) (-c) hs]
            have : mapFind? m (-v) = none := by
              rcases hfo : mapFind? m (-v) with _ | x
              · rfl
              · exact absurd (mapFind?_isSome_mem_keys m (-v) (by simp [hfo])) hnegv_notkey
            simp [this]
          · rw [if_neg hjv, if_neg hjnv, mapFind?_mapInsertIfAbsent_ne m (-v) j (-c) hjnv]
      have hcont₁ : ∀ w ∈ L', mapContains m₁ w = true := by
        intro w hw
        have hwpos := hposL' w hw
        have hwv : w ≠ v := fun he => hvL' (he ▸ hw)
        have hwnv : w ≠ -v := by omega
        rw [mapContains, hfind₁ w, if_neg hwv, if_neg hwnv]
        exact hcont w (List.mem_cons_of_mem _ hw)
      have htemp₁ : ∀ j ∈ temp ++ [-v], -j ∉ L' := by
        intro j hj
        rcases List.mem_append.mp hj with hj | hj
        · intro hmem
          exact htemp j hj (List.mem_cons_of_mem _ hmem)
        · simp only [List.mem_singleton] at hj
          subst hj
          simpa using hvL'
      have hkeystemp₁ : ∀ j ∈ mapKeys m₁, 0 < j ∨ j ∈ temp ++ [-v] := by
        intro j hj
        have hj' := mem_mapKeys_mapErase _ v j hj
        rcases mem_mapKeys_mapInsertIfAbsent m (-v) j (-c) hj' with hj'' | hj''
        · subst hj''
          exact Or.inr (by simp)
        · rcases hkeystemp j hj'' with hp | hp
          · exact Or.inl hp
          · exact Or.inr (List.mem_append_left _ hp)
      obtain ⟨ihs, ihfind, ihtemp, ihk⟩ :=
        ih m₁ (temp ++ [-v]) (k - c) hsort₁ hposL' hndL' hcont₁ htemp₁ hkeystemp₁
      have hfindD₁ : ∀ w ∈ L', mapFindD m₁ w 0 = mapFindD m w 0 := by
        intro w hw
        have hwpos := hposL' w hw
        have hwv : w ≠ v := fun he => hvL' (he ▸ hw)
        have hwnv : w ≠ -v := by omega
        rw [mapFindD, mapFindD, hfind₁ w, if_neg hwv, if_neg hwnv]
      have hfilter : L'.filter (fun w => mapFindD m₁ w 0 < 0)
          = L'.filter (fun w => mapFindD m w 0 < 0) := by
        apply List.filter_congr
        intro w hw
        rw [hfindD₁ w hw]
      refine ⟨ihs, fun j => ?_, ?_, ?_⟩
      · rw [ihfind j]
        by_cases hjv : j = v
        · have e1 : ¬ (j ∈ L' ∧ mapFindD m₁ j 0 < 0) := fun hco => hvL' (hjv ▸ hco.1)
          have e2 : ¬ (-j ∈ L' ∧ mapFindD m₁ (-j) 0 < 0) := fun hco => by
            have := hposL' _ hco.1
            omega
          have e3 : mapFind? m₁ j = none := by rw [hfind₁ j, if_pos hjv]
          have e4 : j ∈ v :: L' ∧ mapFindD m j 0 < 0 :=
            ⟨by rw [hjv]; exact List.mem_cons_self _ _, by rw [hjv]; exact hcneg⟩
          rw [if_neg e1, if_neg e2, e3, if_pos e4]
        · by_cases hjnv : j = -v
          · have e1 : ¬ (j ∈ L' ∧ mapFindD m₁ j 0 < 0) := fun hco => by
              have := hposL' _ hco.1
              omega
            have hnjv : -j = v := by omega
            have e2 : ¬ (-j ∈ L' ∧ mapFindD m₁ (-j) 0 < 0) := fun hco =>
              hvL' (hnjv ▸ hco.1)
            have e3 : mapFind? m₁ j = some (-c) := by
              rw [hfind₁ j, if_neg (by omega), if_pos hjnv]
            have e4 : ¬ (j ∈ v :: L' ∧ mapFindD m j 0 < 0) := fun hco => by
              rcases List.mem_cons.mp hco.1 with he | hm
              · omega
              · have := hposL' _ hm
                omega
            have e5 : -j ∈ v :: L' ∧ mapFindD m (-j) 0 < 0 := by
              rw [hnjv]
              exact ⟨List.mem_cons_self _ _, hcneg⟩
            rw [if_neg e1, if_neg e2, e3, if_neg e4, if_pos e5, hnjv, hc]
          · have hD : mapFindD m₁ j 0 = mapFindD m j 0 := by
              rw [mapFindD, mapFindD, hfind₁ j, if_neg hjv, if_neg hjnv]
            have hDn : mapFindD m₁ (-j) 0 = mapFindD m (-j) 0 := by
              rw [mapFindD, mapFindD, hfind₁ (-j), if_neg (by omega), if_neg (by omega)]
            have hjfind : mapFind? m₁ j = mapFind? m j := by
              rw [hfind₁ j, if_neg hjv, if_neg hjnv]
            have h1 : (j ∈ L' ∧ mapFindD m₁ j 0 < 0)
                ↔ (j ∈ v :: L' ∧ mapFindD m j 0 < 0) := by
              rw [hD]
              constructor
              · rintro ⟨hm, hp⟩
                exact ⟨List.mem_cons_of_mem _ hm, hp⟩
              · rintro ⟨hm, hp⟩
                rcases List.mem_cons.mp hm with he | hm'
                · exact absurd he hjv
                · exact ⟨hm', hp⟩
            have h2 : (-j ∈ L' ∧ mapFindD m₁ (-j) 0 < 0)
                ↔ (-j ∈ v :: L' ∧ mapFindD m (-j) 0 < 0) := by
              rw [hDn]
              constructor
              · rintro ⟨hm, hp⟩
                exact ⟨List.mem_cons_of_mem _ hm, hp⟩
              · rintro ⟨hm, hp⟩
                rcases List.mem_cons.mp hm with he | hm'
                · exact absurd (by omega : j = -v) hjnv
                · exact ⟨hm', hp⟩
            rw [if_congr h1 rfl (if_congr h2 (by rw [hDn]) hjfind)]
      · rw [ihtemp, hfilter, List.filter_cons, if_pos (by simpa using hcneg)]
        simp
      · rw [ihk, List.filter_cons, if_pos (by simpa using hcneg)]
        have hmapc : (L'.filter (fun w => mapFindD m₁ w 0 < 0)).map (fun w => mapFindD m₁ w 0)
            = (L'.filter (fun w => mapFindD m w 0 < 0)).map (fun w => mapFindD m w 0) := by
          rw [hfilter]
          apply List.map_congr_left
          intro w hw
          exact hfindD₁ w (List.mem_of_mem_filter hw)
        rw [hmapc]
        simp only [List.map_cons, List.sum_cons]
        ring
    · -- nonnegative coefficient: nothing changes
      rw [List.foldl_cons, hstep, if_neg hcneg]
      obtain ⟨ihs, ihfind, ihtemp, ihk⟩ :=
        ih m temp k hs hposL' hndL'
          (fun w hw => hcont w (List.mem_cons_of_mem _ hw))
          (fun j hj hmem => htemp j hj (List.mem_cons_of_mem _ hmem))
          hkeystemp
      refine ⟨ihs, fun j => ?_, ?_, ?_⟩
      · rw [ihfind j]
        have h1 : (j ∈ L' ∧ mapFindD m j 0 < 0)
            ↔ (j ∈ v :: L' ∧ mapFindD m j 0 < 0) := by
          constructor
          · rintro ⟨hm, hp⟩
            exact ⟨List.mem_cons_of_mem _ hm, hp⟩
          · rintro ⟨hm, hp⟩
            rcases List.mem_cons.mp hm with he | hm'
            · rw [he] at hp
              exact absurd hp hcneg
            · exact ⟨hm', hp⟩
        have h2 : (-j ∈ L' ∧ mapFindD m (-j) 0 < 0)
            ↔ (-j ∈ v :: L' ∧ mapFindD m (-j) 0 < 0) := by
          constructor
          · rintro ⟨hm, hp⟩
            exact ⟨List.mem_cons_of_mem _ hm, hp⟩
          · rintro ⟨hm, hp⟩
            rcases List.mem_cons.mp hm with he | hm'
            · rw [he] at hp
              exact absurd hp hcneg
            · exact ⟨hm', hp⟩
        rw [if_congr h1 rfl (if_congr h2 rfl rfl)]
      · rw [ihtemp, List.filter_cons, if_neg (by simpa using hcneg)]
      · rw [ihk, List.filter_cons, if_neg (by simpa using hcneg)]

theorem mem_keys_isSome {β : Type} (m : List (Int × β)) (j : Int)
    (h : j ∈ mapKeys m) : (mapFind? m j).isSome := by
  induction m with
  | nil => simp [mapKeys] at h
  | cons p rest ih =>
    obtain ⟨k', v'⟩ := p
    by_cases hj : j = k'
    · simp [mapFind?, hj]
    · rcases List.mem_cons.mp h with he | hm
      · exact absurd he hj
      · simp only [mapFind?, if_neg hj]
        exact ih hm

theorem mapFind?_mem {β : Type} (m : List (Int × β)) (j : Int) (x : β)
    (h : mapFind? m j = some x) : (j, x) ∈ m := by
  induction m with
  | nil => simp [mapFind?] at h
  | cons p rest ih =>
    obtain ⟨k', v'⟩ := p
    by_cases hj : j = k'
    · simp only [mapFind?, if_pos hj, Option.some.injEq] at h
      subst hj
      subst h
      exact List.mem_cons_self _ _
    · simp only [mapFind?, if_neg hj] at h
      exact List.mem_cons_of_mem _ (ih h)

theorem litVal_neg (σ : Int → Bool) (w : Int) (hw : 0 < w) :
    litVal σ (-w) = 1 - litVal σ w := by
  rw [litVal, litVal, if_neg (by omega), if_pos hw, neg_neg]

/-- Effect of the coefficient-negation loop of the `<=` branch of
PB_canonicalize on lookups. -/
theorem negFold_spec (L : List Int) :
    ∀ (m : List (Int × Int)),
      mapSorted m →
      L.Nodup →
      (∀ v ∈ L, mapContains m v = true) →
      mapSorted (L.foldl
        (fun coefs var =>
          let coefs := if mapContains coefs var then coefs else mapSet coefs var 0
          mapSet coefs var (-(mapFindD coefs var 0))) m)
      ∧ ∀ j, mapFind? (L.foldl
          (fun coefs var =>
            let coefs := if mapContains coefs var then coefs else mapSet coefs var 0
            mapSet coefs var (-(mapFindD coefs var 0))) m) j
        = if j ∈ L then (mapFind? m j).map (fun x => -x) else mapFind? m j := by
  induction L with
  | nil =>
    intro m hs _ _
    exact ⟨hs, fun j => by simp⟩
  | cons v L' ih =>
    intro m hs hnd hcont
    have hcv : mapContains m v = true := hcont v (List.mem_cons_self _ _)
    have hvL' : v ∉ L' := (List.nodup_cons.mp hnd).1
    rw [List.foldl_cons]
    simp only [hcv, if_true]
    set m₁ := mapSet m v (-(mapFindD m v 0)) with hm₁
    have hs₁ : mapSorted m₁ := mapSorted_mapSet m v _ hs
    have hfind₁ : ∀ j, mapFind? m₁ j
        = if j = v then some (-(mapFindD m v 0)) else mapFind? m j := by
      intro j
      by_cases hj : j = v
      · subst hj
        rw [if_pos rfl, hm₁, mapFind?_mapSet_eq]
      · rw [if_neg hj, hm₁, mapFind?_mapSet_ne m v j _ hj]
    have hcont₁ : ∀ w ∈ L', mapContains m₁ w = true := by
      intro w hw
      have hwv : w ≠ v := fun he => hvL' (he ▸ hw)
      rw [mapContains, hfind₁ w, if_neg hwv]
      exact hcont w (List.mem_cons_of_mem _ hw)
    obtain ⟨ihs, ihfind⟩ := ih m₁ hs₁ (List.nodup_cons.mp hnd).2 hcont₁
    refine ⟨ihs, fun j => ?_⟩
    rw [ihfind j]
    by_cases hjL : j ∈ L'
    · have hjv : j ≠ v := fun he => hvL' (he ▸ hjL)
      rw [if_pos hjL, if_pos (List.mem_cons_of_mem _ hjL), hfind₁ j, if_neg hjv]
    · by_cases hjv : j = v
      · subst hjv
        rw [if_neg hjL, if_pos (List.mem_cons_self _ _), hfind₁ j, if_pos rfl]
        rcases hf : mapFind? m j with _ | x
        · rw [mapContains, hf] at hcv
          simp at hcv
        · rw [mapFindD, hf]
          simp
      · rw [if_neg hjL, if_neg (by
          intro hm
          rcases List.mem_cons.mp hm with he | hm'
          · exact hjv he
          · exact hjL hm'), hfind₁ j, if_neg hjv]

/-- Effect of the final clause-rewrite loop of PB_canonicalize: each entry
of tempVar (a negated variable) is inserted and its negation erased. -/
theorem clauseFold_mem (T : List Int) :
    ∀ (clause : Finset Int) (u : Int),
      (∀ t ∈ T, t < 0) →
      (u ∈ T.foldl (fun clause var => (insert var clause).erase (-var)) clause
        ↔ u ∈ T ∨ (u ∈ clause ∧ -u ∉ T)) := by
  induction T with
  | nil =>
    intro clause u _
    simp
  | cons t T' ih =>
    intro clause u hneg
    have ht : t < 0 := hneg t (List.mem_cons_self _ _)
    rw [List.foldl_cons,
      ih ((insert t clause).erase (-t)) u (fun s hs => hneg s (List.mem_cons_of_mem _ hs))]
    constructor
    · rintro (hm | ⟨hm, hnm⟩)
      · exact Or.inl (List.mem_cons_of_mem _ hm)
      · rw [Finset.mem_erase, Finset.mem_insert] at hm
        obtain ⟨hunt, hm'⟩ := hm
        rcases hm' with rfl | hm''
        · exact Or.inl (List.mem_cons_self _ _)
        · refine Or.inr ⟨hm'', ?_⟩
          intro hmem
          rcases List.mem_cons.mp hmem with he | hmem'
          · exact hunt (by omega)
          · exact hnm hmem'
    · rintro (hm | ⟨hm, hnm⟩)
      · rcases List.mem_cons.mp hm with rfl | hm'
        · refine Or.inr ⟨?_, ?_⟩
          · rw [Finset.mem_erase, Finset.mem_insert]
            exact ⟨by omega, Or.inl rfl⟩
          · intro hmem
            have := hneg (-u) (List.mem_cons_of_mem _ hmem)
            omega
        · exact Or.inl hm'
      · have hunt : -u ≠ t := fun he => hnm (he ▸ List.mem_cons_self _ _)
        refine Or.inr ⟨?_, fun hmem => hnm (List.mem_cons_of_mem _ hmem)⟩
        rw [Finset.mem_erase, Finset.mem_insert]
        exact ⟨by omega, Or.inr hm⟩

theorem pbStage2_spec (clause : Finset Int) (coefs : List (Int × Int)) (k : Int)
    (hs : mapSorted coefs)
    (hposk : ∀ j ∈ mapKeys coefs, 0 < j)
    (hkeys : ∀ v, v ∈ clause ↔ v ∈ mapKeys coefs) :
    mapSorted ((clause.sort (· ≤ ·)).foldl pbAbsorbStep (coefs, [], k)).1
    ∧ (∀ p ∈ ((clause.sort (· ≤ ·)).foldl pbAbsorbStep (coefs, [], k)).1,
        0 ≤ p.2 ∧ ((∀ q ∈ coefs, q.2 ≠ 0) → 0 < p.2))
    ∧ ∀ σ : Int → Bool,
        ((((clause.sort (· ≤ ·)).foldl pbAbsorbStep (coefs, [], k)).2.1.foldl
            (fun c var => (insert var c).erase (-var)) clause).sum
          fun v => mapFindD ((clause.sort (· ≤ ·)).foldl pbAbsorbStep (coefs, [], k)).1 v 0
            * litVal σ v)
          - ((clause.sort (· ≤ ·)).foldl pbAbsorbStep (coefs, [], k)).2.2
        = (clause.sum fun v => mapFindD coefs v 0 * litVal σ v) - k := by
  set L := clause.sort (· ≤ ·) with hL
  have hLclause : ∀ v, v ∈ L ↔ v ∈ clause := fun v => Finset.mem_sort (· ≤ ·)
  have hLpos : ∀ v ∈ L, 0 < v := fun v hv =>
    hposk v ((hkeys v).mp ((hLclause v).mp hv))
  have hLnd : L.Nodup := Finset.sort_nodup (· ≤ ·) clause
  have hLcont' : ∀ v ∈ L, mapContains coefs v = true := fun v hv =>
    mem_keys_isSome coefs v ((hkeys v).mp ((hLclause v).mp hv))
  obtain ⟨hsort', hfind', htemp', hk'⟩ :=
    pbAbsorb_spec L coefs [] k hs hLpos hLnd hLcont'
      (fun j hj => absurd hj (List.not_mem_nil j))
      (fun j hj => Or.inl (hposk j hj))
  set r := L.foldl pbAbsorbStep (coefs, [], k) with hr
  constructor
  · exact hsort'
  constructor
  · -- coefficients of the result
    intro p hp
    have hnd' : (mapKeys r.1).Nodup := mapSorted_nodupKeys r.1 hsort'
    have hfp : mapFind? r.1 p.1 = some p.2 := mem_mapFind? r.1 p hnd' hp
    have hfc := hfind' p.1
    rw [hfp] at hfc
    by_cases h1 : p.1 ∈ L ∧ mapFindD coefs p.1 0 < 0
    · rw [if_pos h1] at hfc
      exact absurd hfc (by simp)
    · rw [if_neg h1] at hfc
      by_cases h2 : -p.1 ∈ L ∧ mapFindD coefs (-p.1) 0 < 0
      · rw [if_pos h2] at hfc
        have hval : p.2 = -(mapFindD coefs (-p.1) 0) := Option.some.inj hfc
        have := h2.2
        constructor
        · omega
        · intro _
          omega
      · rw [if_neg h2] at hfc
        -- untouched entry
        have hfo : mapFind? coefs p.1 = some p.2 := hfc.symm
        have hmemk : p.1 ∈ mapKeys coefs :=
          mapFind?_isSome_mem_keys coefs p.1 (by rw [hfo]; rfl)
        have hmemL : p.1 ∈ L := (hLclause p.1).mpr ((hkeys p.1).mpr hmemk)
        have hD : mapFindD coefs p.1 0 = p.2 := by
          rw [mapFindD, hfo]
          rfl
        have hge : 0 ≤ p.2 := by
          by_cases hlt : mapFindD coefs p.1 0 < 0
          · exact absurd ⟨hmemL, hlt⟩ h1
          · omega
        refine ⟨hge, fun hnz => ?_⟩
        have : (p.1, p.2) ∈ coefs := mapFind?_mem coefs p.1 p.2 hfo
        have := hnz (p.1, p.2) this
        simp only at this
        omega
  · -- the sum identity
    intro σ
    classical
    set Nf := clause.filter (fun v => mapFindD coefs v 0 < 0) with hNf
    have hNfpos : ∀ w ∈ Nf, 0 < w := fun w hw =>
      hposk w ((hkeys w).mp (Finset.mem_filter.mp hw).1)
    have htempNf : ∀ u, u ∈ r.2.1 ↔ -u ∈ Nf := by
      intro u
      rw [htemp']
      simp only [List.nil_append, List.mem_map, List.mem_filter]
      constructor
      · rintro ⟨w, ⟨hwL, hwneg⟩, rfl⟩
        rw [Finset.mem_filter, neg_neg]
        exact ⟨(hLclause w).mp hwL, by simpa using hwneg⟩
      · intro hu
        rw [Finset.mem_filter] at hu
        exact ⟨-u, ⟨(hLclause (-u)).mpr hu.1, by simpa using hu.2⟩, by omega⟩
    have htempneg : ∀ t ∈ r.2.1, t < 0 := by
      intro t ht
      have := hNfpos (-t) ((htempNf t).mp ht)
      omega
    have hclause' : (r.2.1.foldl (fun c var => (insert var c).erase (-var)) clause)
        = (clause \ Nf) ∪ Nf.image (fun w => -w) := by
      ext u
      rw [clauseFold_mem r.2.1 clause u htempneg]
      rw [Finset.mem_union, Finset.mem_sdiff, Finset.mem_image]
      constructor
      · rintro (hu | ⟨hu, hnu⟩)
        · exact Or.inr ⟨-u, (htempNf u).mp hu, by omega⟩
        · refine Or.inl ⟨hu, fun hmem => ?_⟩
          have hupos := hposk u ((hkeys u).mp hu)
          apply hnu
          rw [htempNf (-u), neg_neg]
          exact hmem
      · rintro (⟨hu, hnu⟩ | ⟨w, hw, rfl⟩)
        · refine Or.inr ⟨hu, fun hmem => ?_⟩
          rw [htempNf (-u), neg_neg] at hmem
          exact hnu hmem
        · exact Or.inl ((htempNf (-w)).mpr (by simpa using hw))
    have hdisj : Disjoint (clause \ Nf) (Nf.image fun w => -w) := by
      rw [Finset.disjoint_left]
      intro u hu hui
      have h1 : 0 < u := hposk u ((hkeys u).mp (Finset.mem_sdiff.mp hu).1)
      obtain ⟨w, hw, he⟩ := Finset.mem_image.mp hui
      have := hNfpos w hw
      omega
    have hvalB : ∀ w ∈ Nf, mapFindD r.1 (-w) 0 = -(mapFindD coefs w 0) := by
      intro w hw
      obtain ⟨hwc, hwneg⟩ := Finset.mem_filter.mp hw
      have hwL : w ∈ L := (hLclause w).mpr hwc
      rw [mapFindD, hfind' (-w), if_neg (by
          intro hco
          have := hLpos (-w) hco.1
          have := hNfpos w hw
          omega),
        if_pos (by
          rw [neg_neg]
          exact ⟨hwL, by simpa using hwneg⟩)]
      simp
    have hvalA : ∀ u ∈ clause \ Nf, mapFindD r.1 u 0 = mapFindD coefs u 0 := by
      intro u hu
      obtain ⟨huc, hunf⟩ := Finset.mem_sdiff.mp hu
      have hupos := hposk u ((hkeys u).mp huc)
      have hnotneg : ¬ mapFindD coefs u 0 < 0 := by
        intro hlt
        exact hunf (Finset.mem_filter.mpr ⟨huc, hlt⟩)
      rw [mapFindD, hfind' u, if_neg (by
          intro hco
          exact hnotneg hco.2),
        if_neg (by
          intro hco
          have := hLpos (-u) hco.1
          omega)]
      rfl
    have hsum_split :
        ((clause \ Nf) ∪ Nf.image (fun w => -w)).sum
            (fun v => mapFindD r.1 v 0 * litVal σ v)
          = ((clause \ Nf).sum fun v => mapFindD r.1 v 0 * litVal σ v)
            + (Nf.image (fun w => -w)).sum (fun v => mapFindD r.1 v 0 * litVal σ v) :=
      Finset.sum_union hdisj
    have hsumA : ((clause \ Nf).sum fun v => mapFindD r.1 v 0 * litVal σ v)
        = (clause \ Nf).sum fun v => mapFindD coefs v 0 * litVal σ v :=
      Finset.sum_congr rfl fun u hu => by rw [hvalA u hu]
    have hsumB : ((Nf.image (fun w => -w)).sum fun v => mapFindD r.1 v 0 * litVal σ v)
        = Nf.sum fun w => (-(mapFindD coefs w 0)) * (1 - litVal σ w) := by
      rw [Finset.sum_image (fun a _ b _ he => by omega)]
      refine Finset.sum_congr rfl fun w hw => ?_
      rw [hvalB w hw, litVal_neg σ w (hNfpos w hw)]
    have hsdiff : ((clause \ Nf).sum fun v => mapFindD coefs v 0 * litVal σ v)
        = (clause.sum fun v => mapFindD coefs v 0 * litVal σ v)
          - Nf.sum (fun v => mapFindD coefs v 0 * litVal σ v) := by
      have hsub : Nf ⊆ clause := Finset.filter_subset _ _
      have hsd : ((clause \ Nf).sum fun v => mapFindD coefs v 0 * litVal σ v)
          + Nf.sum (fun v => mapFindD coefs v 0 * litVal σ v)
          = clause.sum fun v => mapFindD coefs v 0 * litVal σ v :=
        Finset.sum_sdiff hsub
      omega
    have hkval : r.2.2 = k - Nf.sum fun v => mapFindD coefs v 0 := by
      rw [hk']
      have hndf : (L.filter fun v => mapFindD coefs v 0 < 0).Nodup := hLnd.filter _
      have htf : (L.filter fun v => mapFindD coefs v 0 < 0).toFinset = Nf := by
        ext u
        simp only [List.mem_toFinset, List.mem_filter, decide_eq_true_eq, hNf,
          Finset.mem_filter, hLclause u]
      rw [← htf, List.sum_toFinset _ hndf]
    have hexpandB : (Nf.sum fun w => (-(mapFindD coefs w 0)) * (1 - litVal σ w))
        = (Nf.sum fun w => mapFindD coefs w 0 * litVal σ w)
          - Nf.sum fun w => mapFindD coefs w 0 := by
      rw [← Finset.sum_sub_distrib]
      refine Finset.sum_congr rfl fun w hw => ?_
      ring
    rw [hclause', hsum_split, hsumA, hsumB, hsdiff, hkval, hexpandB]
    ring

/-- Evaluation of pbSatB by comparator code, for rewriting. -/
theorem pbSatB_of_cmp1 (σ : Int → Bool) (st : PBState) (h : st.comparator = 1) :
    pbSatB σ st = decide (st.k ≤ pbSum σ st) := by
  rw [pbSatB, if_pos h]

theorem pbSatB_of_cmp2 (σ : Int → Bool) (st : PBState) (h : st.comparator = 2) :
    pbSatB σ st = decide (pbSum σ st = st.k) := by
  rw [pbSatB, if_neg (by rw [h]; decide), if_pos h]

theorem pbSatB_of_cmp3 (σ : Int → Bool) (st : PBState) (h : st.comparator = 3) :
    pbSatB σ st = decide (pbSum σ st ≤ st.k) := by
  rw [pbSatB, if_neg (by rw [h]; decide), if_neg (by rw [h]; decide), if_pos h]

/-- C1 (amended): for a pseudo-Boolean constraint whose coefficient map is
key-sorted with positive variable keys matching the clause and whose
comparator is one of `>=` (1), `=` (2), `<=` (3), PB_canonicalize yields a
comparator of `>=` or `=`, every coefficient of the result nonnegative —
strictly positive whenever no input coefficient is zero — and the satisfying
assignment set unchanged.  The claim's unconditional strict positivity fails
for an input with a zero coefficient, which canonicalization leaves in
place. -/
theorem c1_pb_canonicalize (st : PBState)
    (hs : mapSorted st.coefs)
    (hpos : ∀ j ∈ mapKeys st.coefs, 0 < j)
    (hkeys : ∀ v, v ∈ st.clause ↔ v ∈ mapKeys st.coefs)
    (hcmp : st.comparator = 1 ∨ st.comparator = 2 ∨ st.comparator = 3) :
    ((PB_canonicalize st).comparator = 1 ∨ (PB_canonicalize st).comparator = 2)
    ∧ (∀ p ∈ (PB_canonicalize st).coefs, 0 ≤ p.2)
    ∧ ((∀ q ∈ st.coefs, q.2 ≠ 0) → ∀ p ∈ (PB_canonicalize st).coefs, 0 < p.2)
    ∧ (∀ σ : Int → Bool, pbSatB σ (PB_canonicalize st) = pbSatB σ st) := by
  obtain ⟨cl, co, kk, cm⟩ := st
  dsimp only at hs hpos hkeys hcmp ⊢
  rcases hcmp with hc | hc | hc
  · -- comparator `>=`: only the absorption stage runs
    subst hc
    obtain ⟨hsort2, hentries, hsum⟩ := pbStage2_spec cl co kk hs hpos hkeys
    have hCcmp : (PB_canonicalize ⟨cl, co, kk, 1⟩).comparator = 1 := rfl
    have hCco : (PB_canonicalize ⟨cl, co, kk, 1⟩).coefs
        = ((cl.sort (· ≤ ·)).foldl pbAbsorbStep (co, [], kk)).1 := rfl
    refine ⟨Or.inl hCcmp, ?_, ?_, ?_⟩
    · intro p hp
      rw [hCco] at hp
      exact (hentries p hp).1
    · intro hnz p hp
      rw [hCco] at hp
      exact (hentries p hp).2 hnz
    · intro σ
      rw [pbSatB_of_cmp1 σ _ hCcmp, pbSatB_of_cmp1 σ ⟨cl, co, kk, 1⟩ rfl,
        decide_eq_decide]
      have hid := hsum σ
      have hps1 : pbSum σ (PB_canonicalize ⟨cl, co, kk, 1⟩)
          = ((((cl.sort (· ≤ ·)).foldl pbAbsorbStep (co, [], kk)).2.1.foldl
              (fun c var => (insert var c).erase (-var)) cl).sum
            fun v => mapFindD ((cl.sort (· ≤ ·)).foldl pbAbsorbStep (co, [], kk)).1 v 0
              * litVal σ v) := rfl
      have hpk : (PB_canonicalize ⟨cl, co, kk, 1⟩).k
          = ((cl.sort (· ≤ ·)).foldl pbAbsorbStep (co, [], kk)).2.2 := rfl
      have hps0 : pbSum σ (⟨cl, co, kk, 1⟩ : PBState)
          = cl.sum fun v => mapFindD co v 0 * litVal σ v := rfl
      have hk0 : (⟨cl, co, kk, 1⟩ : PBState).k = kk := rfl
      rw [hps1, hpk, hps0, hk0]
      omega
  · -- comparator `=`: only the absorption stage runs
    subst hc
    obtain ⟨hsort2, hentries, hsum⟩ := pbStage2_spec cl co kk hs hpos hkeys
    have hCcmp : (PB_canonicalize ⟨cl, co, kk, 2⟩).comparator = 2 := rfl
    have hCco : (PB_canonicalize ⟨cl, co, kk, 2⟩).coefs
        = ((cl.sort (· ≤ ·)).foldl pbAbsorbStep (co, [], kk)).1 := rfl
    refine ⟨Or.inr hCcmp, ?_, ?_, ?_⟩
    · intro p hp
      rw [hCco] at hp
      exact (hentries p hp).1
    · intro hnz p hp
      rw [hCco] at hp
      exact (hentries p hp).2 hnz
    · intro σ
      rw [pbSatB_of_cmp2 σ _ hCcmp, pbSatB_of_cmp2 σ ⟨cl, co, kk, 2⟩ rfl,
        decide_eq_decide]
      have hid := hsum σ
      have hps1 : pbSum σ (PB_canonicalize ⟨cl, co, kk, 2⟩)
          = ((((cl.sort (· ≤ ·)).foldl pbAbsorbStep (co, [], kk)).2.1.foldl
              (fun c var => (insert var c).erase (-var)) cl).sum
            fun v => mapFindD ((cl.sort (· ≤ ·)).foldl pbAbsorbStep (co, [], kk)).1 v 0
              * litVal σ v) := rfl
      have hpk : (PB_canonicalize ⟨cl, co, kk, 2⟩).k
          = ((cl.sort (· ≤ ·)).foldl pbAbsorbStep (co, [], kk)).2.2 := rfl
      have hps0 : pbSum σ (⟨cl, co, kk, 2⟩ : PBState)
          = cl.sum fun v => mapFindD co v 0 * litVal σ v := rfl
      have hk0 : (⟨cl, co, kk, 2⟩ : PBState).k = kk := rfl
      rw [hps1, hpk, hps0, hk0]
      omega
  · -- comparator `<=`: negation stage, then absorption
    subst hc
    obtain ⟨hnsort, hnfind⟩ := negFold_spec (cl.sort (· ≤ ·)) co hs
      (Finset.sort_nodup (· ≤ ·) cl)
      (fun v hv => mem_keys_isSome co v
        ((hkeys v).mp ((Finset.mem_sort (· ≤ ·)).mp hv)))
    set NC := (cl.sort (· ≤ ·)).foldl
      (fun coefs var =>
        let coefs := if mapContains coefs var then coefs else mapSet coefs var 0
        mapSet coefs var (-(mapFindD coefs var 0))) co with hNC
    have hsome : ∀ v, (mapFind? NC v).isSome = (mapFind? co v).isSome := by
      intro v
      rw [hnfind v]
      by_cases hvL : v ∈ cl.sort (· ≤ ·)
      · rw [if_pos hvL]
        cases mapFind? co v <;> rfl
      · rw [if_neg hvL]
    have hkeys1 : ∀ v, v ∈ cl ↔ v ∈ mapKeys NC := by
      intro v
      rw [hkeys v]
      constructor
      · intro hv
        exact mapFind?_isSome_mem_keys NC v
          (by rw [hsome v]; exact mem_keys_isSome co v hv)
      · intro hv
        exact mapFind?_isSome_mem_keys co v
          (by rw [← hsome v]; exact mem_keys_isSome NC v hv)
    have hposk1 : ∀ j ∈ mapKeys NC, 0 < j := fun j hj =>
      hpos j ((hkeys j).mp ((hkeys1 j).mpr hj))
    obtain ⟨hsort2, hentries, hsum⟩ := pbStage2_spec cl NC (-kk) hnsort hposk1 hkeys1
    have hnval : ∀ v ∈ cl, mapFindD NC v 0 = -(mapFindD co v 0) := by
      intro v hv
      rw [mapFindD, mapFindD, hnfind v, if_pos ((Finset.mem_sort (· ≤ ·)).mpr hv)]
      cases mapFind? co v <;> simp
    have hco0 : (∀ q ∈ co, q.2 ≠ 0) → ∀ q ∈ NC, q.2 ≠ 0 := by
      intro hnz q hq
      have hf : mapFind? NC q.1 = some q.2 :=
        mem_mapFind? NC q (mapSorted_nodupKeys NC hnsort) hq
      rw [hnfind q.1] at hf
      by_cases hqL : q.1 ∈ cl.sort (· ≤ ·)
      · rw [if_pos hqL] at hf
        rcases hfo : mapFind? co q.1 with _ | x
        · rw [hfo] at hf
          simp at hf
        · rw [hfo] at hf
          have hqx : -x = q.2 := by simpa using hf
          have hxz : x ≠ 0 := by
            have := hnz (q.1, x) (mapFind?_mem co q.1 x hfo)
            simpa using this
          omega
      · rw [if_neg hqL] at hf
        exact hnz (q.1, q.2) (mapFind?_mem co q.1 q.2 hf)
    have hCcmp : (PB_canonicalize ⟨cl, co, kk, 3⟩).comparator = 1 := rfl
    have hCco : (PB_canonicalize ⟨cl, co, kk, 3⟩).coefs
        = ((cl.sort (· ≤ ·)).foldl pbAbsorbStep (NC, [], -kk)).1 := rfl
    refine ⟨Or.inl hCcmp, ?_, ?_, ?_⟩
    · intro p hp
      rw [hCco] at hp
      exact (hentries p hp).1
    · intro hnz p hp
      rw [hCco] at hp
      exact (hentries p hp).2 (hco0 hnz)
    · intro σ
      rw [pbSatB_of_cmp1 σ _ hCcmp, pbSatB_of_cmp3 σ ⟨cl, co, kk, 3⟩ rfl,
        decide_eq_decide]
      have hid := hsum σ
      have hneg : (cl.sum fun v => mapFindD NC v 0 * litVal σ v)
          = -(cl.sum fun v => mapFindD co v 0 * litVal σ v) := by
        rw [← Finset.sum_neg_distrib]
        refine Finset.sum_congr rfl fun v hv => ?_
        rw [hnval v hv]
        ring
      have hps1 : pbSum σ (PB_canonicalize ⟨cl, co, kk, 3⟩)
          = ((((cl.sort (· ≤ ·)).foldl pbAbsorbStep (NC, [], -kk)).2.1.foldl
              (fun c var => (insert var c).erase (-var)) cl).sum
            fun v => mapFindD ((cl.sort (· ≤ ·)).foldl pbAbsorbStep (NC, [], -kk)).1 v 0
              * litVal σ v) := rfl
      have hpk : (PB_canonicalize ⟨cl, co, kk, 3⟩).k
          = ((cl.sort (· ≤ ·)).foldl pbAbsorbStep (NC, [], -kk)).2.2 := rfl
      have hps0 : pbSum σ (⟨cl, co, kk, 3⟩ : PBState)
          = cl.sum fun v => mapFindD co v 0 * litVal σ v := rfl
      have hk0 : (⟨cl, co, kk, 3⟩ : PBState).k = kk := rfl
      rw [hps1, hpk, hps0, hk0]
      omega

/-- C1 counterexample: on the `>=` constraint with clause {1}, coefficient
map {1 ↦ 0} and right-hand side 1 (input `0 x1 >= 1`), PB_canonicalize
leaves the zero coefficient in place, so the claim that every coefficient is
strictly positive after canonicalization fails. -/
theorem c1_zero_coefficient_counterexample :
    (PB_canonicalize ⟨{1}, [(1, 0)], 1, 1⟩).coefs = [(1, 0)]
    ∧ ¬ (∀ p ∈ (PB_canonicalize ⟨{1}, [(1, 0)], 1, 1⟩).coefs, 0 < p.2) := by
  have hsrt : ({1} : Finset Int).sort (· ≤ ·) = [1] := Finset.sort_singleton (· ≤ ·) 1
  constructor
  · show ((({1} : Finset Int).sort (· ≤ ·)).foldl pbAbsorbStep ([(1, 0)], [], 1)).1
      = [(1, 0)]
    rw [hsrt]
    decide
  · show ¬ (∀ p ∈ ((({1} : Finset Int).sort (· ≤ ·)).foldl
        pbAbsorbStep ([(1, 0)], [], 1)).1, 0 < p.2)
    rw [hsrt]
    decide

/-- Witness for c1_pb_canonicalize: the `<=` constraint
`3 x1 - 2 x2 <= 1` is canonicalized to a `>=` constraint with strictly
positive coefficients and unchanged satisfaction. -/
theorem c1_pb_canonicalize_witness :
    ((PB_canonicalize ⟨{1, 2}, [(1, 3), (2, -2)], 1, 3⟩).comparator = 1
      ∨ (PB_canonicalize ⟨{1, 2}, [(1, 3), (2, -2)], 1, 3⟩).comparator = 2)
    ∧ (∀ p ∈ (PB_canonicalize ⟨{1, 2}, [(1, 3), (2, -2)], 1, 3⟩).coefs, 0 < p.2)
    ∧ pbSatB (fun _ => true) (PB_canonicalize ⟨{1, 2}, [(1, 3), (2, -2)], 1, 3⟩)
      = pbSatB (fun _ => true) (⟨{1, 2}, [(1, 3), (2, -2)], 1, 3⟩ : PBState) := by
  have h := c1_pb_canonicalize ⟨{1, 2}, [(1, 3), (2, -2)], 1, 3⟩ (by decide) (by decide)
    (fun v => by simp [mapKeys]) (by decide)
  exact ⟨h.1, h.2.2.1 (by decide), h.2.2.2 (fun _ => true)⟩

/-- Length of one assignment extension: 2 when the input vector is empty,
otherwise doubled. -/
theorem extendAssignments_length (acc : List Assignment) (var : Int) :
    (Assignment.extendAssignments acc var).length = 2 * max 1 acc.length := by
  cases acc with
  | nil => rfl
  | cons a rest =>
    show ((a :: rest).flatMap fun assignment =>
      [Assignment.setVar assignment var false,
       Assignment.setVar (Assignment.setVar assignment var false) var true]).length
      = 2 * max 1 (a :: rest).length
    rw [extend_flatMap_length]
    simp only [List.length_cons]
    omega

/-- Length of the slice-assignment loop: with `e` the number of extensions
actually performed (bounded by the remaining budget and by the additive
variables left in the order), the accumulator is returned unchanged when
`e = 0` and otherwise grows to `2 ^ e * max 1 length`. -/
theorem sliceLoop_length (A : Finset Int) (svc : Int) :
    ∀ (order : List Int) (assigned : Int) (acc : List Assignment),
      (sliceLoop A svc order assigned acc).length
        = if min (svc - assigned).toNat (order.countP fun v => decide (v ∈ A)) = 0
          then acc.length
          else 2 ^ min (svc - assigned).toNat (order.countP fun v => decide (v ∈ A))
            * max 1 acc.length := by
  intro order
  induction order with
  | nil =>
    intro assigned acc
    simp [sliceLoop]
  | cons var rest ih =>
    intro assigned acc
    rw [sliceLoop]
    by_cases hlt : assigned < svc
    · rw [if_pos hlt]
      by_cases hmem : var ∈ A
      · rw [if_pos hmem, ih]
        have hcount : ((var :: rest).countP fun v => decide (v ∈ A))
            = (rest.countP fun v => decide (v ∈ A)) + 1 := by
          rw [List.countP_cons]
          simp [hmem]
        have hs : (svc - assigned).toNat = (svc - (assigned + 1)).toNat + 1 := by omega
        rw [hcount, hs, extendAssignments_length]
        have hmin : min ((svc - (assigned + 1)).toNat + 1)
            ((rest.countP fun v => decide (v ∈ A)) + 1)
            = min (svc - (assigned + 1)).toNat (rest.countP fun v => decide (v ∈ A))
              + 1 := by omega
        rw [hmin]
        by_cases he : min (svc - (assigned + 1)).toNat
            (rest.countP fun v => decide (v ∈ A)) = 0
        · rw [if_pos he, if_neg (by omega), he]
          rw [pow_succ, pow_zero]
          ring
        · rw [if_neg he, if_neg (by omega)]
          have hm : max 1 (2 * max 1 acc.length) = 2 * max 1 acc.length := by omega
          rw [hm, pow_succ]
          ring
      · rw [if_neg hmem, ih]
        have hcount : ((var :: rest).countP fun v => decide (v ∈ A))
            = rest.countP fun v => decide (v ∈ A) := by
          rw [List.countP_cons]
          simp [hmem]
        rw [hcount]
    · rw [if_neg hlt]
      have hz : (svc - assigned).toNat = 0 := by omega
      rw [hz]
      simp

/-- C5 (amended): getAdditiveAssignments returns the single empty
assignment when `sliceVarCount <= 0`; otherwise, with `a` the number of
additive variables occurring in the computed variable order, it returns no
assignment at all when `a = 0` and exactly `2 ^ min sliceVarCount a`
assignments when `a > 0`.  The claim's unconditional count
`2 ^ min(sliceVarCount, a)` fails at `a = 0`, where the loop never extends
the initially empty assignment vector. -/
theorem c5_get_additive_assignments (cnf : Cnf) (rnd : Nat → Nat) (t : JoinTree)
    (varOrderHeuristic sliceVarCount : Int) :
    (sliceVarCount ≤ 0 →
      JoinTree.getAdditiveAssignments cnf rnd t varOrderHeuristic sliceVarCount
        = [([] : Assignment)])
    ∧ (0 < sliceVarCount →
      (JoinTree.getAdditiveAssignments cnf rnd t varOrderHeuristic sliceVarCount).length
        = if ((JoinTree.getVarOrder cnf rnd t varOrderHeuristic).countP
              fun v => decide (v ∈ cnf.additiveVars)) = 0
          then 0
          else 2 ^ min sliceVarCount.toNat
            ((JoinTree.getVarOrder cnf rnd t varOrderHeuristic).countP
              fun v => decide (v ∈ cnf.additiveVars))) := by
  constructor
  · intro h
    rw [JoinTree.getAdditiveAssignments, if_pos h]
  · intro h
    rw [JoinTree.getAdditiveAssignments, if_neg (by omega), sliceLoop_length]
    have hz : (sliceVarCount - 0).toNat = sliceVarCount.toNat := by omega
    rw [hz]
    by_cases hc : ((JoinTree.getVarOrder cnf rnd t varOrderHeuristic).countP
        fun v => decide (v ∈ cnf.additiveVars)) = 0
    · rw [if_pos (by omega), if_pos hc]
      rfl
    · rw [if_neg (by omega), if_neg hc]
      simp

/-- C5 counterexample: over a CNF with no additive variables, the slice
loop with budget 1 never extends the initially empty assignment vector, so
getAdditiveAssignments returns 0 assignments while
`2 ^ min(sliceVarCount, number of additive vars in the order)` is 1. -/
theorem c5_no_additive_counterexample :
    (JoinTree.getAdditiveAssignments
        { declaredVarCount := 1, clauses := [{1}], varToClauses := [(1, {0})],
          apparentVars := {1} }
        (fun _ => 0) (JoinTree.nonterminal [JoinTree.terminal 0] {1}) 2 1).length = 0
    ∧ (2 : Nat) ^ min (1 : Int).toNat
        ((JoinTree.getVarOrder
            { declaredVarCount := 1, clauses := [{1}], varToClauses := [(1, {0})],
              apparentVars := {1} }
            (fun _ => 0) (JoinTree.nonterminal [JoinTree.terminal 0] {1}) 2).countP
          fun v => decide (v ∈ ({ declaredVarCount := 1, clauses := [{1}], varToClauses := [(1, {0})], apparentVars := {1} } : Cnf).additiveVars))
      = 1 := by
  constructor <;> decide

/-- Witness for c5_get_additive_assignments: over a CNF whose only variable
is additive, slicing with budget 1 under the DECLARED order yields
2 ^ min(1, 1) = 2 assignments. -/
theorem c5_get_additive_assignments_witness :
    ((0 : Int) < 1)
    ∧ (JoinTree.getAdditiveAssignments
        { declaredVarCount := 1, clauses := [{1}], varToClauses := [(1, {0})],
          apparentVars := {1}, additiveVars := {1} }
        (fun _ => 0) (JoinTree.nonterminal [JoinTree.terminal 0] {1}) 2 1).length
      = if ((JoinTree.getVarOrder
              { declaredVarCount := 1, clauses := [{1}], varToClauses := [(1, {0})],
                apparentVars := {1}, additiveVars := {1} }
              (fun _ => 0) (JoinTree.nonterminal [JoinTree.terminal 0] {1}) 2).countP
            fun v => decide (v ∈ ({ declaredVarCount := 1, clauses := [{1}], varToClauses := [(1, {0})], apparentVars := {1}, additiveVars := {1} } : Cnf).additiveVars)) = 0
        then 0
        else 2 ^ min (1 : Int).toNat
          ((JoinTree.getVarOrder
              { declaredVarCount := 1, clauses := [{1}], varToClauses := [(1, {0})],
                apparentVars := {1}, additiveVars := {1} }
              (fun _ => 0) (JoinTree.nonterminal [JoinTree.terminal 0] {1}) 2).countP
            fun v => decide (v ∈ ({ declaredVarCount := 1, clauses := [{1}], varToClauses := [(1, {0})], apparentVars := {1}, additiveVars := {1} } : Cnf).additiveVars)) :=
  ⟨by decide,
    (c5_get_additive_assignments
      { declaredVarCount := 1, clauses := [{1}], varToClauses := [(1, {0})],
        apparentVars := {1}, additiveVars := {1} }
      (fun _ => 0) (JoinTree.nonterminal [JoinTree.terminal 0] {1}) 2 1).2
      (by decide)⟩

/-- C2: the parser does not treat an empty clause line as a recoverable
warning.  A line holding only the terminating `0` crashes before any
empty-clause check: the PB dispatch of a typical DIMACS clause line reads
`words.at(1)`, which is out of range for a one-word line.  A line `x 0`,
which does reach the empty-clause check, raises EmptyClauseException, and
no handler exists, so the construction aborts with the remaining lines
unparsed instead of continuing. -/
theorem c2_empty_clause_aborts :
    cnfFromWords ⟨false, false, false⟩ false
        [["p", "cnf", "1", "1"], ["0"], ["1", "0"]]
      = .error .outOfRange
    ∧ cnfFromWords ⟨false, false, false⟩ false
        [["p", "cnf", "1", "1"], ["x", "0"], ["1", "0"]]
      = .error (.emptyClause 2 ["x", "0"]) := by
  constructor <;> rfl

/-- Membership in the 1..n iteration list. -/
theorem mem_intRange1 (n v : Int) : v ∈ intRange1 n ↔ 1 ≤ v ∧ v ≤ n := by
  rw [intRange1]
  simp only [List.mem_map, List.mem_range]
  constructor
  · rintro ⟨i, hi, rfl⟩
    omega
  · intro ⟨h1, h2⟩
    exact ⟨(v - 1).toNat, by omega, by omega⟩

theorem intRange1_nodup (n : Int) : (intRange1 n).Nodup := by
  rw [intRange1]
  refine List.Nodup.map ?_ (List.nodup_range _)
  intro a b hab
  have h : (a : Int) + 1 = (b : Int) + 1 := hab
  omega

/-- A fold whose step only rewrites the keys `var` and `-var` leaves every
other key's binding unchanged. -/
theorem weightFoldFrame (f : List (Int × ℚ) → Int → List (Int × ℚ))
    (hframe : ∀ lw var j, j ≠ var → j ≠ -var → mapFind? (f lw var) j = mapFind? lw j) :
    ∀ (L : List Int) (lw : List (Int × ℚ)) (j : Int),
      (∀ u ∈ L, j ≠ u ∧ j ≠ -u) →
      mapFind? (L.foldl f lw) j = mapFind? lw j := by
  intro L
  induction L with
  | nil =>
    intro lw j _
    rfl
  | cons a L' ih =>
    intro lw j hj
    rw [List.foldl_cons, ih (f lw a) j (fun u hu => hj u (List.mem_cons_of_mem _ hu)),
      hframe lw a j (hj a (List.mem_cons_self _ _)).1 (hj a (List.mem_cons_self _ _)).2]

/-- Over a duplicate-free list of positive variables, a fold whose step
rewrites the two keys `var` and `-var` as a function of their current
bindings gives each pair of literals its value computed from the initial
bindings. -/
theorem weightFoldLocal (f : List (Int × ℚ) → Int → List (Int × ℚ))
    (gP gN : Option ℚ → Option ℚ → Option ℚ)
    (hframe : ∀ lw var j, j ≠ var → j ≠ -var → mapFind? (f lw var) j = mapFind? lw j)
    (hlocalP : ∀ lw var, 0 < var →
      mapFind? (f lw var) var = gP (mapFind? lw var) (mapFind? lw (-var)))
    (hlocalN : ∀ lw var, 0 < var →
      mapFind? (f lw var) (-var) = gN (mapFind? lw var) (mapFind? lw (-var))) :
    ∀ (L : List Int) (lw : List (Int × ℚ)) (v : Int),
      (∀ u ∈ L, 0 < u) → L.Nodup → v ∈ L →
      mapFind? (L.foldl f lw) v = gP (mapFind? lw v) (mapFind? lw (-v))
      ∧ mapFind? (L.foldl f lw) (-v) = gN (mapFind? lw v) (mapFind? lw (-v)) := by
  intro L
  induction L with
  | nil =>
    intro lw v _ _ hv
    exact absurd hv (List.not_mem_nil v)
  | cons a L' ih =>
    intro lw v hpos hnd hv
    have hapos : 0 < a := hpos a (List.mem_cons_self _ _)
    rcases List.mem_cons.mp hv with rfl | hv'
    · have hvpos : 0 < v := hapos
      have hframeL : ∀ u ∈ L', (v : Int) ≠ u ∧ v ≠ -u := by
        intro u hu
        have hupos : 0 < u := hpos u (List.mem_cons_of_mem _ hu)
        have hvu : v ≠ u := fun he => (List.nodup_cons.mp hnd).1 (he ▸ hu)
        exact ⟨hvu, by omega⟩
      have hframeLn : ∀ u ∈ L', (-v : Int) ≠ u ∧ -v ≠ -u := by
        intro u hu
        have hupos : 0 < u := hpos u (List.mem_cons_of_mem _ hu)
        have hvu : v ≠ u := fun he => (List.nodup_cons.mp hnd).1 (he ▸ hu)
        exact ⟨by omega, by omega⟩
      rw [List.foldl_cons]
      rw [weightFoldFrame f hframe L' (f lw v) v hframeL,
        weightFoldFrame f hframe L' (f lw v) (-v) hframeLn]
      exact ⟨hlocalP lw v hvpos, hlocalN lw v hvpos⟩
    · have hvpos : 0 < v := hpos v (List.mem_cons_of_mem _ hv')
      have hva : v ≠ a := fun he => (List.nodup_cons.mp hnd).1 (he ▸ hv')
      rw [List.foldl_cons]
      obtain ⟨ihP, ihN⟩ := ih (f lw a) v
        (fun u hu => hpos u (List.mem_cons_of_mem _ hu))
        (List.nodup_cons.mp hnd).2 hv'
      rw [ihP, ihN, hframe lw a v hva (by omega), hframe lw a (-v) (by omega) (by omega)]
      exact ⟨rfl, rfl⟩

/-- C3: after the post-parse weight completion, literalWeights is total
over the literals of the declared variables.  With weighted counting
disabled both literals of every declared variable get weight 1; with it
enabled, a variable with neither literal supplied gets 1 on both sides, a
variable with exactly one side supplied keeps it and gets `1 - supplied`
on the other, and a variable with both sides supplied keeps both. -/
theorem c3_literal_weights_total (cm : CountingMode) (cnf : Cnf) (v : Int)
    (hv1 : 1 ≤ v) (hvn : v ≤ cnf.declaredVarCount) :
    (cm.weightedCounting = false →
      mapFind? (completeLiteralWeights cm cnf).literalWeights v = some 1
      ∧ mapFind? (completeLiteralWeights cm cnf).literalWeights (-v) = some 1)
    ∧ (cm.weightedCounting = true →
      (mapFind? cnf.literalWeights v = none → mapFind? cnf.literalWeights (-v) = none →
        mapFind? (completeLiteralWeights cm cnf).literalWeights v = some 1
        ∧ mapFind? (completeLiteralWeights cm cnf).literalWeights (-v) = some 1)
      ∧ (∀ b : ℚ, mapFind? cnf.literalWeights v = none →
          mapFind? cnf.literalWeights (-v) = some b →
          mapFind? (completeLiteralWeights cm cnf).literalWeights v = some (1 - b)
          ∧ mapFind? (completeLiteralWeights cm cnf).literalWeights (-v) = some b)
      ∧ (∀ a : ℚ, mapFind? cnf.literalWeights v = some a →
          mapFind? cnf.literalWeights (-v) = none →
          mapFind? (completeLiteralWeights cm cnf).literalWeights v = some a
          ∧ mapFind? (completeLiteralWeights cm cnf).literalWeights (-v) = some (1 - a))
      ∧ (∀ a b : ℚ, mapFind? cnf.literalWeights v = some a →
          mapFind? cnf.literalWeights (-v) = some b →
          mapFind? (completeLiteralWeights cm cnf).literalWeights v = some a
          ∧ mapFind? (completeLiteralWeights cm cnf).literalWeights (-v) = some b))
    ∧ (mapFind? (completeLiteralWeights cm cnf).literalWeights v).isSome = true
    ∧ (mapFind? (completeLiteralWeights cm cnf).literalWeights (-v)).isSome = true := by
  have hmem : v ∈ intRange1 cnf.declaredVarCount := (mem_intRange1 _ _).mpr ⟨hv1, hvn⟩
  have hpos : ∀ u ∈ intRange1 cnf.declaredVarCount, 0 < u := by
    intro u hu
    have := (mem_intRange1 _ _).mp hu
    omega
  have hnd := intRange1_nodup cnf.declaredVarCount
  rcases (Bool.eq_false_or_eq_true cm.weightedCounting).symm with hwf | hwt
  · -- unweighted counting: both sides of every variable set to 1
    have hlw : (completeLiteralWeights cm cnf).literalWeights
        = (intRange1 cnf.declaredVarCount).foldl
            (fun lw var => mapSet (mapSet lw var 1) (-var) 1) cnf.literalWeights := by
      rw [completeLiteralWeights, if_pos (by rw [hwf]; simp)]
    obtain ⟨hP, hN⟩ := weightFoldLocal
      (fun lw var => mapSet (mapSet lw var 1) (-var) 1)
      (fun _ _ => some 1) (fun _ _ => some 1)
      (fun lw var j hj1 hj2 => by
        dsimp only
        rw [mapFind?_mapSet_ne _ _ _ _ hj2, mapFind?_mapSet_ne _ _ _ _ hj1])
      (fun lw var hvar => by
        dsimp only
        rw [mapFind?_mapSet_ne _ _ _ _ (by omega), mapFind?_mapSet_eq])
      (fun lw var hvar => by
        dsimp only
        rw [mapFind?_mapSet_eq])
      (intRange1 cnf.declaredVarCount) cnf.literalWeights v hpos hnd hmem
    refine ⟨fun _ => ⟨by rw [hlw, hP], by rw [hlw, hN]⟩,
      fun hcontra => absurd hcontra (by rw [hwf]; simp),
      by rw [hlw, hP]; rfl, by rw [hlw, hN]; rfl⟩
  · -- weighted counting: completion of partially supplied weights
    have hlw : (completeLiteralWeights cm cnf).literalWeights
        = (intRange1 cnf.declaredVarCount).foldl
            (fun lw var =>
              if ¬ mapContains lw var ∧ ¬ mapContains lw (-var) then
                mapSet (mapSet lw var 1) (-var) 1
              else if ¬ mapContains lw var then
                mapSet lw var (1 - mapFindD lw (-var) 0)
              else if ¬ mapContains lw (-var) then
                mapSet lw (-var) (1 - mapFindD lw var 0)
              else lw) cnf.literalWeights := by
      rw [completeLiteralWeights, if_neg (by rw [hwt]; simp)]
    obtain ⟨hP, hN⟩ := weightFoldLocal
      (fun lw var =>
        if ¬ mapContains lw var ∧ ¬ mapContains lw (-var) then
          mapSet (mapSet lw var 1) (-var) 1
        else if ¬ mapContains lw var then
          mapSet lw var (1 - mapFindD lw (-var) 0)
        else if ¬ mapContains lw (-var) then
          mapSet lw (-var) (1 - mapFindD lw var 0)
        else lw)
      (fun x y => match x, y with
        | none, none => some 1
        | none, some b => some (1 - b)
        | some a, _ => some a)
      (fun x y => match x, y with
        | none, none => some 1
        | none, some b => some b
        | some a, none => some (1 - a)
        | some a, some b => some b)
      (fun lw var j hj1 hj2 => by
        dsimp only
        by_cases h1 : ¬ mapContains lw var ∧ ¬ mapContains lw (-var)
        · rw [if_pos h1, mapFind?_mapSet_ne _ _ _ _ hj2, mapFind?_mapSet_ne _ _ _ _ hj1]
        · rw [if_neg h1]
          by_cases h2 : ¬ mapContains lw var
          · rw [if_pos h2, mapFind?_mapSet_ne _ _ _ _ hj1]
          · rw [if_neg h2]
            by_cases h3 : ¬ mapContains lw (-var)
            · rw [if_pos h3, mapFind?_mapSet_ne _ _ _ _ hj2]
            · rw [if_neg h3])
      (fun lw var hvar => by
        dsimp only
        rcases hx : mapFind? lw var with _ | a
          <;> rcases hy : mapFind? lw (-var) with _ | b
        · rw [if_pos ⟨by simp [mapContains, hx], by simp [mapContains, hy]⟩,
            mapFind?_mapSet_ne _ _ _ _ (by omega : var ≠ -var), mapFind?_mapSet_eq]
        · rw [if_neg (by simp [mapContains, hy]),
            if_pos (by simp [mapContains, hx]), mapFind?_mapSet_eq, mapFindD, hy,
            Option.getD_some]
        · rw [if_neg (by simp [mapContains, hx]),
            if_neg (by simp [mapContains, hx]),
            if_pos (by simp [mapContains, hy]),
            mapFind?_mapSet_ne _ _ _ _ (by omega : var ≠ -var), hx]
        · rw [if_neg (by simp [mapContains, hx]),
            if_neg (by simp [mapContains, hx]),
            if_neg (by simp [mapContains, hy]), hx])
      (fun lw var hvar => by
        dsimp only
        rcases hx : mapFind? lw var with _ | a
          <;> rcases hy : mapFind? lw (-var) with _ | b
        · rw [if_pos ⟨by simp [mapContains, hx], by simp [mapContains, hy]⟩,
            mapFind?_mapSet_eq]
        · rw [if_neg (by simp [mapContains, hy]),
            if_pos (by simp [mapContains, hx]),
            mapFind?_mapSet_ne _ _ _ _ (by omega : -var ≠ var), hy]
        · rw [if_neg (by simp [mapContains, hx]),
            if_neg (by simp [mapContains, hx]),
            if_pos (by simp [mapContains, hy]),
            mapFind?_mapSet_eq, mapFindD, hx, Option.getD_some]
        · rw [if_neg (by simp [mapContains, hx]),
            if_neg (by simp [mapContains, hx]),
            if_neg (by simp [mapContains, hy]), hy])
      (intRange1 cnf.declaredVarCount) cnf.literalWeights v hpos hnd hmem
    refine ⟨fun hcontra => absurd hcontra (by rw [hwt]; simp),
      fun _ => ⟨?_, ?_, ?_, ?_⟩, ?_, ?_⟩
    · intro hfx hfy
      exact ⟨by rw [hlw, hP, hfx, hfy], by rw [hlw, hN, hfx, hfy]⟩
    · intro b hfx hfy
      exact ⟨by rw [hlw, hP, hfx, hfy], by rw [hlw, hN, hfx, hfy]⟩
    · intro a hfx hfy
      exact ⟨by rw [hlw, hP, hfx, hfy], by rw [hlw, hN, hfx, hfy]⟩
    · intro a b hfx hfy
      exact ⟨by rw [hlw, hP, hfx, hfy], by rw [hlw, hN, hfx, hfy]⟩
    · rw [hlw, hP]
      rcases mapFind? cnf.literalWeights v with _ | a
        <;> rcases mapFind? cnf.literalWeights (-v) with _ | b
        <;> rfl
    · rw [hlw, hN]
      rcases mapFind? cnf.literalWeights v with _ | a
        <;> rcases mapFind? cnf.literalWeights (-v) with _ | b
        <;> rfl

/-- Witness for c3_literal_weights_total: with weighted counting enabled
and only `w(1) = 0.3` supplied, the completion keeps 0.3 at literal 1 and
derives `1 - 0.3` at literal -1. -/
theorem c3_literal_weights_total_witness :
    ((1 : Int) ≤ 1 ∧ (1 : Int) ≤ ({ declaredVarCount := 1, literalWeights := [(1, 3/10)] } : Cnf).declaredVarCount)
    ∧ mapFind? (completeLiteralWeights ⟨true, false, false⟩ { declaredVarCount := 1, literalWeights := [(1, 3/10)] }).literalWeights 1
      = some (3/10)
    ∧ mapFind? (completeLiteralWeights ⟨true, false, false⟩ { declaredVarCount := 1, literalWeights := [(1, 3/10)] }).literalWeights (-1)
      = some (1 - 3/10) :=
  ⟨⟨le_refl 1, by decide⟩,
    (((c3_literal_weights_total ⟨true, false, false⟩ { declaredVarCount := 1, literalWeights := [(1, 3/10)] } 1
        (le_refl 1) (by decide)).2.1 rfl).2.2.1 (3/10) rfl rfl).1,
    (((c3_literal_weights_total ⟨true, false, false⟩ { declaredVarCount := 1, literalWeights := [(1, 3/10)] } 1
        (le_refl 1) (by decide)).2.1 rfl).2.2.1 (3/10) rfl rfl).2⟩

/-- Every iteration of the show-line loop re-assigns
`minMaxsatSolving := maxsatSolving`, so any successful run that executes at
least one iteration ends with the flag equal to `maxsatSolving`, and the
flag persists once set. -/
theorem showLoop_flag (cm : CountingMode) (lineIndex : Int) (words : List String) :
    ∀ (fuel : Nat) (st st' : ParseState) (i : Nat),
      showLoop cm lineIndex words fuel st i = .ok st' →
      (st.minMaxsatSolving = cm.maxsatSolving → st'.minMaxsatSolving = cm.maxsatSolving)
      ∧ (i < words.length ∧ words.length - i ≤ fuel →
          st'.minMaxsatSolving = cm.maxsatSolving) := by
  intro fuel
  induction fuel with
  | zero =>
    intro st st' i hok
    rw [showLoop] at hok
    cases hok
    exact ⟨fun h => h, fun hi => absurd hi (by omega)⟩
  | succ m ih =>
    intro st st' i hok
    rw [showLoop] at hok
    by_cases hi : i < words.length
    · rw [if_pos hi] at hok
      dsimp only at hok
      rcases hse : stollE (words.getD i "") with e | num
      · rw [hse] at hok
        exact absurd hok (by simp)
      · rw [hse] at hok
        dsimp only at hok
        by_cases h0 : num = 0
        · rw [if_pos h0] at hok
          by_cases hlast : i ≠ words.length - 1
          · rw [if_pos hlast] at hok
            exact absurd hok (by simp)
          · rw [if_neg hlast] at hok
            have hres := (ih _ st' (i + 1) hok).1 rfl
            exact ⟨fun _ => hres, fun _ => hres⟩
        · rw [if_neg h0] at hok
          by_cases hbound : num < 0 ∨ num > st.cnf.declaredVarCount
          · rw [if_pos hbound] at hok
            exact absurd hok (by simp)
          · rw [if_neg hbound] at hok
            have hres := (ih _ st' (i + 1) hok).1 rfl
            exact ⟨fun _ => hres, fun _ => hres⟩
    · rw [if_neg hi] at hok
      cases hok
      exact ⟨fun h => h, fun hc => absurd hc.1 hi⟩

/-- C10: with projected counting or MaxSAT solving enabled, any accepted
show line carrying at least one token after its keyword — whether it
begins with `vp`, with `vm`, or with `c p show` — assigns
`minMaxsatSolving := maxsatSolving` in the resulting parse state. -/
theorem c10_show_line_sets_min_flag (cm : CountingMode) (st st' : ParseState)
    (lineIndex : Int) (words : List String)
    (hkw : words.headD "" = "w" ∨ words.headD "" = "vp" ∨ words.headD "" = "c"
      ∨ words.headD "" = "vm")
    (hfront : words.headD "" = "vp" ∨ words.headD "" = "vm"
      ∨ (words.length > 3 ∧ words.getD 1 "" = "p" ∧ words.getD 2 "" = "show"))
    (hmode : cm.projectedCounting = true ∨ cm.maxsatSolving = true)
    (hnosteal : ¬ (cm.weightedCounting = true
      ∧ (words.headD "" = "w"
        ∨ (words.length > 4 ∧ words.getD 1 "" = "p" ∧ words.getD 2 "" = "weight"))))
    (hprob : ¬ st.problemLineIndex = none)
    (htok : (if words.headD "" = "vp" ∨ words.headD "" = "vm" then 1 else 3)
      < words.length)
    (hok : processLine cm st lineIndex words = .ok st') :
    st'.minMaxsatSolving = cm.maxsatSolving := by
  have hne : words.isEmpty = false := by
    cases words with
    | nil =>
      rcases hkw with h | h | h | h <;> simp at h
    | cons a l => rfl
  rw [processLine] at hok
  rw [if_neg (by rw [hne]; simp)] at hok
  dsimp only at hok
  have hnp : ¬ words.headD "" = "p" := by
    rcases hkw with h | h | h | h <;> rw [h] <;> decide
  have hnstar : ¬ words.headD "" = "*" := by
    rcases hkw with h | h | h | h <;> rw [h] <;> decide
  rw [if_neg hnp, if_neg hnstar, if_pos hkw, if_neg hnosteal,
    if_pos ⟨hmode, hfront⟩, if_neg hprob] at hok
  exact (showLoop_flag cm lineIndex words words.length st st' _ hok).2
    ⟨htok, by omega⟩

/-- Witness for c10_show_line_sets_min_flag: the plain projection line
`vp 1 0` under projected counting sets minMaxsatSolving to maxsatSolving. -/
theorem c10_show_line_sets_min_flag_witness :
    ((["vp", "1", "0"] : List String).headD "" = "w"
      ∨ (["vp", "1", "0"] : List String).headD "" = "vp"
      ∨ (["vp", "1", "0"] : List String).headD "" = "c"
      ∨ (["vp", "1", "0"] : List String).headD "" = "vm")
    ∧ ((⟨false, true, false⟩ : CountingMode).projectedCounting = true
      ∨ (⟨false, true, false⟩ : CountingMode).maxsatSolving = true)
    ∧ ((if (["vp", "1", "0"] : List String).headD "" = "vp"
          ∨ (["vp", "1", "0"] : List String).headD "" = "vm" then 1 else 3)
        < (["vp", "1", "0"] : List String).length)
    ∧ ParseState.minMaxsatSolving
        ⟨{ declaredVarCount := 1, additiveVars := {1} }, 1, 0, some 1, false, false, false⟩
      = (⟨false, true, false⟩ : CountingMode).maxsatSolving :=
  ⟨by decide, by decide, by decide,
    c10_show_line_sets_min_flag ⟨false, true, false⟩
      ⟨{ declaredVarCount := 1 }, 1, 0, some 1, false, false, false⟩
      ⟨{ declaredVarCount := 1, additiveVars := {1} }, 1, 0, some 1, false, false, false⟩
      2 ["vp", "1", "0"] (by decide) (by decide) (by decide) (by decide) (by decide)
      (by decide) rfl⟩

/-- Replacing position `m` after pulling its value to the front is a
permutation (one step of a swap). -/
theorem consSwap_perm : ∀ (xs : List Int) (m : Nat) (a : Int), m < xs.length →
    List.Perm (xs.getD m 0 :: xs.set m a) (a :: xs) := by
  intro xs
  induction xs with
  | nil =>
    intro m a h
    simp at h
  | cons y t ih =>
    intro m a h
    cases m with
    | zero =>
      simp only [List.getD_cons_zero, List.set_cons_zero]
      exact List.Perm.swap a y t
    | succ m =>
      simp only [List.getD_cons_succ, List.set_cons_succ]
      have h1 : List.Perm (t.getD m 0 :: y :: t.set m a) (y :: t.getD m 0 :: t.set m a) :=
        List.Perm.swap y (t.getD m 0) (t.set m a)
      have h2 : List.Perm (y :: t.getD m 0 :: t.set m a) (y :: a :: t) :=
        (ih m a (by simpa using h)).cons y
      have h3 : List.Perm (y :: a :: t) (a :: y :: t) := List.Perm.swap a y t
      exact (h1.trans h2).trans h3

/-- A position swap is a permutation. -/
theorem listSwap_perm : ∀ (l : List Int) (i j : Nat), i < l.length → j < l.length →
    List.Perm (listSwap l i j) l := by
  intro l
  induction l with
  | nil =>
    intro i j hi _
    simp at hi
  | cons x xs ih =>
    intro i j hi hj
    cases i with
    | zero =>
      cases j with
      | zero =>
        simp only [listSwap, List.getD_cons_zero, List.set_cons_zero]
        exact List.Perm.refl _
      | succ m =>
        simp only [listSwap, List.getD_cons_succ, List.getD_cons_zero,
          List.set_cons_zero, List.set_cons_succ]
        exact consSwap_perm xs m x (by simpa using hj)
    | succ m =>
      cases j with
      | zero =>
        simp only [listSwap, List.getD_cons_succ, List.getD_cons_zero,
          List.set_cons_zero, List.set_cons_succ]
        exact consSwap_perm xs m x (by simpa using hi)
      | succ k =>
        simp only [listSwap, List.getD_cons_succ, List.set_cons_succ]
        exact (ih m k (by simpa using hi) (by simpa using hj)).cons x

/-- The shuffle is a permutation regardless of the index source. -/
theorem fyShuffle_perm (rnd : Nat → Nat) (l : List Int) :
    List.Perm (fyShuffle rnd l) l := by
  rw [fyShuffle]
  suffices h : ∀ (R : List Nat) (acc : List Int), (∀ r ∈ R, r < acc.length) →
      List.Perm acc l →
      List.Perm
        (R.foldl (fun acc i => if i = 0 then acc else listSwap acc i (rnd i % (i + 1))) acc)
        l by
    exact h (List.range l.length) l
      (fun r hr => by simpa using List.mem_range.mp hr) (List.Perm.refl l)
  intro R
  induction R with
  | nil =>
    intro acc _ h
    exact h
  | cons r R' ih =>
    intro acc hR hacc
    rw [List.foldl_cons]
    by_cases hr : r = 0
    · rw [if_pos hr]
      exact ih acc (fun u hu => hR u (List.mem_cons_of_mem _ hu)) hacc
    · rw [if_neg hr]
      have hrlen : r < acc.length := hR r (List.mem_cons_self _ _)
      have hmod : rnd r % (r + 1) < acc.length := by
        have := Nat.mod_lt (rnd r) (show 0 < r + 1 by omega)
        omega
      have hperm := (listSwap_perm acc r (rnd r % (r + 1)) hrlen hmod).trans hacc
      refine ih (listSwap acc r (rnd r % (r + 1))) (fun u hu => ?_) hperm
      rw [(listSwap_perm acc r _ hrlen hmod).length_eq]
      exact hR u (List.mem_cons_of_mem _ hu)

/-- RANDOM: a shuffle of the sorted apparent variables. -/
theorem getRandomVarOrder_perm (cnf : Cnf) (rnd : Nat → Nat) :
    (cnf.getRandomVarOrder rnd).Nodup
    ∧ (cnf.getRandomVarOrder rnd).toFinset = cnf.apparentVars := by
  have hp : List.Perm (cnf.getRandomVarOrder rnd) (cnf.apparentVars.sort (· ≤ ·)) :=
    fyShuffle_perm rnd _
  constructor
  · exact hp.nodup_iff.mpr (Finset.sort_nodup _ _)
  · rw [List.toFinset_eq_of_perm _ _ hp, Finset.sort_toFinset]

/-- DECLARED: the filtered 1..n range enumerates the apparent variables
when all of them are within the declared bounds. -/
theorem getDeclaredVarOrder_perm (cnf : Cnf)
    (hdecl : cnf.apparentVars ⊆ Finset.Icc 1 cnf.declaredVarCount) :
    cnf.getDeclaredVarOrder.Nodup
    ∧ cnf.getDeclaredVarOrder.toFinset = cnf.apparentVars := by
  constructor
  · exact (intRange1_nodup _).filter _
  · ext u
    simp only [Cnf.getDeclaredVarOrder, List.mem_toFinset, List.mem_filter,
      decide_eq_true_eq, mem_intRange1]
    constructor
    · rintro ⟨_, hu⟩
      exact hu
    · intro hu
      have hb := hdecl hu
      rw [Finset.mem_Icc] at hb
      exact ⟨hb, hu⟩

/-- The multimap insert permutes the entry onto the list. -/
theorem mmInsert_perm {α : Type} [LinearOrder α] (e : α × Int) :
    ∀ l : List (α × Int), List.Perm (mmInsert e l) (e :: l) := by
  intro l
  induction l with
  | nil => exact List.Perm.refl _
  | cons x rest ih =>
    rw [mmInsert]
    by_cases hc : x.1 < e.1
    · rw [if_pos hc]
    · rw [if_neg hc]
      exact (ih.cons x).trans (List.Perm.swap e x rest)

/-- Folding multimap inserts permutes the mapped entries onto the
accumulator. -/
theorem mmFold_perm {α : Type} [LinearOrder α] (f : Int × Finset Nat → α × Int) :
    ∀ (L : List (Int × Finset Nat)) (acc : List (α × Int)),
      List.Perm (L.foldl (fun acc p => mmInsert (f p) acc) acc) (L.map f ++ acc) := by
  intro L
  induction L with
  | nil =>
    intro acc
    exact List.Perm.refl _
  | cons p L' ih =>
    intro acc
    rw [List.foldl_cons, List.map_cons, List.cons_append]
    have h1 := ih (mmInsert (f p) acc)
    have h2 : List.Perm (L'.map f ++ mmInsert (f p) acc) (L'.map f ++ f p :: acc) :=
      List.Perm.append_left _ (mmInsert_perm _ _)
    exact (h1.trans h2).trans List.perm_middle

/-- MOST_CLAUSES: a permutation of the keys of varToClauses. -/
theorem getMostClausesVarOrder_perm (cnf : Cnf)
    (hvc1 : (mapKeys cnf.varToClauses).Nodup)
    (hvc2 : (mapKeys cnf.varToClauses).toFinset = cnf.apparentVars) :
    cnf.getMostClausesVarOrder.Nodup
    ∧ cnf.getMostClausesVarOrder.toFinset = cnf.apparentVars := by
  have hm := mmFold_perm
    (fun varAndSet : Int × Finset Nat => ((varAndSet.2.card : Int), varAndSet.1))
    cnf.varToClauses []
  have hmap : List.Perm cnf.getMostClausesVarOrder (mapKeys cnf.varToClauses) := by
    have h2 := hm.map Prod.snd
    rw [List.append_nil, List.map_map] at h2
    exact h2
  constructor
  · exact hmap.nodup_iff.mpr hvc1
  · rw [List.toFinset_eq_of_perm _ _ hmap, hvc2]

theorem firstMinBy_isSome (l : List Int) (f : Int → Int) (hl : l ≠ []) :
    (firstMinBy l f).isSome = true := by
  have haux : ∀ (t : List Int) (b : Int),
      (t.foldl
        (fun best v =>
          match best with
          | none => some v
          | some b => if f v < f b then some v else some b)
        (some b)).isSome = true := by
    intro t
    induction t with
    | nil =>
      intro b
      rfl
    | cons x rest ih =>
      intro b
      rw [List.foldl_cons]
      by_cases hc : f x < f b
      · simp only [if_pos hc]
        exact ih x
      · simp only [if_neg hc]
        exact ih b
  cases l with
  | nil => exact absurd rfl hl
  | cons x rest =>
    rw [firstMinBy, List.foldl_cons]
    exact haux rest x

/-- A nonempty graph yields a minfill vertex. -/
theorem getMinfillVertex_ok (g : Graph) (hne : g.vertices ≠ ∅) :
    ∃ v, g.getMinfillVertex = .ok v := by
  rw [Graph.getMinfillVertex]
  rcases hm : firstMinBy (g.vertices.sort (· ≤ ·)) g.countFillInEdges with _ | v
  · have hs : g.vertices.sort (· ≤ ·) ≠ [] := by
      intro he
      apply hne
      have := Finset.sort_toFinset (· ≤ ·) g.vertices
      rw [he] at this
      simpa using this.symm
    have := firstMinBy_isSome (g.vertices.sort (· ≤ ·)) g.countFillInEdges hs
    rw [hm] at this
    simp at this
  · exact ⟨v, rfl⟩

/-- MINFILL loop: a duplicate-free enumeration of the graph's vertices. -/
theorem minfillLoop_perm :
    ∀ (n : Nat) (g : Graph), g.vertices.card ≤ n →
      (minfillLoop g).Nodup ∧ (minfillLoop g).toFinset = g.vertices := by
  intro n
  induction n with
  | zero =>
    intro g hn
    have hempty : g.vertices = ∅ := Finset.card_eq_zero.mp (by omega)
    rw [minfillLoop, if_pos hempty]
    exact ⟨List.nodup_nil, by simp [hempty]⟩
  | succ m ih =>
    intro g hn
    by_cases hne : g.vertices = ∅
    · rw [minfillLoop, if_pos hne]
      exact ⟨List.nodup_nil, by simp [hne]⟩
    · obtain ⟨v, hv⟩ := getMinfillVertex_ok g hne
      have hvm : v ∈ g.vertices := getMinfillVertex_mem g v hv
      have hrec : minfillLoop g
          = v :: minfillLoop ((g.fillInEdges v).removeVertex v) := by
        rw [minfillLoop, if_neg hne]
        split
        · rename_i e he
          rw [hv] at he
          cases he
        · rename_i w hw
          rw [hv] at hw
          cases hw
          rfl
      have hverts : ((g.fillInEdges v).removeVertex v).vertices
          = g.vertices.erase v := by
        have h1 : ((g.fillInEdges v).removeVertex v).vertices
            = (g.fillInEdges v).vertices.erase v := rfl
        rw [h1, fillInEdges_vertices]
      have hcard : ((g.fillInEdges v).removeVertex v).vertices.card ≤ m := by
        rw [hverts]
        have := Finset.card_erase_lt_of_mem hvm
        omega
      obtain ⟨ihnd, ihfs⟩ := ih ((g.fillInEdges v).removeVertex v) hcard
      rw [hrec]
      constructor
      · rw [List.nodup_cons]
        refine ⟨fun hmem => ?_, ihnd⟩
        have : v ∈ g.vertices.erase v := by
          rw [← hverts, ← ihfs]
          exact List.mem_toFinset.mpr hmem
        simp at this
      · rw [List.toFinset_cons, ihfs, hverts]
        exact Finset.insert_erase hvm

/-- MINFILL: a permutation of the primal graph's vertices, which are the
apparent variables. -/
theorem getPrimalGraph_vertices (cnf : Cnf) :
    cnf.getPrimalGraph.vertices = cnf.apparentVars := by
  rw [Cnf.getPrimalGraph]
  have h : ∀ (cls : List (Finset Int)) (g : Graph),
      (cls.foldl
        (fun graph clause =>
          (iterPairs (clause.sort (· ≤ ·))).foldl
            (fun g p => g.addEdgeU |p.1| |p.2|) graph)
        g).vertices = g.vertices := by
    intro cls
    induction cls with
    | nil =>
      intro g
      rfl
    | cons c rest ih =>
      intro g
      rw [List.foldl_cons, ih]
      exact foldl_addEdgeU_vertices (iterPairs (c.sort (· ≤ ·))) g
        (fun p => (|p.1|, |p.2|))
  rw [h]
  rfl

theorem getMinfillVarOrder_perm (cnf : Cnf) :
    cnf.getMinfillVarOrder.Nodup
    ∧ cnf.getMinfillVarOrder.toFinset = cnf.apparentVars := by
  obtain ⟨h1, h2⟩ := minfillLoop_perm cnf.getPrimalGraph.vertices.card
    cnf.getPrimalGraph (le_refl _)
  exact ⟨h1, by rw [Cnf.getMinfillVarOrder, h2, getPrimalGraph_vertices]⟩

theorem mem_mapKeys_mapSet_iff {β : Type} (m : List (Int × β)) (k j : Int) (v : β) :
    j ∈ mapKeys (mapSet m k v) ↔ j = k ∨ j ∈ mapKeys m := by
  induction m with
  | nil => simp [mapSet, mapKeys]
  | cons p rest ih =>
    obtain ⟨k', v'⟩ := p
    by_cases h1 : k < k'
    · rw [mapSet, if_pos h1]
      simp only [mapKeys, List.map_cons, List.mem_cons]
    · by_cases h2 : k = k'
      · rw [mapSet, if_neg h1, if_pos h2]
        subst h2
        simp only [mapKeys, List.map_cons, List.mem_cons]
        rw [show List.map Prod.fst rest = mapKeys rest from rfl]
        tauto
      · rw [mapSet, if_neg h1, if_neg h2]
        simp only [mapKeys, List.map_cons, List.mem_cons]
        rw [show List.map Prod.fst (mapSet rest k v) = mapKeys (mapSet rest k v) from rfl,
          ih, show List.map Prod.fst rest = mapKeys rest from rfl]
        tauto

theorem mapContains_iff_mem {β : Type} (m : List (Int × β)) (k : Int) :
    mapContains m k = true ↔ k ∈ mapKeys m :=
  ⟨fun h => mapFind?_isSome_mem_keys m k h, fun h => mem_keys_isSome m k h⟩

theorem mem_mapKeys_mapErase_iff {β : Type} (m : List (Int × β)) (k j : Int)
    (hnd : (mapKeys m).Nodup) :
    j ∈ mapKeys (mapErase m k) ↔ j ∈ mapKeys m ∧ j ≠ k := by
  induction m with
  | nil => simp [mapErase, mapKeys]
  | cons p rest ih =>
    obtain ⟨k', v'⟩ := p
    simp only [mapKeys, List.map_cons, List.nodup_cons] at hnd
    by_cases h1 : k = k'
    · subst h1
      simp only [mapErase, if_pos rfl]
      constructor
      · intro hj
        have hjk : j ≠ k := by
          intro he
          exact hnd.1 (he ▸ hj)
        exact ⟨List.mem_cons_of_mem _ hj, hjk⟩
      · rintro ⟨hj, hjk⟩
        rcases List.mem_cons.mp hj with he | hj'
        · exact absurd he hjk
        · exact hj'
    · simp only [mapErase, if_neg h1, mapKeys, List.map_cons, List.mem_cons]
      rw [show (List.map Prod.fst (mapErase rest k)) = mapKeys (mapErase rest k) from rfl,
        ih hnd.2]
      rw [show (List.map Prod.fst rest) = mapKeys rest from rfl]
      constructor
      · rintro (rfl | ⟨hj, hjk⟩)
        · exact ⟨Or.inl rfl, fun he => h1 he.symm⟩
        · exact ⟨Or.inr hj, hjk⟩
      · rintro ⟨rfl | hj, hjk⟩
        · exact Or.inl rfl
        · exact Or.inr ⟨hj, hjk⟩

theorem mapErase_of_not_mem {β : Type} (m : List (Int × β)) (k : Int)
    (h : k ∉ mapKeys m) : mapErase m k = m := by
  induction m with
  | nil => rfl
  | cons p rest ih =>
    obtain ⟨k', v'⟩ := p
    simp only [mapKeys, List.map_cons, List.mem_cons] at h
    push_neg at h
    rw [mapErase, if_neg h.1, ih (by simpa [mapKeys] using h.2)]

theorem mapErase_keys_length {β : Type} (m : List (Int × β)) (k : Int)
    (hk : k ∈ mapKeys m) :
    (mapKeys (mapErase m k)).length + 1 = (mapKeys m).length := by
  induction m with
  | nil => simp [mapKeys] at hk
  | cons p rest ih =>
    obtain ⟨k', v'⟩ := p
    by_cases h1 : k = k'
    · rw [mapErase, if_pos h1]
      simp [mapKeys]
    · rw [mapErase, if_neg h1]
      have hk' : k ∈ mapKeys rest := by
        rcases List.mem_cons.mp hk with he | h'
        · exact absurd he h1
        · exact h'
      simp only [mapKeys, List.map_cons, List.length_cons]
      rw [show (List.map Prod.fst (mapErase rest k)) = mapKeys (mapErase rest k) from rfl]
      rw [show (List.map Prod.fst rest) = mapKeys rest from rfl]
      have := ih hk'
      omega

theorem mapKeys_pairMap {β : Type} (l : List Int) (f : Int → β) :
    mapKeys (l.map fun v => (v, f v)) = l := by
  rw [mapKeys, List.map_map]
  have h : (Prod.fst ∘ fun v : Int => (v, f v)) = fun v : Int => v := rfl
  rw [h]
  simp

/-- A best-so-far fold either keeps the accumulator or replaces it with the
current element, so a `some` result is the accumulator or a list member. -/
theorem foldBest_mem {γ : Type} (s : Option γ → γ → Option γ)
    (hs : ∀ b p, s b p = some p ∨ s b p = b) :
    ∀ (l : List γ) (acc : Option γ) (q : γ),
      l.foldl s acc = some q → acc = some q ∨ q ∈ l := by
  intro l
  induction l with
  | nil =>
    intro acc q h
    exact Or.inl h
  | cons x rest ih =>
    intro acc q h
    rw [List.foldl_cons] at h
    rcases ih (s acc x) q h with h' | h'
    · rcases hs acc x with he | he
      · rw [he] at h'
        have hxq : x = q := Option.some.inj h'
        exact Or.inr (hxq ▸ List.mem_cons_self x rest)
      · rw [he] at h'
        exact Or.inl h'
    · exact Or.inr (List.mem_cons_of_mem _ h')

theorem foldBest_isSome {γ : Type} (s : Option γ → γ → Option γ)
    (hs : ∀ b p, s b p = some p ∨ s b p = b) :
    ∀ (l : List γ) (b : γ), ((l.foldl s (some b)).isSome) = true := by
  intro l
  induction l with
  | nil =>
    intro b
    rfl
  | cons x rest ih =>
    intro b
    rw [List.foldl_cons]
    rcases hs (some b) x with he | he
    · rw [he]
      exact ih x
    · rw [he]
      exact ih b

theorem sndStep_cases : ∀ (b : Option (Int × Int)) (p : Int × Int),
    (match b with
      | none => some p
      | some b' => if b'.2 < p.2 then some p else some b') = some p
    ∨ (match b with
      | none => some p
      | some b' => if b'.2 < p.2 then some p else some b') = b := by
  intro b p
  cases b with
  | none => exact Or.inl rfl
  | some b' =>
    dsimp only
    by_cases hc : b'.2 < p.2
    · rw [if_pos hc]
      exact Or.inl rfl
    · rw [if_neg hc]
      exact Or.inr rfl

theorem labelStep_cases : ∀ (b : Option (Int × Label)) (p : Int × Label),
    (match b with
      | none => some p
      | some b' => if labelLt b'.2 p.2 then some p else some b') = some p
    ∨ (match b with
      | none => some p
      | some b' => if labelLt b'.2 p.2 then some p else some b') = b := by
  intro b p
  cases b with
  | none => exact Or.inl rfl
  | some b' =>
    dsimp only
    by_cases hc : labelLt b'.2 p.2
    · rw [if_pos hc]
      exact Or.inl rfl
    · rw [if_neg hc]
      exact Or.inr rfl

theorem firstMaxBySnd_mem (m : List (Int × Int)) (v : Int)
    (h : firstMaxBySnd m = some v) : v ∈ mapKeys m := by
  rw [firstMaxBySnd] at h
  rcases hf : m.foldl
      (fun best p =>
        match best with
        | none => some p
        | some b => if b.2 < p.2 then some p else some b)
      none with _ | q
  · rw [hf] at h
    simp at h
  · rw [hf] at h
    have hq : q ∈ m := by
      rcases foldBest_mem _ sndStep_cases m none q hf with h' | h'
      · exact absurd h' (by simp)
      · exact h'
    have hv : q.1 = v := Option.some.inj h
    exact hv ▸ List.mem_map_of_mem Prod.fst hq

theorem firstMaxBySnd_none (m : List (Int × Int))
    (h : firstMaxBySnd m = none) : m = [] := by
  cases m with
  | nil => rfl
  | cons x rest =>
    rw [firstMaxBySnd, List.foldl_cons] at h
    have := foldBest_isSome _ sndStep_cases rest x
    rcases hf : rest.foldl
        (fun best p =>
          match best with
          | none => some p
          | some b => if b.2 < p.2 then some p else some b)
        (some x) with _ | q
    · rw [hf] at this
      simp at this
    · rw [hf] at h
      simp at h

theorem firstMaxByLabel_mem (m : List (Int × Label)) (v : Int)
    (h : firstMaxByLabel m = some v) : v ∈ mapKeys m := by
  rw [firstMaxByLabel] at h
  rcases hf : m.foldl
      (fun best p =>
        match best with
        | none => some p
        | some b => if labelLt b.2 p.2 then some p else some b)
      none with _ | q
  · rw [hf] at h
    simp at h
  · rw [hf] at h
    have hq : q ∈ m := by
      rcases foldBest_mem _ labelStep_cases m none q hf with h' | h'
      · exact absurd h' (by simp)
      · exact h'
    have hv : q.1 = v := Option.some.inj h
    exact hv ▸ List.mem_map_of_mem Prod.fst hq

theorem firstMaxByLabel_none (m : List (Int × Label))
    (h : firstMaxByLabel m = none) : m = [] := by
  cases m with
  | nil => rfl
  | cons x rest =>
    rw [firstMaxByLabel, List.foldl_cons] at h
    have := foldBest_isSome _ labelStep_cases rest x
    rcases hf : rest.foldl
        (fun best p =>
          match best with
          | none => some p
          | some b => if labelLt b.2 p.2 then some p else some b)
        (some x) with _ | q
    · rw [hf] at this
      simp at this
    · rw [hf] at h
      simp at h

/-- A fold of steps each of which preserves sortedness and the key set
preserves both. -/
theorem updateFold_keys_all {β : Type} (s : List (Int × β) → Int → List (Int × β))
    (hs : ∀ m a, mapSorted m →
      mapSorted (s m a) ∧ ∀ j, (j ∈ mapKeys (s m a) ↔ j ∈ mapKeys m)) :
    ∀ (L : List Int) (m : List (Int × β)), mapSorted m →
      mapSorted (L.foldl s m) ∧ ∀ j, (j ∈ mapKeys (L.foldl s m) ↔ j ∈ mapKeys m) := by
  intro L
  induction L with
  | nil =>
    intro m hm
    exact ⟨hm, fun j => Iff.rfl⟩
  | cons a L' ih =>
    intro m hm
    rw [List.foldl_cons]
    obtain ⟨h1, h2⟩ := hs m a hm
    obtain ⟨h3, h4⟩ := ih (s m a) h1
    exact ⟨h3, fun j => (h4 j).trans (h2 j)⟩

/-- Same, for steps that preserve the key set only at keys of the map,
folded over a list of such keys. -/
theorem updateFold_keys_mem {β : Type} (s : List (Int × β) → Int → List (Int × β))
    (hs : ∀ m a, mapSorted m → a ∈ mapKeys m →
      mapSorted (s m a) ∧ ∀ j, (j ∈ mapKeys (s m a) ↔ j ∈ mapKeys m)) :
    ∀ (L : List Int) (m : List (Int × β)), mapSorted m → (∀ a ∈ L, a ∈ mapKeys m) →
      mapSorted (L.foldl s m) ∧ ∀ j, (j ∈ mapKeys (L.foldl s m) ↔ j ∈ mapKeys m) := by
  intro L
  induction L with
  | nil =>
    intro m hm _
    exact ⟨hm, fun j => Iff.rfl⟩
  | cons a L' ih =>
    intro m hm hL
    rw [List.foldl_cons]
    obtain ⟨h1, h2⟩ := hs m a hm (hL a (List.mem_cons_self _ _))
    obtain ⟨h3, h4⟩ := ih (s m a) h1
      (fun u hu => (h2 u).mpr (hL u (List.mem_cons_of_mem _ hu)))
    exact ⟨h3, fun j => (h4 j).trans (h2 j)⟩

/-- The neighbor-count bump of the MCS loop preserves sortedness and the
key set. -/
theorem mcsBump_keys (m : List (Int × Int)) (a : Int) (hm : mapSorted m) :
    mapSorted (if mapContains m a then mapSet m a (mapFindD m a 0 + 1) else m)
    ∧ ∀ j, (j ∈ mapKeys (if mapContains m a then mapSet m a (mapFindD m a 0 + 1) else m)
        ↔ j ∈ mapKeys m) := by
  by_cases hc : mapContains m a = true
  · rw [if_pos hc]
    refine ⟨mapSorted_mapSet m a _ hm, fun j => ?_⟩
    rw [mem_mapKeys_mapSet_iff]
    constructor
    · rintro (rfl | hj)
      · exact (mapContains_iff_mem m j).mp hc
      · exact hj
    · exact Or.inr
  · rw [if_neg hc]
    exact ⟨hm, fun j => Iff.rfl⟩

/-- The MCS loop enumerates, without duplicates, the picked vertex and the
keys remaining after erasing it. -/
theorem mcsLoop_perm (g : Graph) :
    ∀ (fuel : Nat) (counts : List (Int × Int)) (best : Int),
      mapSorted counts →
      (mapKeys (mapErase counts best)).length ≤ fuel →
      (mcsLoop g fuel counts best).Nodup
      ∧ (mcsLoop g fuel counts best).toFinset
        = insert best (mapKeys (mapErase counts best)).toFinset := by
  intro fuel
  induction fuel with
  | zero =>
    intro counts best hs hlen
    rw [mcsLoop]
    refine ⟨by simp, ?_⟩
    have hnil : mapKeys (mapErase counts best) = [] :=
      List.length_eq_zero.mp (by omega)
    rw [hnil]
    simp
  | succ m ih =>
    intro counts best hs hlen
    rw [mcsLoop]
    have hs1 : mapSorted (mapErase counts best) := mapSorted_mapErase counts best hs
    obtain ⟨hs2, hk2⟩ := updateFold_keys_all
      (fun m n => if mapContains m n then mapSet m n (mapFindD m n 0 + 1) else m)
      mcsBump_keys
      ((g.adj best).sort (· ≤ ·)) (mapErase counts best) hs1
    set c1 := mapErase counts best with hc1
    set c2 := ((g.adj best).sort (· ≤ ·)).foldl
      (fun m n => if mapContains m n then mapSet m n (mapFindD m n 0 + 1) else m) c1
      with hc2
    have hnd1 : (mapKeys c1).Nodup := mapSorted_nodupKeys c1 hs1
    have hnd2 : (mapKeys c2).Nodup := mapSorted_nodupKeys c2 hs2
    rcases hfm : firstMaxBySnd c2 with _ | b
    · dsimp only
      have hc2nil : c2 = [] := firstMaxBySnd_none c2 hfm
      have hk1nil : (mapKeys c1).toFinset = ∅ := by
        ext j
        simp only [List.mem_toFinset, Finset.not_mem_empty, iff_false]
        intro hj
        have := (hk2 j).mpr hj
        rw [hc2nil] at this
        simp [mapKeys] at this
      refine ⟨by simp, ?_⟩
      rw [hk1nil]
      simp
    · dsimp only
      have hbmem : b ∈ mapKeys c2 := firstMaxBySnd_mem c2 b hfm
      have hcardeq : (mapKeys c2).length = (mapKeys c1).length := by
        rw [← List.toFinset_card_of_nodup hnd2, ← List.toFinset_card_of_nodup hnd1]
        congr 1
        ext j
        simp only [List.mem_toFinset]
        exact hk2 j
      have hlen2 : (mapKeys (mapErase c2 b)).length ≤ m := by
        have := mapErase_keys_length c2 b hbmem
        omega
      obtain ⟨ihnd, ihfs⟩ := ih c2 b hs2 hlen2
      constructor
      · rw [List.nodup_cons]
        refine ⟨fun hmem => ?_, ihnd⟩
        have h1 : best ∈ (mcsLoop g m c2 b).toFinset := List.mem_toFinset.mpr hmem
        rw [ihfs] at h1
        have h2 : best ∈ mapKeys c2 := by
          rcases Finset.mem_insert.mp h1 with rfl | h'
          · exact hbmem
          · exact ((mem_mapKeys_mapErase_iff c2 b best hnd2).mp
              (List.mem_toFinset.mp h')).1
        have h3 : best ∈ mapKeys c1 := (hk2 best).mp h2
        have h4 := (mem_mapKeys_mapErase_iff counts best best
          (mapSorted_nodupKeys counts hs)).mp h3
        exact h4.2 rfl
      · rw [List.toFinset_cons, ihfs]
        ext j
        simp only [Finset.mem_insert, List.mem_toFinset]
        constructor
        · rintro (rfl | rfl | hj)
          · exact Or.inl rfl
          · exact Or.inr ((hk2 j).mp hbmem)
          · exact Or.inr ((hk2 j).mp
              ((mem_mapKeys_mapErase_iff c2 b j hnd2).mp hj).1)
        · rintro (rfl | hj)
          · exact Or.inl rfl
          · by_cases hjb : j = b
            · exact Or.inr (Or.inl hjb)
            · exact Or.inr (Or.inr ((mem_mapKeys_mapErase_iff c2 b j hnd2).mpr
                ⟨(hk2 j).mpr hj, hjb⟩))

/-- MCS: a permutation of the primal graph's vertices. -/
theorem getMcsVarOrder_perm (cnf : Cnf) :
    cnf.getMcsVarOrder.Nodup ∧ cnf.getMcsVarOrder.toFinset = cnf.apparentVars := by
  rw [Cnf.getMcsVarOrder]
  rcases hsrt : cnf.getPrimalGraph.vertices.sort (· ≤ ·) with _ | ⟨sv, rest⟩
  · dsimp only
    have hv : cnf.getPrimalGraph.vertices = ∅ := by
      have := Finset.sort_toFinset (· ≤ ·) cnf.getPrimalGraph.vertices
      rw [hsrt] at this
      simpa using this.symm
    refine ⟨by simp, ?_⟩
    rw [← getPrimalGraph_vertices cnf, hv]
    simp
  · dsimp only
    have hsorted : List.Pairwise (· < ·) (sv :: rest) := by
      have := Finset.sort_sorted_lt cnf.getPrimalGraph.vertices
      rw [hsrt] at this
      exact this
    have hnd : (sv :: rest).Nodup := by
      have := Finset.sort_nodup (· ≤ ·) cnf.getPrimalGraph.vertices
      rw [hsrt] at this
      exact this
    have hkeys : mapKeys (rest.map fun v => (v, (0 : Int))) = rest :=
      mapKeys_pairMap rest (fun _ => 0)
    have hsm : mapSorted (rest.map fun v => (v, (0 : Int))) := by
      rw [mapSorted, List.pairwise_map]
      exact (List.pairwise_cons.mp hsorted).2
    have hsvnot : sv ∉ rest := (List.nodup_cons.mp hnd).1
    have hererase : mapErase (rest.map fun v => (v, (0 : Int))) sv
        = rest.map fun v => (v, (0 : Int)) := by
      refine mapErase_of_not_mem _ sv ?_
      rw [hkeys]
      exact hsvnot
    have hcard : cnf.getPrimalGraph.vertices.card = rest.length + 1 := by
      have := Finset.length_sort (α := Int) (· ≤ ·)
        (s := cnf.getPrimalGraph.vertices)
      rw [hsrt] at this
      simpa using this.symm
    have hlen : (mapKeys (mapErase (rest.map fun v => (v, (0 : Int))) sv)).length
        ≤ cnf.getPrimalGraph.vertices.card := by
      rw [hererase, hkeys]
      omega
    obtain ⟨h1, h2⟩ := mcsLoop_perm cnf.getPrimalGraph
      cnf.getPrimalGraph.vertices.card (rest.map fun v => (v, (0 : Int))) sv hsm hlen
    refine ⟨h1, ?_⟩
    rw [h2, hererase, hkeys]
    have := Finset.sort_toFinset (· ≤ ·) cnf.getPrimalGraph.vertices
    rw [hsrt] at this
    rw [← getPrimalGraph_vertices cnf, ← this]
    simp

/-- A guarded map update (set only when the key is present) preserves
sortedness and the key set. -/
theorem guardedSet_keys {β : Type} (f : List (Int × β) → Int → β)
    (m : List (Int × β)) (a : Int) (hm : mapSorted m) :
    mapSorted (if mapContains m a then mapSet m a (f m a) else m)
    ∧ ∀ j, (j ∈ mapKeys (if mapContains m a then mapSet m a (f m a) else m)
        ↔ j ∈ mapKeys m) := by
  by_cases hc : mapContains m a = true
  · rw [if_pos hc]
    refine ⟨mapSorted_mapSet m a _ hm, fun j => ?_⟩
    rw [mem_mapKeys_mapSet_iff]
    constructor
    · rintro (rfl | hj)
      · exact (mapContains_iff_mem m j).mp hc
      · exact hj
    · exact Or.inr
  · rw [if_neg hc]
    exact ⟨hm, fun j => Iff.rfl⟩

/-- The LEXP loop enumerates the map keys without duplicates. -/
theorem lexpLoop_perm (g : Graph) :
    ∀ (fuel : Nat) (u : List (Int × Label)),
      mapSorted u → (mapKeys u).length = fuel →
      (lexpLoop g fuel u).Nodup
      ∧ (lexpLoop g fuel u).toFinset = (mapKeys u).toFinset := by
  intro fuel
  induction fuel with
  | zero =>
    intro u hs hlen
    rw [lexpLoop]
    have hnil : mapKeys u = [] := List.length_eq_zero.mp hlen
    rw [hnil]
    exact ⟨List.nodup_nil, by simp⟩
  | succ m ih =>
    intro u hs hlen
    rw [lexpLoop]
    rcases hfm : firstMaxByLabel u with _ | v
    · have hnilu := firstMaxByLabel_none u hfm
      rw [hnilu] at hlen
      simp [mapKeys] at hlen
    · dsimp only
      have hvmem : v ∈ mapKeys u := firstMaxByLabel_mem u v hfm
      have hndu : (mapKeys u).Nodup := mapSorted_nodupKeys u hs
      have hs1 : mapSorted (mapErase u v) := mapSorted_mapErase u v hs
      obtain ⟨hs2, hk2⟩ := updateFold_keys_all
        (fun m' neighbor =>
          if mapContains m' neighbor
          then mapSet m' neighbor (Label.addNumber (mapFindD m' neighbor []) (m + 1))
          else m')
        (fun m' a' hm' => guardedSet_keys
          (fun mm aa => Label.addNumber (mapFindD mm aa []) (m + 1)) m' a' hm')
        ((g.adj v).sort (· ≤ ·)) (mapErase u v) hs1
      set u2 := ((g.adj v).sort (· ≤ ·)).foldl
        (fun m' neighbor =>
          if mapContains m' neighbor
          then mapSet m' neighbor (Label.addNumber (mapFindD m' neighbor []) (m + 1))
          else m')
        (mapErase u v) with hu2
      have hnd1 : (mapKeys (mapErase u v)).Nodup := mapSorted_nodupKeys _ hs1
      have hnd2 : (mapKeys u2).Nodup := mapSorted_nodupKeys _ hs2
      have hcardeq : (mapKeys u2).length = (mapKeys (mapErase u v)).length := by
        rw [← List.toFinset_card_of_nodup hnd2, ← List.toFinset_card_of_nodup hnd1]
        congr 1
        ext j
        simp only [List.mem_toFinset]
        exact hk2 j
      have herlen := mapErase_keys_length u v hvmem
      have hlen2 : (mapKeys u2).length = m := by omega
      obtain ⟨ihnd, ihfs⟩ := ih u2 hs2 hlen2
      constructor
      · rw [List.nodup_cons]
        refine ⟨fun hmem => ?_, ihnd⟩
        have h1 : v ∈ (lexpLoop g m u2).toFinset := List.mem_toFinset.mpr hmem
        rw [ihfs] at h1
        have h2 : v ∈ mapKeys (mapErase u v) := (hk2 v).mp (List.mem_toFinset.mp h1)
        exact ((mem_mapKeys_mapErase_iff u v v hndu).mp h2).2 rfl
      · rw [List.toFinset_cons, ihfs]
        ext j
        simp only [Finset.mem_insert, List.mem_toFinset]
        constructor
        · rintro (rfl | hj)
          · exact hvmem
          · exact ((mem_mapKeys_mapErase_iff u v j hndu).mp ((hk2 j).mp hj)).1
        · intro hj
          by_cases hjv : j = v
          · exact Or.inl hjv
          · exact Or.inr ((hk2 j).mpr
              ((mem_mapKeys_mapErase_iff u v j hndu).mpr ⟨hj, hjv⟩))

/-- LEXP: a permutation of the apparent variables. -/
theorem getLexpVarOrder_perm (cnf : Cnf) :
    cnf.getLexpVarOrder.Nodup ∧ cnf.getLexpVarOrder.toFinset = cnf.apparentVars := by
  rw [Cnf.getLexpVarOrder]
  have hkeys : mapKeys ((cnf.apparentVars.sort (· ≤ ·)).map fun v => (v, ([] : Label)))
      = cnf.apparentVars.sort (· ≤ ·) :=
    mapKeys_pairMap _ (fun _ => [])
  have hsm : mapSorted ((cnf.apparentVars.sort (· ≤ ·)).map fun v => (v, ([] : Label))) := by
    rw [mapSorted, List.pairwise_map]
    exact Finset.sort_sorted_lt cnf.apparentVars
  have hlen : (mapKeys ((cnf.apparentVars.sort (· ≤ ·)).map fun v => (v, ([] : Label)))).length
      = cnf.apparentVars.card := by
    rw [hkeys]
    exact Finset.length_sort (· ≤ ·)
  obtain ⟨h1, h2⟩ := lexpLoop_perm cnf.getPrimalGraph cnf.apparentVars.card
    ((cnf.apparentVars.sort (· ≤ ·)).map fun v => (v, ([] : Label))) hsm hlen
  refine ⟨h1, ?_⟩
  rw [h2, hkeys, Finset.sort_toFinset]

/-- One step of the LEXM label-update pass preserves sortedness and the
key set when applied at a present key. -/
theorem lexmStep_keys (cnf : Cnf) (nb : List Int) (v : Int) (i : Int)
    (m : List (Int × Label)) (a : Int) (hm : mapSorted m) (ha : a ∈ mapKeys m) :
    mapSorted (if (lexmSubgraph cnf nb v a m).hasPathB v a
        then mapSet m a (Label.addNumber (mapFindD m a []) i) else m)
    ∧ ∀ j, (j ∈ mapKeys (if (lexmSubgraph cnf nb v a m).hasPathB v a
        then mapSet m a (Label.addNumber (mapFindD m a []) i) else m)
      ↔ j ∈ mapKeys m) := by
  by_cases hc : (lexmSubgraph cnf nb v a m).hasPathB v a = true
  · rw [if_pos hc]
    refine ⟨mapSorted_mapSet m a _ hm, fun j => ?_⟩
    rw [mem_mapKeys_mapSet_iff]
    constructor
    · rintro (rfl | hj)
      · exact ha
      · exact hj
    · exact Or.inr
  · rw [if_neg hc]
    exact ⟨hm, fun j => Iff.rfl⟩

/-- The LEXM label-update pass preserves sortedness and the key set. -/
theorem lexmUpdate_keys (cnf : Cnf) (nb : List Int) (v : Int) (i : Int)
    (u : List (Int × Label)) (hs : mapSorted u) :
    mapSorted (lexmUpdate cnf nb v i u)
    ∧ ∀ j, (j ∈ mapKeys (lexmUpdate cnf nb v i u) ↔ j ∈ mapKeys u) := by
  rw [lexmUpdate]
  exact updateFold_keys_mem _ (lexmStep_keys cnf nb v i) (mapKeys u) u hs
    (fun a ha => ha)

/-- The LEXM loop enumerates the map keys without duplicates. -/
theorem lexmLoop_perm (cnf : Cnf) :
    ∀ (fuel : Nat) (u : List (Int × Label)) (numbered : List Int),
      mapSorted u → (mapKeys u).length = fuel →
      (lexmLoop cnf fuel u numbered).Nodup
      ∧ (lexmLoop cnf fuel u numbered).toFinset = (mapKeys u).toFinset := by
  intro fuel
  induction fuel with
  | zero =>
    intro u numbered hs hlen
    rw [lexmLoop]
    have hnil : mapKeys u = [] := List.length_eq_zero.mp hlen
    rw [hnil]
    exact ⟨List.nodup_nil, by simp⟩
  | succ m ih =>
    intro u numbered hs hlen
    rw [lexmLoop]
    rcases hfm : firstMaxByLabel u with _ | v
    · have hnilu := firstMaxByLabel_none u hfm
      rw [hnilu] at hlen
      simp [mapKeys] at hlen
    · dsimp only
      have hvmem : v ∈ mapKeys u := firstMaxByLabel_mem u v hfm
      have hndu : (mapKeys u).Nodup := mapSorted_nodupKeys u hs
      have hs1 : mapSorted (mapErase u v) := mapSorted_mapErase u v hs
      obtain ⟨hs2, hk2⟩ := lexmUpdate_keys cnf (numbered ++ [v]) v ((m : Int) + 1)
        (mapErase u v) hs1
      set u2 := lexmUpdate cnf (numbered ++ [v]) v ((m : Int) + 1) (mapErase u v) with hu2
      have hnd1 : (mapKeys (mapErase u v)).Nodup := mapSorted_nodupKeys _ hs1
      have hnd2 : (mapKeys u2).Nodup := mapSorted_nodupKeys _ hs2
      have hcardeq : (mapKeys u2).length = (mapKeys (mapErase u v)).length := by
        rw [← List.toFinset_card_of_nodup hnd2, ← List.toFinset_card_of_nodup hnd1]
        congr 1
        ext j
        simp only [List.mem_toFinset]
        exact hk2 j
      have herlen := mapErase_keys_length u v hvmem
      have hlen2 : (mapKeys u2).length = m := by omega
      obtain ⟨ihnd, ihfs⟩ := ih u2 (numbered ++ [v]) hs2 hlen2
      constructor
      · rw [List.nodup_cons]
        refine ⟨fun hmem => ?_, ihnd⟩
        have h1 : v ∈ (lexmLoop cnf m u2 (numbered ++ [v])).toFinset :=
          List.mem_toFinset.mpr hmem
        rw [ihfs] at h1
        have h2 : v ∈ mapKeys (mapErase u v) := (hk2 v).mp (List.mem_toFinset.mp h1)
        exact ((mem_mapKeys_mapErase_iff u v v hndu).mp h2).2 rfl
      · rw [List.toFinset_cons, ihfs]
        ext j
        simp only [Finset.mem_insert, List.mem_toFinset]
        constructor
        · rintro (rfl | hj)
          · exact hvmem
          · exact ((mem_mapKeys_mapErase_iff u v j hndu).mp ((hk2 j).mp hj)).1
        · intro hj
          by_cases hjv : j = v
          · exact Or.inl hjv
          · exact Or.inr ((hk2 j).mpr
              ((mem_mapKeys_mapErase_iff u v j hndu).mpr ⟨hj, hjv⟩))

/-- LEXM: a permutation of the apparent variables. -/
theorem getLexmVarOrder_perm (cnf : Cnf) :
    cnf.getLexmVarOrder.Nodup ∧ cnf.getLexmVarOrder.toFinset = cnf.apparentVars := by
  rw [Cnf.getLexmVarOrder]
  have hkeys : mapKeys ((cnf.apparentVars.sort (· ≤ ·)).map fun v => (v, ([] : Label)))
      = cnf.apparentVars.sort (· ≤ ·) :=
    mapKeys_pairMap _ (fun _ => [])
  have hsm : mapSorted ((cnf.apparentVars.sort (· ≤ ·)).map fun v => (v, ([] : Label))) := by
    rw [mapSorted, List.pairwise_map]
    exact Finset.sort_sorted_lt cnf.apparentVars
  have hlen : (mapKeys ((cnf.apparentVars.sort (· ≤ ·)).map fun v => (v, ([] : Label)))).length
      = cnf.apparentVars.card := by
    rw [hkeys]
    exact Finset.length_sort (· ≤ ·)
  obtain ⟨h1, h2⟩ := lexmLoop_perm cnf cnf.apparentVars.card
    ((cnf.apparentVars.sort (· ≤ ·)).map fun v => (v, ([] : Label))) [] hsm hlen
  refine ⟨h1, ?_⟩
  rw [h2, hkeys, Finset.sort_toFinset]

/-- C4: for every heuristic code whose absolute value selects one of the
seven CNF variable-order heuristics, getCnfVarOrder returns a permutation
of apparentVars — each apparent variable exactly once and nothing else —
and negating the code reverses the order exactly.  The DECLARED case needs
the apparent variables within the declared range and the MOST_CLAUSES case
needs varToClauses keyed exactly by the apparent variables; the parser
establishes both. -/
theorem c4_cnf_var_order_permutation (cnf : Cnf) (rnd : Nat → Nat) (h : Int)
    (hcode : |h| ∈ CNF_VAR_ORDER_HEURISTICS)
    (hdecl : cnf.apparentVars ⊆ Finset.Icc 1 cnf.declaredVarCount)
    (hvc1 : (mapKeys cnf.varToClauses).Nodup)
    (hvc2 : (mapKeys cnf.varToClauses).toFinset = cnf.apparentVars) :
    (cnf.getCnfVarOrder rnd h).Nodup
    ∧ (cnf.getCnfVarOrder rnd h).toFinset = cnf.apparentVars
    ∧ cnf.getCnfVarOrder rnd (-h) = (cnf.getCnfVarOrder rnd h).reverse := by
  have hbase :
      ((if |h| = RANDOM then cnf.getRandomVarOrder rnd
        else if |h| = DECLARED then cnf.getDeclaredVarOrder
        else if |h| = MOST_CLAUSES then cnf.getMostClausesVarOrder
        else if |h| = MINFILL then cnf.getMinfillVarOrder
        else if |h| = MCS then cnf.getMcsVarOrder
        else if |h| = LEXP then cnf.getLexpVarOrder
        else cnf.getLexmVarOrder) : List Int).Nodup
      ∧ ((if |h| = RANDOM then cnf.getRandomVarOrder rnd
        else if |h| = DECLARED then cnf.getDeclaredVarOrder
        else if |h| = MOST_CLAUSES then cnf.getMostClausesVarOrder
        else if |h| = MINFILL then cnf.getMinfillVarOrder
        else if |h| = MCS then cnf.getMcsVarOrder
        else if |h| = LEXP then cnf.getLexpVarOrder
        else cnf.getLexmVarOrder) : List Int).toFinset = cnf.apparentVars := by
    by_cases h1 : |h| = RANDOM
    · rw [if_pos h1]
      exact getRandomVarOrder_perm cnf rnd
    · rw [if_neg h1]
      by_cases h2 : |h| = DECLARED
      · rw [if_pos h2]
        exact getDeclaredVarOrder_perm cnf hdecl
      · rw [if_neg h2]
        by_cases h3 : |h| = MOST_CLAUSES
        · rw [if_pos h3]
          exact getMostClausesVarOrder_perm cnf hvc1 hvc2
        · rw [if_neg h3]
          by_cases h4 : |h| = MINFILL
          · rw [if_pos h4]
            exact getMinfillVarOrder_perm cnf
          · rw [if_neg h4]
            by_cases h5 : |h| = MCS
            · rw [if_pos h5]
              exact getMcsVarOrder_perm cnf
            · rw [if_neg h5]
              by_cases h6 : |h| = LEXP
              · rw [if_pos h6]
                exact getLexpVarOrder_perm cnf
              · rw [if_neg h6]
                exact getLexmVarOrder_perm cnf
  obtain ⟨hbnd, hbfs⟩ := hbase
  have hne : h ≠ 0 := by
    intro he
    rw [he] at hcode
    exact absurd hcode (by decide)
  simp only [Cnf.getCnfVarOrder]
  rw [abs_neg]
  by_cases hsign : h < 0
  · rw [if_pos hsign, if_neg (show ¬ -h < 0 by omega)]
    refine ⟨?_, ?_, ?_⟩
    · rw [List.nodup_reverse]
      exact hbnd
    · rw [List.toFinset_reverse]
      exact hbfs
    · rw [List.reverse_reverse]
  · rw [if_neg hsign, if_pos (show -h < 0 by omega)]
    exact ⟨hbnd, hbfs, rfl⟩

/-- Witness for c4_cnf_var_order_permutation: the DECLARED heuristic (code
2) over a one-variable CNF. -/
theorem c4_cnf_var_order_permutation_witness :
    (|(2 : Int)| ∈ CNF_VAR_ORDER_HEURISTICS
      ∧ ({ declaredVarCount := 1, clauses := [{1}], varToClauses := [(1, {0})], apparentVars := {1} } : Cnf).apparentVars ⊆ Finset.Icc 1 ({ declaredVarCount := 1, clauses := [{1}], varToClauses := [(1, {0})], apparentVars := {1} } : Cnf).declaredVarCount
      ∧ (mapKeys ({ declaredVarCount := 1, clauses := [{1}], varToClauses := [(1, {0})], apparentVars := {1} } : Cnf).varToClauses).Nodup
      ∧ (mapKeys ({ declaredVarCount := 1, clauses := [{1}], varToClauses := [(1, {0})], apparentVars := {1} } : Cnf).varToClauses).toFinset = ({ declaredVarCount := 1, clauses := [{1}], varToClauses := [(1, {0})], apparentVars := {1} } : Cnf).apparentVars)
    ∧ (Cnf.getCnfVarOrder { declaredVarCount := 1, clauses := [{1}], varToClauses := [(1, {0})], apparentVars := {1} } (fun _ => 0) 2).Nodup
    ∧ (Cnf.getCnfVarOrder { declaredVarCount := 1, clauses := [{1}], varToClauses := [(1, {0})], apparentVars := {1} } (fun _ => 0) 2).toFinset = ({ declaredVarCount := 1, clauses := [{1}], varToClauses := [(1, {0})], apparentVars := {1} } : Cnf).apparentVars
    ∧ Cnf.getCnfVarOrder { declaredVarCount := 1, clauses := [{1}], varToClauses := [(1, {0})], apparentVars := {1} } (fun _ => 0) (-2)
      = (Cnf.getCnfVarOrder { declaredVarCount := 1, clauses := [{1}], varToClauses := [(1, {0})], apparentVars := {1} } (fun _ => 0) 2).reverse :=
  ⟨⟨by decide, by decide, by decide, by decide⟩,
    (c4_cnf_var_order_permutation
      { declaredVarCount := 1, clauses := [{1}], varToClauses := [(1, {0})], apparentVars := {1} }
      (fun _ => 0) 2 (by decide) (by decide) (by decide) (by decide)).1,
    (c4_cnf_var_order_permutation
      { declaredVarCount := 1, clauses := [{1}], varToClauses := [(1, {0})], apparentVars := {1} }
      (fun _ => 0) 2 (by decide) (by decide) (by decide) (by decide)).2.1,
    (c4_cnf_var_order_permutation
      { declaredVarCount := 1, clauses := [{1}], varToClauses := [(1, {0})], apparentVars := {1} }
      (fun _ => 0) 2 (by decide) (by decide) (by decide) (by decide)).2.2⟩
